import Mathlib

/-!
# Quadtree: a shallow embedding of `quadtree.hpp` / `quadtree_impl.hpp`

The C++ program stores points (coordinate + payload) in a quadtree and answers
axis-aligned range queries.  This file embeds the data model and the three
operations `Tree::insert`, `Tree::remove`, `Tree::query` and proves properties
of them.

Modelling conventions.

* Coordinates (`float` in the source) are exact rationals.
* A `std::unique_ptr<Node>` is a `NodePtr`: either `null` or an owned node with
  its three corner fields, its four child slots and its point vector.
* `Node::getChild` returns a reference to one of the four child slots; the
  reference is a `Slot`, read with `NodePtr.child` and written with
  `NodePtr.setChild`.
* A raw `Node*` pointing into the tree (the local `node`, the entries of the
  `std::stack` in `remove`) is the list of slots leading from the root to that
  node; `NodePtr.nodeAt` dereferences it and `NodePtr.modifyAt` mutates the
  pointee in place.
* A mutating member function maps the tree before the call to the pair of the
  call's result (`Except.ok ()` for a normal return, `Except.error e` for a
  thrown exception or for undefined behaviour) and the tree after the call.
-/

namespace quadtree

/-! ## Data model (`quadtree.hpp`) -/

/-- An x/y coordinate (`struct Vec2f`), with exact rational components. -/
structure Vec2f where
  x : ℚ
  y : ℚ
deriving DecidableEq

/-- A stored entry (`struct Point<Data>`): a position and its payload. -/
structure Point (D : Type) where
  position : Vec2f
  data : D
deriving DecidableEq

/-- A `std::unique_ptr<Node<Data>>`: `null`, or an owned `Node` with the fields
`topLeft`, `bottomRight`, `center`, the four child pointers and `points`. -/
inductive NodePtr (D : Type) where
  | null : NodePtr D
  | node (topLeft bottomRight center : Vec2f)
      (childTopLeft childTopRight childBottomLeft childBottomRight : NodePtr D)
      (points : List (Point D)) : NodePtr D
deriving DecidableEq

/-- The four child slots of a node; `Node::getChild` returns a reference to one
of them. -/
inductive Slot where
  | childTopLeft
  | childTopRight
  | childBottomLeft
  | childBottomRight
deriving DecidableEq

/-- The ways a call can end other than by returning normally. -/
inductive Error where
  /-- The exception `std::out_of_range` thrown by `insert`. -/
  | outOfRange
  /-- The exception `std::runtime_error` thrown by `remove`. -/
  | notFound
  /-- The exception `std::exception` thrown by `insert` when `root == nullptr`. -/
  | rootNull
  /-- Undefined behaviour: a null pointer is dereferenced, or `stack.top()` is
  called on an empty stack. -/
  | undefinedBehaviour
deriving DecidableEq

deriving instance DecidableEq for Except

/-- The class `Tree<Data>`: it owns the root node.  The two `const int` members
are the constants `maxPointsPerNode` and `maxDepth` below. -/
structure Tree (D : Type) where
  root : NodePtr D
deriving DecidableEq

/-- The member `const int maxPointsPerNode = 5`. -/
def maxPointsPerNode : Nat := 5

/-- The member `const int maxDepth = 5`. -/
def maxDepth : Nat := 5

variable {D : Type}

/-! ## Field access through a `NodePtr` -/

/-- Test `p == nullptr`. -/
def NodePtr.isNull : NodePtr D → Bool
  | .null => true
  | .node _ _ _ _ _ _ _ _ => false

/-- Field `topLeft` of the pointee. -/
def NodePtr.topLeft : NodePtr D → Vec2f
  | .null => ⟨0, 0⟩
  | .node tl _ _ _ _ _ _ _ => tl

/-- Field `bottomRight` of the pointee. -/
def NodePtr.bottomRight : NodePtr D → Vec2f
  | .null => ⟨0, 0⟩
  | .node _ br _ _ _ _ _ _ => br

/-- Field `center` of the pointee. -/
def NodePtr.center : NodePtr D → Vec2f
  | .null => ⟨0, 0⟩
  | .node _ _ c _ _ _ _ _ => c

/-- Field `points` of the pointee. -/
def NodePtr.points : NodePtr D → List (Point D)
  | .null => []
  | .node _ _ _ _ _ _ _ pts => pts

/-- Read the child pointer stored in a slot of the pointee. -/
def NodePtr.child : NodePtr D → Slot → NodePtr D
  | .null, _ => .null
  | .node _ _ _ c1 _ _ _ _, .childTopLeft => c1
  | .node _ _ _ _ c2 _ _ _, .childTopRight => c2
  | .node _ _ _ _ _ c3 _ _, .childBottomLeft => c3
  | .node _ _ _ _ _ _ c4 _, .childBottomRight => c4

/-- Assign a child pointer to a slot of the pointee (the previous occupant of
the slot is destroyed). -/
def NodePtr.setChild : NodePtr D → Slot → NodePtr D → NodePtr D
  | .null, _, _ => .null
  | .node tl br c _ c2 c3 c4 pts, .childTopLeft, n => .node tl br c n c2 c3 c4 pts
  | .node tl br c c1 _ c3 c4 pts, .childTopRight, n => .node tl br c c1 n c3 c4 pts
  | .node tl br c c1 c2 _ c4 pts, .childBottomLeft, n => .node tl br c c1 c2 n c4 pts
  | .node tl br c c1 c2 c3 _ pts, .childBottomRight, n => .node tl br c c1 c2 c3 n pts

/-- Assign the vector `points` of the pointee. -/
def NodePtr.setPoints : NodePtr D → List (Point D) → NodePtr D
  | .null, _ => .null
  | .node tl br c c1 c2 c3 c4 _, pts => .node tl br c c1 c2 c3 c4 pts

/-- The call `points.push_back(p)` on the pointee. -/
def NodePtr.pushBack (n : NodePtr D) (p : Point D) : NodePtr D :=
  n.setPoints (n.points ++ [p])

/-- Dereference a raw node pointer: the node reached from `n` by following the
given slots. -/
def NodePtr.nodeAt : NodePtr D → List Slot → NodePtr D
  | n, [] => n
  | n, s :: path => (n.child s).nodeAt path

/-- Mutate in place the node a raw node pointer points to; everything off the
path is left as it is. -/
def NodePtr.modifyAt (f : NodePtr D → NodePtr D) : NodePtr D → List Slot → NodePtr D
  | n, [] => f n
  | n, s :: path => n.setChild s ((n.child s).modifyAt f path)

/-- All entries stored in the subtree below a pointer, node by node. -/
def NodePtr.allPoints : NodePtr D → List (Point D)
  | .null => []
  | .node _ _ _ c1 c2 c3 c4 pts =>
    pts ++ (c1.allPoints ++ (c2.allPoints ++ (c3.allPoints ++ c4.allPoints)))

/-- Number of nodes in the subtree below a pointer. -/
def NodePtr.size : NodePtr D → Nat
  | .null => 0
  | .node _ _ _ c1 c2 c3 c4 _ => c1.size + c2.size + c3.size + c4.size + 1

/-- The multiset of entries stored anywhere in the tree. -/
def Tree.entries (t : Tree D) : Multiset (Point D) := (t.root.allPoints : Multiset (Point D))

/-! ## `Node` (`quadtree_impl.hpp`, lines 13-52) -/

/-- The constructor `Node::Node(x1, y1, x2, y2)`: an empty leaf whose center is
the midpoint of the two corners. -/
def Node.new (x1 y1 x2 y2 : ℚ) : NodePtr D :=
  .node ⟨x1, y1⟩ ⟨x2, y2⟩ ⟨(x1 + x2) / 2, (y1 + y2) / 2⟩ .null .null .null .null []

/-- The function `Node::getChild(pos)`: the slot the coordinate belongs to,
decided against the node's `center`. -/
def Node.getChild (center pos : Vec2f) : Slot :=
  if pos.x < center.x ∧ pos.y < center.y then .childTopLeft
  else if pos.x < center.x ∧ pos.y ≥ center.y then .childBottomLeft
  else if pos.x ≥ center.x ∧ pos.y < center.y then .childTopRight
  else .childBottomRight

/-- The function `Node::intersectsWith(topLeft, bottomRight)` for a node with
corners `thisTopLeft`, `thisBottomRight`. -/
def Node.intersectsWith (thisTopLeft thisBottomRight topLeft bottomRight : Vec2f) : Bool :=
  if bottomRight.y < thisTopLeft.y then false
  else if bottomRight.x < thisTopLeft.x then false
  else if topLeft.y > thisBottomRight.y then false
  else if topLeft.x > thisBottomRight.x then false
  else true

/-! ## `Tree::Tree` and `Tree::insert` (lines 56-117) -/

/-- The constructor `Tree::Tree(topLeft, bottomRight)`. -/
def Tree.new (topLeft bottomRight : Vec2f) : Tree D :=
  ⟨Node.new topLeft.x topLeft.y bottomRight.x bottomRight.y⟩

/-- The do-while loop of `insert` (lines 78-91), started at `node` with the
given value of `depth`: every iteration increments `depth` and moves into the
child for `pos` unless that slot is empty.  Returns the slots taken (the final
value of the pointer `node`, relative to the start) and the final `depth`. -/
def insertDescent (pos : Vec2f) : NodePtr D → Nat → List Slot × Nat
  | .null, depth => ([], depth)
  | .node _ _ c c1 c2 c3 c4 _, depth =>
    match Node.getChild c pos with
    | .childTopLeft =>
      if c1.isNull then ([], depth + 1)
      else (.childTopLeft :: (insertDescent pos c1 (depth + 1)).1,
        (insertDescent pos c1 (depth + 1)).2)
    | .childTopRight =>
      if c2.isNull then ([], depth + 1)
      else (.childTopRight :: (insertDescent pos c2 (depth + 1)).1,
        (insertDescent pos c2 (depth + 1)).2)
    | .childBottomLeft =>
      if c3.isNull then ([], depth + 1)
      else (.childBottomLeft :: (insertDescent pos c3 (depth + 1)).1,
        (insertDescent pos c3 (depth + 1)).2)
    | .childBottomRight =>
      if c4.isNull then ([], depth + 1)
      else (.childBottomRight :: (insertDescent pos c4 (depth + 1)).1,
        (insertDescent pos c4 (depth + 1)).2)

/-- The redistribution loop of a split (lines 103-106): every point of the list
is pushed to the child `getChild(point.position)` selects. -/
def distribute : List (Point D) → NodePtr D → NodePtr D
  | [], n => n
  | p :: ps, n =>
    distribute ps
      (n.setChild (Node.getChild n.center p.position)
        ((n.child (Node.getChild n.center p.position)).pushBack p))

/-- One split (lines 96-107): the four child slots are assigned freshly
constructed nodes, the node's points are distributed among them, and the node's
own vector is cleared. -/
def split : NodePtr D → NodePtr D
  | .null => .null
  | .node tl br c _ _ _ _ pts =>
    (distribute pts
      (.node tl br c
        (Node.new tl.x tl.y c.x c.y)
        (Node.new c.x tl.y br.x c.y)
        (Node.new tl.x c.y c.x br.y)
        (Node.new c.x c.y br.x br.y)
        pts)).setPoints []

/-- The growth loop of `insert` followed by the final `push_back` (lines
93-115), run on the subtree `node` with the given `depth`; the result is that
subtree after the call.  The loop condition makes `maxDepth - depth` decrease,
so the first argument bounds the number of iterations; `grow` passes
`maxDepth - depth`, which is never exhausted (`grow_eq`). -/
def growLoop (pos : Vec2f) (data : D) : Nat → NodePtr D → Nat → NodePtr D
  | 0, node, _ => node.pushBack ⟨pos, data⟩
  | fuel + 1, node, depth =>
    if node.points.length < maxPointsPerNode ∧ depth < maxDepth then
      (split node).setChild (Node.getChild (split node).center pos)
        (growLoop pos data fuel ((split node).child (Node.getChild (split node).center pos))
          (depth + 1))
    else node.pushBack ⟨pos, data⟩

/-- Lines 93-115 of `insert`: grow below `node`, then push the new entry. -/
def grow (pos : Vec2f) (data : D) (node : NodePtr D) (depth : Nat) : NodePtr D :=
  growLoop pos data (maxDepth - depth) node depth

/-- The function `Tree::insert(pos, data)`. -/
def Tree.insert (t : Tree D) (pos : Vec2f) (data : D) : Except Error Unit × Tree D :=
  if t.root.isNull then (.error .rootNull, t)
  else if pos.x < t.root.topLeft.x ∨ pos.x > t.root.bottomRight.x
      ∨ pos.y < t.root.topLeft.y ∨ pos.y > t.root.bottomRight.y then
    (.error .outOfRange, t)
  else
    (.ok (),
      ⟨t.root.modifyAt
        (fun node => grow pos data node (insertDescent pos t.root 1).2)
        (insertDescent pos t.root 1).1⟩)

/-! ## `Tree::remove` (lines 119-167) -/

/-- The do-while loop of `remove` (lines 126-136).  The first argument is the
subtree at the pointer `node`, whose path from the root is `cur`; every move
into a child pushes the new `node` on the stack.  Returns the final `node` and
the stack (top first). -/
def removeDescent (pos : Vec2f) :
    NodePtr D → List Slot → List (List Slot) → List Slot × List (List Slot)
  | .null, cur, stack => (cur, stack)
  | .node _ _ c c1 c2 c3 c4 _, cur, stack =>
    match Node.getChild c pos with
    | .childTopLeft =>
      if c1.isNull then (cur, stack)
      else removeDescent pos c1 (cur ++ [.childTopLeft])
        ((cur ++ [.childTopLeft]) :: stack)
    | .childTopRight =>
      if c2.isNull then (cur, stack)
      else removeDescent pos c2 (cur ++ [.childTopRight])
        ((cur ++ [.childTopRight]) :: stack)
    | .childBottomLeft =>
      if c3.isNull then (cur, stack)
      else removeDescent pos c3 (cur ++ [.childBottomLeft])
        ((cur ++ [.childBottomLeft]) :: stack)
    | .childBottomRight =>
      if c4.isNull then (cur, stack)
      else removeDescent pos c4 (cur ++ [.childBottomRight])
        ((cur ++ [.childBottomRight]) :: stack)

/-- The call `std::find_if` of line 139: the index of the first point whose
payload equals `data`, if there is one. -/
def findIf [DecidableEq D] (data : D) : List (Point D) → Option Nat
  | [] => none
  | v :: vs => if v.data = data then some 0 else (findIf data vs).map (· + 1)

/-- Lines 145-147: swap the element at index `i` with the last one, then erase
the last position. -/
def swapErase (pts : List (Point D)) (i : Nat) : List (Point D) :=
  match pts.getLast? with
  | none => pts
  | some last => (pts.set i last).dropLast

/-- Lines 145-147 as a modification of the node `find_if` was run on. -/
def eraseAt (i : Nat) (node : NodePtr D) : NodePtr D :=
  node.setPoints (swapErase node.points i)

/-- The test of line 160: all four child pointers are null and `points` is
empty. -/
def NodePtr.isEmptyLeaf : NodePtr D → Bool
  | .null => false
  | .node _ _ _ c1 c2 c3 c4 pts =>
    c1.isNull && c2.isNull && c3.isNull && c4.isNull && pts.isEmpty

/-- The cleanup loop of `remove` (lines 155-165) on the tree `root` and the
stack of node pointers (top first).  Reading `stack.top()` when the stack has
become empty is undefined behaviour. -/
def cleanup (pos : Vec2f) : NodePtr D → List (List Slot) → Except Error Unit × NodePtr D
  | root, [] => (.ok (), root)
  | root, node :: stack =>
    if (root.nodeAt node).isEmptyLeaf then
      match stack with
      | [] => (.error .undefinedBehaviour, root)
      | parent :: _ =>
        cleanup pos
          (root.modifyAt (fun p => p.setChild (Node.getChild p.center pos) .null) parent)
          stack
    else cleanup pos root stack

/-- The function `Tree::remove(pos, data)`. -/
def Tree.remove [DecidableEq D] (t : Tree D) (pos : Vec2f) (data : D) :
    Except Error Unit × Tree D :=
  if t.root.isNull then (.error .undefinedBehaviour, t)
  else
    match findIf data (t.root.nodeAt (removeDescent pos t.root [] []).1).points with
    | none => (.error .notFound, t)
    | some i =>
      ((cleanup pos (t.root.modifyAt (eraseAt i) (removeDescent pos t.root [] []).1)
          (removeDescent pos t.root [] []).2).1,
        ⟨(cleanup pos (t.root.modifyAt (eraseAt i) (removeDescent pos t.root [] []).1)
          (removeDescent pos t.root [] []).2).2⟩)

/-! ## `Tree::query` (lines 170-209) -/

/-- The test of line 199: the point lies in the closed rectangle. -/
def inQuery (upperLeft lowerRight : Vec2f) (point : Point D) : Bool :=
  decide (point.position.x ≥ upperLeft.x ∧ point.position.x ≤ lowerRight.x
    ∧ point.position.y ≥ upperLeft.y ∧ point.position.y ≤ lowerRight.y)

/-- One of the four guarded pushes of lines 187-194. -/
def pushChild (upperLeft lowerRight : Vec2f) (child : NodePtr D) (stack : List (NodePtr D)) :
    List (NodePtr D) :=
  if !child.isNull && Node.intersectsWith child.topLeft child.bottomRight upperLeft lowerRight
  then child :: stack else stack

/-- The traversal loop of `query` (lines 180-205) on the stack of nodes still
to visit (top first) and the result so far.  The first argument bounds the
number of iterations; `none` means that the bound was hit or that a null
pointer was dereferenced. -/
def queryLoop (upperLeft lowerRight : Vec2f) :
    Nat → List (NodePtr D) → List (Point D) → Option (List (Point D))
  | _, [], result => some result
  | 0, _ :: _, _ => none
  | _ + 1, .null :: _, _ => none
  | fuel + 1, .node _ _ _ c1 c2 c3 c4 pts :: stack, result =>
    queryLoop upperLeft lowerRight fuel
      (pushChild upperLeft lowerRight c4
        (pushChild upperLeft lowerRight c3
          (pushChild upperLeft lowerRight c2
            (pushChild upperLeft lowerRight c1 stack))))
      (result ++ pts.filter (inQuery upperLeft lowerRight))

/-- The function `Tree::query(upperLeft, lowerRight)`.  Every iteration pops a
node of the tree that was not popped before, so the number of nodes bounds the
number of iterations. -/
def Tree.query (t : Tree D) (upperLeft lowerRight : Vec2f) : Option (List (Point D)) :=
  queryLoop upperLeft lowerRight t.root.size [t.root] []

/-! ## Specification-level notions used to state the properties -/

/-- The path `getChild(pos)` leads along from a node: the slots taken until the
slot for `pos` is empty. -/
def descend (pos : Vec2f) : NodePtr D → List Slot
  | .null => []
  | .node _ _ c c1 c2 c3 c4 _ =>
    match Node.getChild c pos with
    | .childTopLeft => if c1.isNull then [] else .childTopLeft :: descend pos c1
    | .childTopRight => if c2.isNull then [] else .childTopRight :: descend pos c2
    | .childBottomLeft => if c3.isNull then [] else .childBottomLeft :: descend pos c3
    | .childBottomRight => if c4.isNull then [] else .childBottomRight :: descend pos c4

/-- The stack `remove` has built after descending along `path` from the node
`cur`: the pointers to the nodes strictly below `cur`, deepest on top. -/
def stackOf (cur : List Slot) : List Slot → List (List Slot)
  | [] => []
  | s :: path => stackOf (cur ++ [s]) path ++ [cur ++ [s]]

/-- The effect of the cleanup loop on the subtree at a node whose parent is
still on the stack: what the iterations for the nodes strictly below it (along
`path`) leave of it. -/
def pruneBelow (pos : Vec2f) : NodePtr D → List Slot → NodePtr D
  | n, [] => n
  | n, s :: path =>
    if ((n.setChild s (pruneBelow pos (n.child s) path)).child s).isEmptyLeaf then
      (n.setChild s (pruneBelow pos (n.child s) path)).setChild
        (Node.getChild (n.setChild s (pruneBelow pos (n.child s) path)).center pos) .null
    else n.setChild s (pruneBelow pos (n.child s) path)

/-- The corners (top-left, bottom-right) a split gives the child in each slot
(lines 97-100). -/
def quadrantCorners (tl br c : Vec2f) : Slot → Vec2f × Vec2f
  | .childTopLeft => (⟨tl.x, tl.y⟩, ⟨c.x, c.y⟩)
  | .childTopRight => (⟨c.x, tl.y⟩, ⟨br.x, c.y⟩)
  | .childBottomLeft => (⟨tl.x, c.y⟩, ⟨c.x, br.y⟩)
  | .childBottomRight => (⟨c.x, c.y⟩, ⟨br.x, br.y⟩)

/-- The leaf a split leaves in slot `s` of a node with the given corners and
center, holding the points `pts`. -/
def quadLeaf (tl br c : Vec2f) (s : Slot) (pts : List (Point D)) : NodePtr D :=
  (Node.new (quadrantCorners tl br c s).1.x (quadrantCorners tl br c s).1.y
    (quadrantCorners tl br c s).2.x (quadrantCorners tl br c s).2.y).setPoints pts

/-- The subtree at a node after `remove` has modified the node at the end of
the descent by `f` and the cleanup loop has handled the nodes strictly below
the given one. -/
def afterRemove (pos : Vec2f) (f : NodePtr D → NodePtr D) (n : NodePtr D) : NodePtr D :=
  pruneBelow pos (n.modifyAt f (descend pos n)) (descend pos n)

/-- The traversal of `query` as a recursion over the tree: a node's own
matching points, then the subtrees of the pushed children in the order in which
they are popped. -/
def queryRec (upperLeft lowerRight : Vec2f) : NodePtr D → List (Point D)
  | .null => []
  | .node _ _ _ c1 c2 c3 c4 pts =>
    pts.filter (inQuery upperLeft lowerRight)
      ++ ((if !c4.isNull && Node.intersectsWith c4.topLeft c4.bottomRight upperLeft lowerRight
            then queryRec upperLeft lowerRight c4 else [])
      ++ ((if !c3.isNull && Node.intersectsWith c3.topLeft c3.bottomRight upperLeft lowerRight
            then queryRec upperLeft lowerRight c3 else [])
      ++ ((if !c2.isNull && Node.intersectsWith c2.topLeft c2.bottomRight upperLeft lowerRight
            then queryRec upperLeft lowerRight c2 else [])
      ++ (if !c1.isNull && Node.intersectsWith c1.topLeft c1.bottomRight upperLeft lowerRight
            then queryRec upperLeft lowerRight c1 else []))))

/-- The coordinate lies in the closed rectangle with the given corners. -/
def inRect (topLeft bottomRight p : Vec2f) : Prop :=
  topLeft.x ≤ p.x ∧ p.x ≤ bottomRight.x ∧ topLeft.y ≤ p.y ∧ p.y ≤ bottomRight.y

instance (topLeft bottomRight p : Vec2f) : Decidable (inRect topLeft bottomRight p) := by
  unfold inRect
  infer_instance

/-- The child in slot `s` of a node with the given corners and center is absent
or covers the quadrant of that slot. -/
def ChildGeom (tl br c : Vec2f) (s : Slot) (child : NodePtr D) : Prop :=
  child.isNull = true ∨ (child.topLeft, child.bottomRight) = quadrantCorners tl br c s

/-- Geometry of a subtree: every center is the midpoint of the corners, every
child covers its quadrant, and every node's own points lie in its rectangle. -/
def Geometric : NodePtr D → Prop
  | .null => True
  | .node tl br c c1 c2 c3 c4 pts =>
    c = ⟨(tl.x + br.x) / 2, (tl.y + br.y) / 2⟩
      ∧ (∀ p ∈ pts, inRect tl br p.position)
      ∧ (ChildGeom tl br c .childTopLeft c1 ∧ Geometric c1)
      ∧ (ChildGeom tl br c .childTopRight c2 ∧ Geometric c2)
      ∧ (ChildGeom tl br c .childBottomLeft c3 ∧ Geometric c3)
      ∧ (ChildGeom tl br c .childBottomRight c4 ∧ Geometric c4)

/-- Routing of a subtree: a point held by a node has no child in its own slot,
and a point stored below the child in a slot is routed to that slot. -/
def Routed : NodePtr D → Prop
  | .null => True
  | .node tl br c c1 c2 c3 c4 pts =>
    (∀ p ∈ pts,
        ((NodePtr.node tl br c c1 c2 c3 c4 pts).child (Node.getChild c p.position)).isNull = true)
      ∧ ((∀ p ∈ c1.allPoints, Node.getChild c p.position = .childTopLeft) ∧ Routed c1)
      ∧ ((∀ p ∈ c2.allPoints, Node.getChild c p.position = .childTopRight) ∧ Routed c2)
      ∧ ((∀ p ∈ c3.allPoints, Node.getChild c p.position = .childBottomLeft) ∧ Routed c3)
      ∧ ((∀ p ∈ c4.allPoints, Node.getChild c p.position = .childBottomRight) ∧ Routed c4)

/-- Every node of the subtree has no child or four children. -/
def Full : NodePtr D → Prop
  | .null => True
  | .node _ _ _ c1 c2 c3 c4 _ =>
    ((c1.isNull = true ∧ c2.isNull = true ∧ c3.isNull = true ∧ c4.isNull = true)
        ∨ (c1.isNull = false ∧ c2.isNull = false ∧ c3.isNull = false ∧ c4.isNull = false))
      ∧ Full c1 ∧ Full c2 ∧ Full c3 ∧ Full c4

/-- The trees a program can hold: `Tree(tl, br)` followed by any calls of
`insert` and `remove`.  A call that throws leaves a tree the program can go on
using; a call with undefined behaviour does not. -/
inductive Reachable [DecidableEq D] (tl br : Vec2f) : Tree D → Prop where
  | new : Reachable tl br (Tree.new tl br)
  | insert {t : Tree D} (pos : Vec2f) (data : D) :
      Reachable tl br t → Reachable tl br (t.insert pos data).2
  | remove {t : Tree D} (pos : Vec2f) (data : D) :
      Reachable tl br t → (t.remove pos data).1 ≠ .error .undefinedBehaviour →
      Reachable tl br (t.remove pos data).2

/-- A call of one of the two mutating member functions. -/
inductive Call (D : Type) where
  | insert (pos : Vec2f) (data : D)
  | remove (pos : Vec2f) (data : D)

/-- Run a sequence of calls.  A call that throws is caught and the program goes
on with the tree as the call left it; a call with undefined behaviour ends the
run without a tree. -/
def runCalls [DecidableEq D] (t : Tree D) : List (Call D) → Option (Tree D)
  | [] => some t
  | .insert pos data :: calls => runCalls (t.insert pos data).2 calls
  | .remove pos data :: calls =>
    if (t.remove pos data).1 = .error .undefinedBehaviour then none
    else runCalls (t.remove pos data).2 calls

/-- The empty tree `Tree((0,0), (8,8))` with natural numbers as payloads, used
in the examples. -/
def exampleTree : Tree Nat := Tree.new ⟨0, 0⟩ ⟨8, 8⟩

/-- The calls that empty the top-left quadrant of `Tree((0,0), (8,8))` cell by
cell: an entry is inserted into each of its sixteen unit cells and removed
again, except that the last entry is still stored. -/
def underflowCalls : List (Call Nat) :=
  [.insert ⟨1/2, 1/2⟩ 0, .remove ⟨1/2, 1/2⟩ 0, .insert ⟨3/2, 1/2⟩ 0, .remove ⟨3/2, 1/2⟩ 0,
   .insert ⟨1/2, 3/2⟩ 0, .remove ⟨1/2, 3/2⟩ 0, .insert ⟨3/2, 3/2⟩ 0, .remove ⟨3/2, 3/2⟩ 0,
   .insert ⟨5/2, 1/2⟩ 0, .remove ⟨5/2, 1/2⟩ 0, .insert ⟨7/2, 1/2⟩ 0, .remove ⟨7/2, 1/2⟩ 0,
   .insert ⟨5/2, 3/2⟩ 0, .remove ⟨5/2, 3/2⟩ 0, .insert ⟨7/2, 3/2⟩ 0, .remove ⟨7/2, 3/2⟩ 0,
   .insert ⟨1/2, 5/2⟩ 0, .remove ⟨1/2, 5/2⟩ 0, .insert ⟨3/2, 5/2⟩ 0, .remove ⟨3/2, 5/2⟩ 0,
   .insert ⟨1/2, 7/2⟩ 0, .remove ⟨1/2, 7/2⟩ 0, .insert ⟨3/2, 7/2⟩ 0, .remove ⟨3/2, 7/2⟩ 0,
   .insert ⟨5/2, 5/2⟩ 0, .remove ⟨5/2, 5/2⟩ 0, .insert ⟨7/2, 5/2⟩ 0, .remove ⟨7/2, 5/2⟩ 0,
   .insert ⟨5/2, 7/2⟩ 0, .remove ⟨5/2, 7/2⟩ 0, .insert ⟨7/2, 7/2⟩ 0]

/-- Insert the entries of a list one after another; stops at the first call
that does not return normally. -/
def insertAll (t : Tree D) : List (Point D) → Except Error Unit × Tree D
  | [] => (.ok (), t)
  | e :: es =>
    match (t.insert e.position e.data).1 with
    | .ok _ => insertAll (t.insert e.position e.data).2 es
    | .error err => (.error err, (t.insert e.position e.data).2)

/-- The empty leaf `Node(0, 0, 8, 8)` with natural numbers as payloads, used in
the examples. -/
def exampleNode : NodePtr Nat := Node.new 0 0 8 8

/-- The layered shape of a subtree with `k` levels below its root: a node that
has levels below it holds no point, and a node with no level below it has no
child. -/
def Shaped : Nat → NodePtr D → Prop
  | _, .null => True
  | 0, .node _ _ _ c1 c2 c3 c4 _ =>
    c1.isNull = true ∧ c2.isNull = true ∧ c3.isNull = true ∧ c4.isNull = true
  | k + 1, .node _ _ _ c1 c2 c3 c4 pts =>
    pts = [] ∧ Shaped k c1 ∧ Shaped k c2 ∧ Shaped k c3 ∧ Shaped k c4

/-- The number of iterations the growth loop of `insert` (lines 94-112) makes
on `node` with the given `depth`, that is the number of splits; the first
argument bounds the iterations as in `growLoop`. -/
def growIterations (pos : Vec2f) : Nat → NodePtr D → Nat → Nat
  | 0, _, _ => 0
  | fuel + 1, node, depth =>
    if node.points.length < maxPointsPerNode ∧ depth < maxDepth then
      growIterations pos fuel ((split node).child (Node.getChild (split node).center pos))
        (depth + 1) + 1
    else 0

/-- The number of splits a call `insert(pos, _)` makes on the tree. -/
def Tree.insertSplits (t : Tree D) (pos : Vec2f) : Nat :=
  growIterations pos (maxDepth - (insertDescent pos t.root 1).2)
    (t.root.nodeAt (insertDescent pos t.root 1).1) (insertDescent pos t.root 1).2

/-- The trees a program can hold that calls `insert` only. -/
inductive InsertReachable (tl br : Vec2f) : Tree D → Prop where
  | new : InsertReachable tl br (Tree.new tl br)
  | insert {t : Tree D} (pos : Vec2f) (data : D) :
      InsertReachable tl br t → InsertReachable tl br (t.insert pos data).2

/-- The cleanup of `remove` as the specification words it, for the comparison
with `cleanup`: pop a node; if it has no children and an empty point list,
detach it from its parent, which is the next node down the stack, or the root
if the stack is now empty; stop as soon as a popped node is non-empty or still
has children, or the stack is exhausted. -/
def cleanupSpec (pos : Vec2f) : NodePtr D → List (List Slot) → NodePtr D
  | root, [] => root
  | root, node :: stack =>
    if (root.nodeAt node).isEmptyLeaf then
      cleanupSpec pos
        (root.modifyAt (fun p => p.setChild (Node.getChild p.center pos) .null)
          (match stack with
            | [] => []
            | parent :: _ => parent))
        stack
    else root

/-- The function `remove` with the specified cleanup `cleanupSpec` in place of
the implemented loop. -/
def Tree.removeSpec [DecidableEq D] (t : Tree D) (pos : Vec2f) (data : D) :
    Except Error Unit × Tree D :=
  if t.root.isNull then (.error .undefinedBehaviour, t)
  else
    match findIf data (t.root.nodeAt (removeDescent pos t.root [] []).1).points with
    | none => (.error .notFound, t)
    | some i =>
      (.ok (),
        ⟨cleanupSpec pos (t.root.modifyAt (eraseAt i) (removeDescent pos t.root [] []).1)
          (removeDescent pos t.root [] []).2⟩)

/-- A stack of node pointers in which every entry points to a child of the
entry below it, as the descent of `remove` builds it. -/
def ChainStack : List (List Slot) → Prop
  | [] => True
  | [_] => True
  | c :: d :: rest => (∃ s, c = d ++ [s]) ∧ ChainStack (d :: rest)

/-! ## Basic facts about pointers, slots and paths -/

theorem NodePtr.isNull_iff (n : NodePtr D) : n.isNull = true ↔ n = .null := by
  cases n <;> simp [NodePtr.isNull]

theorem NodePtr.eta (n : NodePtr D) (h : n.isNull = false) :
    n = .node n.topLeft n.bottomRight n.center (n.child .childTopLeft) (n.child .childTopRight)
      (n.child .childBottomLeft) (n.child .childBottomRight) n.points := by
  cases n with
  | null => simp [NodePtr.isNull] at h
  | node tl br c c1 c2 c3 c4 pts => rfl

/-- Induction over a tree through the slot accessor: a property holds of every
pointer if it holds of `null` and passes from the four children to the node. -/
theorem NodePtr.induction_child {P : NodePtr D → Prop} (hnull : P .null)
    (hnode : ∀ n : NodePtr D, n.isNull = false → (∀ s, P (n.child s)) → P n) :
    ∀ n, P n := by
  intro n
  induction n with
  | null => exact hnull
  | node tl br c c1 c2 c3 c4 pts h1 h2 h3 h4 =>
    refine hnode (.node tl br c c1 c2 c3 c4 pts) rfl ?_
    intro s
    cases s <;> assumption

@[simp] theorem NodePtr.child_null (s : Slot) : (NodePtr.null : NodePtr D).child s = .null := rfl

@[simp] theorem NodePtr.setChild_null (s : Slot) (c : NodePtr D) :
    (NodePtr.null : NodePtr D).setChild s c = .null := by cases s <;> rfl

@[simp] theorem NodePtr.isNull_setChild (n : NodePtr D) (s : Slot) (c : NodePtr D) :
    (n.setChild s c).isNull = n.isNull := by
  cases n <;> cases s <;> rfl

@[simp] theorem NodePtr.topLeft_setChild (n : NodePtr D) (s : Slot) (c : NodePtr D) :
    (n.setChild s c).topLeft = n.topLeft := by
  cases n <;> cases s <;> rfl

@[simp] theorem NodePtr.bottomRight_setChild (n : NodePtr D) (s : Slot) (c : NodePtr D) :
    (n.setChild s c).bottomRight = n.bottomRight := by
  cases n <;> cases s <;> rfl

@[simp] theorem NodePtr.center_setChild (n : NodePtr D) (s : Slot) (c : NodePtr D) :
    (n.setChild s c).center = n.center := by
  cases n <;> cases s <;> rfl

@[simp] theorem NodePtr.points_setChild (n : NodePtr D) (s : Slot) (c : NodePtr D) :
    (n.setChild s c).points = n.points := by
  cases n <;> cases s <;> rfl

theorem NodePtr.child_setChild_same (n : NodePtr D) (h : n.isNull = false) (s : Slot)
    (c : NodePtr D) : (n.setChild s c).child s = c := by
  cases n with
  | null => simp [NodePtr.isNull] at h
  | node tl br ce c1 c2 c3 c4 pts => cases s <;> rfl

theorem NodePtr.child_setChild_other (n : NodePtr D) (s s' : Slot) (hs : s' ≠ s)
    (c : NodePtr D) : (n.setChild s c).child s' = n.child s' := by
  cases n with
  | null => simp
  | node tl br ce c1 c2 c3 c4 pts => cases s <;> cases s' <;> first | rfl | exact absurd rfl hs

theorem NodePtr.child_setChild (n : NodePtr D) (h : n.isNull = false) (s s' : Slot)
    (c : NodePtr D) : (n.setChild s c).child s' = if s' = s then c else n.child s' := by
  by_cases hs : s' = s
  · subst hs; simp [NodePtr.child_setChild_same n h]
  · simp [hs, NodePtr.child_setChild_other n s s' hs]

theorem NodePtr.setChild_setChild (n : NodePtr D) (s : Slot) (c c' : NodePtr D) :
    (n.setChild s c).setChild s c' = n.setChild s c' := by
  cases n <;> cases s <;> rfl

theorem NodePtr.setChild_child (n : NodePtr D) (s : Slot) : n.setChild s (n.child s) = n := by
  cases n <;> cases s <;> rfl

@[simp] theorem NodePtr.isNull_setPoints (n : NodePtr D) (l : List (Point D)) :
    (n.setPoints l).isNull = n.isNull := by cases n <;> rfl

@[simp] theorem NodePtr.topLeft_setPoints (n : NodePtr D) (l : List (Point D)) :
    (n.setPoints l).topLeft = n.topLeft := by cases n <;> rfl

@[simp] theorem NodePtr.bottomRight_setPoints (n : NodePtr D) (l : List (Point D)) :
    (n.setPoints l).bottomRight = n.bottomRight := by cases n <;> rfl

@[simp] theorem NodePtr.center_setPoints (n : NodePtr D) (l : List (Point D)) :
    (n.setPoints l).center = n.center := by cases n <;> rfl

@[simp] theorem NodePtr.child_setPoints (n : NodePtr D) (l : List (Point D)) (s : Slot) :
    (n.setPoints l).child s = n.child s := by cases n <;> cases s <;> rfl

theorem NodePtr.points_setPoints (n : NodePtr D) (h : n.isNull = false) (l : List (Point D)) :
    (n.setPoints l).points = l := by
  cases n with
  | null => simp [NodePtr.isNull] at h
  | node tl br ce c1 c2 c3 c4 pts => rfl

@[simp] theorem NodePtr.allPoints_null : (NodePtr.null : NodePtr D).allPoints = [] := rfl

theorem NodePtr.allPoints_eq (n : NodePtr D) (h : n.isNull = false) :
    n.allPoints = n.points ++ ((n.child .childTopLeft).allPoints
      ++ ((n.child .childTopRight).allPoints ++ ((n.child .childBottomLeft).allPoints
      ++ (n.child .childBottomRight).allPoints))) := by
  cases n with
  | null => simp [NodePtr.isNull] at h
  | node tl br ce c1 c2 c3 c4 pts => rfl

theorem NodePtr.mem_allPoints (n : NodePtr D) (h : n.isNull = false) (p : Point D) :
    p ∈ n.allPoints ↔ p ∈ n.points ∨ ∃ s, p ∈ (n.child s).allPoints := by
  rw [NodePtr.allPoints_eq n h]
  simp only [List.mem_append]
  constructor
  · rintro (h | h | h | h | h)
    · exact Or.inl h
    · exact Or.inr ⟨_, h⟩
    · exact Or.inr ⟨_, h⟩
    · exact Or.inr ⟨_, h⟩
    · exact Or.inr ⟨_, h⟩
  · rintro (h | ⟨s, h⟩)
    · exact Or.inl h
    · cases s
      · exact Or.inr (Or.inl h)
      · exact Or.inr (Or.inr (Or.inl h))
      · exact Or.inr (Or.inr (Or.inr (Or.inl h)))
      · exact Or.inr (Or.inr (Or.inr (Or.inr h)))

/-- Assigning a slot exchanges the entries below the old occupant for those
below the new one. -/
theorem NodePtr.allPoints_setChild (n : NodePtr D) (h : n.isNull = false) (s : Slot)
    (c : NodePtr D) :
    ((n.setChild s c).allPoints : Multiset (Point D)) + ((n.child s).allPoints : Multiset (Point D))
      = (n.allPoints : Multiset (Point D)) + (c.allPoints : Multiset (Point D)) := by
  cases n with
  | null => simp [NodePtr.isNull] at h
  | node tl br ce c1 c2 c3 c4 pts =>
    cases s <;>
      simp only [NodePtr.setChild, NodePtr.child, NodePtr.allPoints, ← Multiset.coe_add] <;>
      abel

theorem NodePtr.allPoints_setPoints (n : NodePtr D) (h : n.isNull = false) (l : List (Point D)) :
    ((n.setPoints l).allPoints : Multiset (Point D)) + (n.points : Multiset (Point D))
      = (n.allPoints : Multiset (Point D)) + (l : Multiset (Point D)) := by
  cases n with
  | null => simp [NodePtr.isNull] at h
  | node tl br ce c1 c2 c3 c4 pts =>
      simp only [NodePtr.setPoints, NodePtr.points, NodePtr.allPoints, ← Multiset.coe_add]
      abel

/-! ## Paths: dereferencing and in-place modification -/

@[simp] theorem NodePtr.nodeAt_null (p : List Slot) : (NodePtr.null : NodePtr D).nodeAt p = .null := by
  induction p with
  | nil => rfl
  | cons s p ih => simpa [NodePtr.nodeAt] using ih

theorem NodePtr.nodeAt_append (n : NodePtr D) (p q : List Slot) :
    n.nodeAt (p ++ q) = (n.nodeAt p).nodeAt q := by
  induction p generalizing n with
  | nil => rfl
  | cons s p ih => simp [NodePtr.nodeAt, ih]

theorem NodePtr.modifyAt_null (f : NodePtr D → NodePtr D) (hf : f .null = .null)
    (p : List Slot) : (NodePtr.null : NodePtr D).modifyAt f p = .null := by
  cases p with
  | nil => simpa [NodePtr.modifyAt] using hf
  | cons s p => simp [NodePtr.modifyAt]

theorem NodePtr.modifyAt_append (f : NodePtr D → NodePtr D) (n : NodePtr D) (p q : List Slot) :
    n.modifyAt f (p ++ q) = n.modifyAt (fun m => m.modifyAt f q) p := by
  induction p generalizing n with
  | nil => rfl
  | cons s p ih => simp [NodePtr.modifyAt, ih]

theorem NodePtr.modifyAt_congr (f g : NodePtr D → NodePtr D) (n : NodePtr D) (p : List Slot)
    (h : f (n.nodeAt p) = g (n.nodeAt p)) : n.modifyAt f p = n.modifyAt g p := by
  induction p generalizing n with
  | nil => simpa [NodePtr.modifyAt, NodePtr.nodeAt] using h
  | cons s p ih =>
    simp only [NodePtr.modifyAt]
    rw [ih (n.child s) (by simpa [NodePtr.nodeAt] using h)]

theorem NodePtr.nodeAt_modifyAt (f : NodePtr D → NodePtr D) (hf : f .null = .null)
    (n : NodePtr D) (p : List Slot) : (n.modifyAt f p).nodeAt p = f (n.nodeAt p) := by
  induction p generalizing n with
  | nil => rfl
  | cons s p ih =>
    cases hn : n.isNull with
    | true =>
      rw [(NodePtr.isNull_iff n).1 hn]
      simp [NodePtr.modifyAt, NodePtr.nodeAt, hf]
    | false =>
      simp only [NodePtr.modifyAt, NodePtr.nodeAt]
      rw [NodePtr.child_setChild_same n hn, ih]

theorem NodePtr.modifyAt_modifyAt (f g : NodePtr D → NodePtr D) (n : NodePtr D)
    (p : List Slot) : (n.modifyAt f p).modifyAt g p = n.modifyAt (fun m => g (f m)) p := by
  induction p generalizing n with
  | nil => rfl
  | cons s p ih =>
    cases hn : n.isNull with
    | true =>
      rw [(NodePtr.isNull_iff n).1 hn]
      simp [NodePtr.modifyAt]
    | false =>
      simp only [NodePtr.modifyAt]
      rw [NodePtr.child_setChild_same n hn, NodePtr.setChild_setChild, ih]

theorem NodePtr.isNull_modifyAt (f : NodePtr D → NodePtr D)
    (hf : ∀ m, (f m).isNull = m.isNull) (n : NodePtr D) (p : List Slot) :
    (n.modifyAt f p).isNull = n.isNull := by
  cases p with
  | nil => exact hf n
  | cons s p => simp [NodePtr.modifyAt]

theorem NodePtr.topLeft_modifyAt (f : NodePtr D → NodePtr D)
    (hf : ∀ m, (f m).topLeft = m.topLeft) (n : NodePtr D) (p : List Slot) :
    (n.modifyAt f p).topLeft = n.topLeft := by
  cases p with
  | nil => exact hf n
  | cons s p => simp [NodePtr.modifyAt]

theorem NodePtr.bottomRight_modifyAt (f : NodePtr D → NodePtr D)
    (hf : ∀ m, (f m).bottomRight = m.bottomRight) (n : NodePtr D) (p : List Slot) :
    (n.modifyAt f p).bottomRight = n.bottomRight := by
  cases p with
  | nil => exact hf n
  | cons s p => simp [NodePtr.modifyAt]

theorem NodePtr.center_modifyAt (f : NodePtr D → NodePtr D)
    (hf : ∀ m, (f m).center = m.center) (n : NodePtr D) (p : List Slot) :
    (n.modifyAt f p).center = n.center := by
  cases p with
  | nil => exact hf n
  | cons s p => simp [NodePtr.modifyAt]

/-! ## The descent loops -/

theorem descend_eq (pos : Vec2f) (n : NodePtr D) (h : n.isNull = false) :
    descend pos n = if (n.child (Node.getChild n.center pos)).isNull then []
      else Node.getChild n.center pos :: descend pos (n.child (Node.getChild n.center pos)) := by
  cases n with
  | null => simp [NodePtr.isNull] at h
  | node tl br c c1 c2 c3 c4 pts =>
    simp only [descend, NodePtr.center]
    cases Node.getChild c pos <;> simp [NodePtr.child]

theorem insertDescent_eq (pos : Vec2f) (n : NodePtr D) (h : n.isNull = false) (depth : Nat) :
    insertDescent pos n depth = (descend pos n, depth + (descend pos n).length + 1) := by
  induction n generalizing depth with
  | null => simp [NodePtr.isNull] at h
  | node tl br c c1 c2 c3 c4 pts h1 h2 h3 h4 =>
    simp only [insertDescent, descend]
    cases Node.getChild c pos
    · cases hc : c1.isNull with
      | true => simp
      | false => simp [h1 hc]; omega
    · cases hc : c2.isNull with
      | true => simp
      | false => simp [h2 hc]; omega
    · cases hc : c3.isNull with
      | true => simp
      | false => simp [h3 hc]; omega
    · cases hc : c4.isNull with
      | true => simp
      | false => simp [h4 hc]; omega

theorem removeDescent_eq (pos : Vec2f) (n : NodePtr D) (cur : List Slot)
    (stack : List (List Slot)) :
    removeDescent pos n cur stack
      = (cur ++ descend pos n, stackOf cur (descend pos n) ++ stack) := by
  induction n generalizing cur stack with
  | null => simp [removeDescent, descend, stackOf]
  | node tl br c c1 c2 c3 c4 pts h1 h2 h3 h4 =>
    simp only [removeDescent, descend]
    cases Node.getChild c pos
    · cases hc : c1.isNull with
      | true => simp [stackOf]
      | false => simp [h1, stackOf]
    · cases hc : c2.isNull with
      | true => simp [stackOf]
      | false => simp [h2, stackOf]
    · cases hc : c3.isNull with
      | true => simp [stackOf]
      | false => simp [h3, stackOf]
    · cases hc : c4.isNull with
      | true => simp [stackOf]
      | false => simp [h4, stackOf]

/-- The descent ends at a node of the tree whose slot for `pos` is empty. -/
theorem descend_end (pos : Vec2f) (n : NodePtr D) (h : n.isNull = false) :
    (n.nodeAt (descend pos n)).isNull = false
      ∧ ((n.nodeAt (descend pos n)).child
          (Node.getChild (n.nodeAt (descend pos n)).center pos)).isNull = true := by
  induction n using NodePtr.induction_child with
  | hnull => simp [NodePtr.isNull] at h
  | hnode n hn ih =>
    rw [descend_eq pos n hn]
    cases hc : (n.child (Node.getChild n.center pos)).isNull with
    | true => simp [NodePtr.nodeAt, hn, hc]
    | false => simpa [NodePtr.nodeAt] using ih _ hc

/-- Modifying the node at the end of the descent, one level at a time. -/
theorem modifyAt_descend (f : NodePtr D → NodePtr D) (pos : Vec2f) (n : NodePtr D)
    (h : n.isNull = false) :
    n.modifyAt f (descend pos n)
      = if (n.child (Node.getChild n.center pos)).isNull then f n
        else n.setChild (Node.getChild n.center pos)
          ((n.child (Node.getChild n.center pos)).modifyAt f
            (descend pos (n.child (Node.getChild n.center pos)))) := by
  rw [descend_eq pos n h]
  cases hc : (n.child (Node.getChild n.center pos)).isNull with
  | true => simp [NodePtr.modifyAt]
  | false => simp [NodePtr.modifyAt]

/-! ## The cleanup loop -/

theorem pruneBelow_null (pos : Vec2f) (p : List Slot) :
    pruneBelow pos (NodePtr.null : NodePtr D) p = .null := by
  cases p with
  | nil => rfl
  | cons s p => simp [pruneBelow, NodePtr.isEmptyLeaf]

/-- The iterations of the cleanup loop for the nodes strictly below a node that
is itself on the stack act on the subtree at that node as `pruneBelow`. -/
theorem cleanup_stackOf (pos : Vec2f) (p : List Slot) (root : NodePtr D) (pre : List Slot)
    (rest : List (List Slot)) :
    cleanup pos root (stackOf pre p ++ pre :: rest)
      = cleanup pos (root.modifyAt (fun n => pruneBelow pos n p) pre) (pre :: rest) := by
  induction p generalizing root pre rest with
  | nil =>
    simp only [stackOf, List.nil_append]
    congr 1
    have : (fun n : NodePtr D => pruneBelow pos n []) = fun n => n := rfl
    rw [this]
    clear this
    induction pre generalizing root with
    | nil => rfl
    | cons s pre ih => simp only [NodePtr.modifyAt]; rw [← ih, NodePtr.setChild_child]
  | cons s p ih =>
    have hnull : (fun n : NodePtr D => pruneBelow pos n p) .null = .null := pruneBelow_null pos p
    have hnull2 : (fun m : NodePtr D => m.modifyAt (fun n => pruneBelow pos n p) [s]) .null
        = .null := by simp [NodePtr.modifyAt]
    simp only [stackOf, List.append_assoc, List.singleton_append]
    rw [ih root (pre ++ [s]) (pre :: rest)]
    rw [cleanup]
    rw [NodePtr.modifyAt_append, NodePtr.nodeAt_append, NodePtr.nodeAt_modifyAt _ hnull2]
    simp only [NodePtr.modifyAt, NodePtr.nodeAt]
    rw [NodePtr.modifyAt_modifyAt]
    split
    · rename_i hleaf
      congr 1
      apply NodePtr.modifyAt_congr
      simp only [pruneBelow, hleaf, if_true]
    · rename_i hleaf
      congr 1
      apply NodePtr.modifyAt_congr
      simp only [pruneBelow, hleaf]
      simp

/-! ## Stored entries under modification -/

theorem exchange_cancel {M : Type} [AddCancelCommMonoid M] {a b c y e f : M}
    (h1 : a + b = c + y) (h2 : y + e = b + f) : a + e = c + f := by
  apply add_right_cancel (b := b + y)
  calc a + e + (b + y) = (a + b) + (y + e) := by abel
    _ = (c + y) + (b + f) := by rw [h1, h2]
    _ = c + f + (b + y) := by abel

/-- Modifying the node at a path exchanges the entries below that node. -/
theorem NodePtr.allPoints_modifyAt (f : NodePtr D → NodePtr D) (n : NodePtr D) (p : List Slot)
    (h : (n.nodeAt p).isNull = false) :
    ((n.modifyAt f p).allPoints : Multiset (Point D))
        + ((n.nodeAt p).allPoints : Multiset (Point D))
      = (n.allPoints : Multiset (Point D)) + ((f (n.nodeAt p)).allPoints : Multiset (Point D)) := by
  induction p generalizing n with
  | nil => simp only [NodePtr.modifyAt, NodePtr.nodeAt]; abel
  | cons s p ih =>
    have hn : n.isNull = false := by
      cases hn : n.isNull with
      | false => rfl
      | true =>
        rw [(NodePtr.isNull_iff n).1 hn] at h
        simp [NodePtr.isNull] at h
    simp only [NodePtr.modifyAt, NodePtr.nodeAt] at h ⊢
    exact exchange_cancel (NodePtr.allPoints_setChild n hn s _) (ih (n.child s) h)

/-! ## The invariants, through the slot accessor -/

theorem geometric_iff (n : NodePtr D) (h : n.isNull = false) :
    Geometric n ↔
      n.center = ⟨(n.topLeft.x + n.bottomRight.x) / 2, (n.topLeft.y + n.bottomRight.y) / 2⟩
      ∧ (∀ p ∈ n.points, inRect n.topLeft n.bottomRight p.position)
      ∧ ∀ s, ChildGeom n.topLeft n.bottomRight n.center s (n.child s) ∧ Geometric (n.child s) := by
  cases n with
  | null => simp [NodePtr.isNull] at h
  | node tl br c c1 c2 c3 c4 pts =>
    simp only [Geometric, NodePtr.center, NodePtr.topLeft, NodePtr.bottomRight, NodePtr.points]
    constructor
    · rintro ⟨h0, h1, h2, h3, h4, h5⟩
      refine ⟨h0, h1, ?_⟩
      intro s
      cases s <;> assumption
    · rintro ⟨h0, h1, h2⟩
      exact ⟨h0, h1, h2 .childTopLeft, h2 .childTopRight, h2 .childBottomLeft,
        h2 .childBottomRight⟩

theorem routed_iff (n : NodePtr D) (h : n.isNull = false) :
    Routed n ↔
      (∀ p ∈ n.points, (n.child (Node.getChild n.center p.position)).isNull = true)
      ∧ ∀ s, (∀ p ∈ (n.child s).allPoints, Node.getChild n.center p.position = s)
          ∧ Routed (n.child s) := by
  cases n with
  | null => simp [NodePtr.isNull] at h
  | node tl br c c1 c2 c3 c4 pts =>
    simp only [Routed, NodePtr.center, NodePtr.points]
    constructor
    · rintro ⟨h1, h2, h3, h4, h5⟩
      refine ⟨h1, ?_⟩
      intro s
      cases s <;> assumption
    · rintro ⟨h1, h2⟩
      exact ⟨h1, h2 .childTopLeft, h2 .childTopRight, h2 .childBottomLeft, h2 .childBottomRight⟩

theorem full_iff (n : NodePtr D) (h : n.isNull = false) :
    Full n ↔ ((∀ s, (n.child s).isNull = true) ∨ (∀ s, (n.child s).isNull = false))
      ∧ ∀ s, Full (n.child s) := by
  cases n with
  | null => simp [NodePtr.isNull] at h
  | node tl br c c1 c2 c3 c4 pts =>
    simp only [Full]
    constructor
    · rintro ⟨h0, h1, h2, h3, h4⟩
      refine ⟨?_, ?_⟩
      · rcases h0 with ⟨a, b, c, d⟩ | ⟨a, b, c, d⟩
        · left; intro s; cases s <;> assumption
        · right; intro s; cases s <;> assumption
      · intro s; cases s <;> assumption
    · rintro ⟨h0, h1⟩
      refine ⟨?_, h1 .childTopLeft, h1 .childTopRight, h1 .childBottomLeft, h1 .childBottomRight⟩
      rcases h0 with h0 | h0
      · exact Or.inl ⟨h0 .childTopLeft, h0 .childTopRight, h0 .childBottomLeft,
          h0 .childBottomRight⟩
      · exact Or.inr ⟨h0 .childTopLeft, h0 .childTopRight, h0 .childBottomLeft,
          h0 .childBottomRight⟩

/-! ## Geometry of the quadrants -/

/-- The four cases of `Node::getChild`. -/
theorem getChild_cases (c p : Vec2f) :
    (p.x < c.x ∧ p.y < c.y ∧ Node.getChild c p = .childTopLeft)
      ∨ (p.x < c.x ∧ c.y ≤ p.y ∧ Node.getChild c p = .childBottomLeft)
      ∨ (c.x ≤ p.x ∧ p.y < c.y ∧ Node.getChild c p = .childTopRight)
      ∨ (c.x ≤ p.x ∧ c.y ≤ p.y ∧ Node.getChild c p = .childBottomRight) := by
  unfold Node.getChild
  by_cases hx : p.x < c.x <;> by_cases hy : p.y < c.y
  · exact Or.inl ⟨hx, hy, by simp [hx, hy]⟩
  · exact Or.inr (Or.inl ⟨hx, not_lt.1 hy, by simp [hx, hy]⟩)
  · exact Or.inr (Or.inr (Or.inl ⟨not_lt.1 hx, hy, by simp [hx, hy]⟩))
  · exact Or.inr (Or.inr (Or.inr ⟨not_lt.1 hx, not_lt.1 hy, by simp [hx, hy]⟩))

/-- A point of a node's rectangle lies in the rectangle of the quadrant that
`getChild` routes it to. -/
theorem inRect_quadrant (tl br c p : Vec2f) (h : inRect tl br p) :
    inRect (quadrantCorners tl br c (Node.getChild c p)).1
      (quadrantCorners tl br c (Node.getChild c p)).2 p := by
  obtain ⟨h1, h2, h3, h4⟩ := h
  rcases getChild_cases c p with ⟨hx, hy, e⟩ | ⟨hx, hy, e⟩ | ⟨hx, hy, e⟩ | ⟨hx, hy, e⟩ <;>
    rw [e] <;> simp only [quadrantCorners, inRect] <;>
    refine ⟨?_, ?_, ?_, ?_⟩ <;> first | assumption | exact le_of_lt ‹_›

/-- A quadrant of a rectangle, split at the midpoint, lies inside the
rectangle. -/
theorem inRect_of_quadrant (tl br p : Vec2f) (s : Slot)
    (h : inRect (quadrantCorners tl br ⟨(tl.x + br.x) / 2, (tl.y + br.y) / 2⟩ s).1
      (quadrantCorners tl br ⟨(tl.x + br.x) / 2, (tl.y + br.y) / 2⟩ s).2 p) :
    inRect tl br p := by
  cases s <;> simp only [quadrantCorners, inRect] at h ⊢ <;> obtain ⟨h1, h2, h3, h4⟩ := h <;>
    refine ⟨?_, ?_, ?_, ?_⟩ <;> linarith

/-! ## The split -/

theorem NodePtr.setPoints_setPoints (n : NodePtr D) (l l' : List (Point D)) :
    (n.setPoints l).setPoints l' = n.setPoints l' := by cases n <;> rfl

theorem NodePtr.setChild_setPoints (n : NodePtr D) (s : Slot) (c : NodePtr D)
    (l : List (Point D)) : (n.setChild s c).setPoints l = (n.setPoints l).setChild s c := by
  cases n <;> cases s <;> rfl

theorem NodePtr.isNull_pushBack (n : NodePtr D) (p : Point D) :
    (n.pushBack p).isNull = n.isNull := by simp [NodePtr.pushBack]

/-- The redistribution loop appends to each child the points routed to it, in
order, and changes nothing else. -/
theorem distribute_spec (ps : List (Point D)) (n : NodePtr D) (hn : n.isNull = false)
    (hc : ∀ s, (n.child s).isNull = false) :
    (distribute ps n).isNull = false
      ∧ (distribute ps n).topLeft = n.topLeft
      ∧ (distribute ps n).bottomRight = n.bottomRight
      ∧ (distribute ps n).center = n.center
      ∧ (distribute ps n).points = n.points
      ∧ ∀ s, (distribute ps n).child s
          = (n.child s).setPoints ((n.child s).points
              ++ ps.filter (fun p => decide (Node.getChild n.center p.position = s))) := by
  induction ps generalizing n with
  | nil =>
    refine ⟨hn, rfl, rfl, rfl, rfl, ?_⟩
    intro s
    have := hc s
    cases hcs : n.child s with
    | null => rw [hcs] at this; simp [NodePtr.isNull] at this
    | node tl br c c1 c2 c3 c4 pts => simp [distribute, hcs, NodePtr.setPoints, NodePtr.points]
  | cons p ps ih =>
    have hn' : (n.setChild (Node.getChild n.center p.position)
        ((n.child (Node.getChild n.center p.position)).pushBack p)).isNull = false := by
      simpa using hn
    have hc' : ∀ s, ((n.setChild (Node.getChild n.center p.position)
        ((n.child (Node.getChild n.center p.position)).pushBack p)).child s).isNull = false := by
      intro s
      rw [NodePtr.child_setChild n hn]
      split
      · rw [NodePtr.isNull_pushBack]; exact hc _
      · exact hc s
    obtain ⟨i1, i2, i3, i4, i5, i6⟩ := ih _ hn' hc'
    simp only [distribute]
    refine ⟨i1, by simpa using i2, by simpa using i3, by simpa using i4, by simpa using i5, ?_⟩
    intro s
    rw [i6 s, NodePtr.child_setChild n hn, NodePtr.center_setChild]
    by_cases hs : s = Node.getChild n.center p.position
    · subst hs
      simp only [if_true, NodePtr.pushBack, NodePtr.setPoints_setPoints]
      rw [NodePtr.points_setPoints _ (hc _)]
      simp [List.filter_cons]
    · have hs' : ¬ Node.getChild n.center p.position = s := fun e => hs e.symm
      simp [hs, hs', List.filter_cons]

theorem quadLeaf_isNull (tl br c : Vec2f) (s : Slot) (l : List (Point D)) :
    (quadLeaf tl br c s l).isNull = false := rfl

theorem quadLeaf_points (tl br c : Vec2f) (s : Slot) (l : List (Point D)) :
    (quadLeaf tl br c s l).points = l := rfl

theorem quadLeaf_child (tl br c : Vec2f) (s s' : Slot) (l : List (Point D)) :
    (quadLeaf tl br c s l).child s' = .null := by cases s' <;> rfl

theorem quadLeaf_allPoints (tl br c : Vec2f) (s : Slot) (l : List (Point D)) :
    (quadLeaf tl br c s l).allPoints = l := by
  simp [quadLeaf, Node.new, NodePtr.setPoints, NodePtr.allPoints]

theorem quadLeaf_corners (tl br c : Vec2f) (s : Slot) (l : List (Point D)) :
    ((quadLeaf tl br c s l).topLeft, (quadLeaf tl br c s l).bottomRight)
      = quadrantCorners tl br c s := rfl

theorem quadLeaf_center (tl br c : Vec2f) (s : Slot) (l : List (Point D)) :
    (quadLeaf tl br c s l).center
      = ⟨((quadLeaf tl br c s l).topLeft.x + (quadLeaf tl br c s l).bottomRight.x) / 2,
         ((quadLeaf tl br c s l).topLeft.y + (quadLeaf tl br c s l).bottomRight.y) / 2⟩ := rfl

/-- A split keeps the node's corners, empties its vector, and leaves in every
slot a fresh leaf on the slot's quadrant holding the points routed there; the
previous children are gone. -/
theorem split_spec (m : NodePtr D) (hm : m.isNull = false) :
    (split m).isNull = false
      ∧ (split m).topLeft = m.topLeft
      ∧ (split m).bottomRight = m.bottomRight
      ∧ (split m).center = m.center
      ∧ (split m).points = []
      ∧ ∀ s, (split m).child s = quadLeaf m.topLeft m.bottomRight m.center s
          (m.points.filter (fun p => decide (Node.getChild m.center p.position = s))) := by
  cases m with
  | null => simp [NodePtr.isNull] at hm
  | node tl br c c1 c2 c3 c4 pts =>
    have hc : ∀ s, ((NodePtr.node tl br c
        (Node.new tl.x tl.y c.x c.y) (Node.new c.x tl.y br.x c.y)
        (Node.new tl.x c.y c.x br.y) (Node.new c.x c.y br.x br.y) pts : NodePtr D).child s).isNull
        = false := by
      intro s; cases s <;> rfl
    obtain ⟨i1, i2, i3, i4, i5, i6⟩ := distribute_spec pts (NodePtr.node tl br c
        (Node.new tl.x tl.y c.x c.y) (Node.new c.x tl.y br.x c.y)
        (Node.new tl.x c.y c.x br.y) (Node.new c.x c.y br.x br.y) pts) rfl hc
    simp only [split]
    refine ⟨by simpa using i1, by simpa using i2, by simpa using i3, by simpa using i4,
      NodePtr.points_setPoints _ i1 _, ?_⟩
    intro s
    rw [NodePtr.child_setPoints, i6 s]
    cases s <;> rfl

/-! ## The growth loop -/

/-- The four slot classes partition a list of points. -/
theorem filter_slots (c : Vec2f) (pts : List (Point D)) :
    ((pts.filter (fun p => decide (Node.getChild c p.position = .childTopLeft))
        ++ (pts.filter (fun p => decide (Node.getChild c p.position = .childTopRight))
        ++ (pts.filter (fun p => decide (Node.getChild c p.position = .childBottomLeft))
        ++ pts.filter (fun p => decide (Node.getChild c p.position = .childBottomRight))))
        : List (Point D)) : Multiset (Point D)) = (pts : Multiset (Point D)) := by
  induction pts with
  | nil => rfl
  | cons p ps ih =>
    simp only [← Multiset.coe_add] at ih ⊢
    rw [← Multiset.cons_coe p ps, ← ih]
    cases h : Node.getChild c p.position <;>
      simp [List.filter_cons, h, ← Multiset.cons_coe]

theorem split_allPoints (m : NodePtr D) (hm : m.isNull = false) :
    ((split m).allPoints : Multiset (Point D)) = (m.points : Multiset (Point D)) := by
  obtain ⟨i1, -, -, -, i5, i6⟩ := split_spec m hm
  rw [NodePtr.allPoints_eq _ i1, i5, i6, i6, i6, i6]
  simp only [quadLeaf_allPoints, List.nil_append]
  exact filter_slots m.center m.points

theorem geometric_quadLeaf (tl br c : Vec2f) (s : Slot) (l : List (Point D))
    (h : ∀ p ∈ l, inRect (quadrantCorners tl br c s).1 (quadrantCorners tl br c s).2 p.position) :
    Geometric (quadLeaf tl br c s l) := by
  simp only [quadLeaf, Node.new, NodePtr.setPoints, Geometric, ChildGeom, NodePtr.isNull,
    true_or, and_self, and_true, true_and]
  exact h

theorem routed_quadLeaf (tl br c : Vec2f) (s : Slot) (l : List (Point D)) :
    Routed (quadLeaf tl br c s l) := by
  simp only [quadLeaf, Node.new, NodePtr.setPoints, Routed, NodePtr.allPoints, List.not_mem_nil,
    false_imp_iff, implies_true, and_self, and_true]
  intro p _
  cases Node.getChild _ p.position <;> rfl

theorem NodePtr.allPoints_pushBack (n : NodePtr D) (h : n.isNull = false) (e : Point D) :
    ((n.pushBack e).allPoints : Multiset (Point D)) = e ::ₘ (n.allPoints : Multiset (Point D)) := by
  cases n with
  | null => simp [NodePtr.isNull] at h
  | node tl br c c1 c2 c3 c4 pts =>
    simp only [NodePtr.pushBack, NodePtr.setPoints, NodePtr.points, NodePtr.allPoints,
      ← Multiset.coe_add, ← Multiset.cons_coe, ← Multiset.singleton_add, Multiset.coe_singleton]
    simp only [← Multiset.cons_coe, Multiset.coe_nil, Multiset.cons_zero]
    abel

/-- The loop equation of the growth loop: `grow` is the `while` loop of lines
94-112 followed by the `push_back` of line 115, and the iteration bound it
passes to `growLoop` is never hit. -/
theorem grow_eq (pos : Vec2f) (data : D) (node : NodePtr D) (depth : Nat) :
    grow pos data node depth
      = if node.points.length < maxPointsPerNode ∧ depth < maxDepth then
          (split node).setChild (Node.getChild (split node).center pos)
            (grow pos data ((split node).child (Node.getChild (split node).center pos))
              (depth + 1))
        else node.pushBack ⟨pos, data⟩ := by
  unfold grow
  cases h : maxDepth - depth with
  | zero =>
    have : ¬ depth < maxDepth := by omega
    simp [growLoop, this]
  | succ k =>
    have : maxDepth - (depth + 1) = k := by omega
    simp only [growLoop, this]

/-- The final `push_back` at a node whose slot for `pos` is empty. -/
theorem pushBack_spec (pos : Vec2f) (data : D) (m : NodePtr D)
    (hm : m.isNull = false) (hg : Geometric m) (hr : Routed m)
    (hin : inRect m.topLeft m.bottomRight pos)
    (hnull : (m.child (Node.getChild m.center pos)).isNull = true) :
    (m.pushBack ⟨pos, data⟩).isNull = false
      ∧ (m.pushBack ⟨pos, data⟩).topLeft = m.topLeft
      ∧ (m.pushBack ⟨pos, data⟩).bottomRight = m.bottomRight
      ∧ (m.pushBack ⟨pos, data⟩).center = m.center
      ∧ Geometric (m.pushBack ⟨pos, data⟩)
      ∧ Routed (m.pushBack ⟨pos, data⟩)
      ∧ (∃ kept : Multiset (Point D), kept ≤ (m.allPoints : Multiset (Point D))
          ∧ ((m.pushBack ⟨pos, data⟩).allPoints : Multiset (Point D)) = ⟨pos, data⟩ ::ₘ kept
          ∧ ((∀ s, (m.child s).isNull = true) → kept = (m.allPoints : Multiset (Point D)))) := by
  have hn : (m.pushBack ⟨pos, data⟩).isNull = false := by
    rw [NodePtr.isNull_pushBack]; exact hm
  refine ⟨hn, by simp [NodePtr.pushBack], by simp [NodePtr.pushBack],
    by simp [NodePtr.pushBack], ?_, ?_, ?_⟩
  · rw [geometric_iff _ hn]
    obtain ⟨g1, g2, g3⟩ := (geometric_iff m hm).1 hg
    simp only [NodePtr.pushBack, NodePtr.center_setPoints, NodePtr.topLeft_setPoints,
      NodePtr.bottomRight_setPoints, NodePtr.child_setPoints, NodePtr.points_setPoints _ hm]
    refine ⟨g1, ?_, g3⟩
    intro p hp
    rcases List.mem_append.1 hp with hp | hp
    · exact g2 p hp
    · rw [List.mem_singleton.1 hp]; exact hin
  · rw [routed_iff _ hn]
    obtain ⟨r1, r2⟩ := (routed_iff m hm).1 hr
    simp only [NodePtr.pushBack, NodePtr.center_setPoints, NodePtr.child_setPoints,
      NodePtr.points_setPoints _ hm]
    refine ⟨?_, r2⟩
    intro p hp
    rcases List.mem_append.1 hp with hp | hp
    · exact r1 p hp
    · rw [List.mem_singleton.1 hp]; exact hnull
  · exact ⟨_, le_refl _, NodePtr.allPoints_pushBack m hm _, fun _ => rfl⟩

/-- What the growth loop and the final `push_back` do to the subtree at the
node where the descent stopped. -/
theorem growLoop_spec (pos : Vec2f) (data : D) (fuel : Nat) (m : NodePtr D) (depth : Nat)
    (hm : m.isNull = false) (hg : Geometric m) (hr : Routed m)
    (hin : inRect m.topLeft m.bottomRight pos)
    (hnull : (m.child (Node.getChild m.center pos)).isNull = true) :
    (growLoop pos data fuel m depth).isNull = false
      ∧ (growLoop pos data fuel m depth).topLeft = m.topLeft
      ∧ (growLoop pos data fuel m depth).bottomRight = m.bottomRight
      ∧ (growLoop pos data fuel m depth).center = m.center
      ∧ Geometric (growLoop pos data fuel m depth)
      ∧ Routed (growLoop pos data fuel m depth)
      ∧ (∃ kept : Multiset (Point D), kept ≤ (m.allPoints : Multiset (Point D))
          ∧ ((growLoop pos data fuel m depth).allPoints : Multiset (Point D))
              = ⟨pos, data⟩ ::ₘ kept
          ∧ ((∀ s, (m.child s).isNull = true) → kept = (m.allPoints : Multiset (Point D)))) := by
  induction fuel generalizing m depth with
  | zero => simpa [growLoop] using pushBack_spec pos data m hm hg hr hin hnull
  | succ fuel ih =>
    simp only [growLoop]
    split
    · obtain ⟨s1, s2, s3, s4, s5, s6⟩ := split_spec m hm
      obtain ⟨g1, g2, g3⟩ := (geometric_iff m hm).1 hg
      rw [s4]
      have hleafpts : ∀ s, ∀ p ∈ m.points.filter
          (fun p => decide (Node.getChild m.center p.position = s)),
          inRect (quadrantCorners m.topLeft m.bottomRight m.center s).1
            (quadrantCorners m.topLeft m.bottomRight m.center s).2 p.position := by
        intro s p hp
        obtain ⟨hp1, hp2⟩ := List.mem_filter.1 hp
        have hp3 : Node.getChild m.center p.position = s := by simpa using hp2
        rw [← hp3]
        exact inRect_quadrant _ _ _ _ (g2 p hp1)
      have hin' : inRect
          ((split m).child (Node.getChild m.center pos)).topLeft
          ((split m).child (Node.getChild m.center pos)).bottomRight pos := by
        rw [s6]
        exact inRect_quadrant _ _ _ _ hin
      have hchildless : ∀ s', (((split m).child (Node.getChild m.center pos)).child s').isNull
          = true := by
        intro s'; rw [s6, quadLeaf_child]; rfl
      obtain ⟨i1, i2, i3, i4, i5, i6, kept, i7, i8, i9⟩ :=
        ih ((split m).child (Node.getChild m.center pos)) (depth + 1)
          (by rw [s6]; rfl)
          (by rw [s6]; exact geometric_quadLeaf _ _ _ _ _ (hleafpts _))
          (by rw [s6]; exact routed_quadLeaf _ _ _ _ _) hin'
          (hchildless _)
      have i9' := i9 hchildless
      subst i9'
      have hrn : ((split m).setChild (Node.getChild m.center pos)
          (growLoop pos data fuel ((split m).child (Node.getChild m.center pos))
            (depth + 1))).isNull = false := by simpa using s1
      have hcorn : ∀ s, ((split m).child s).isNull = false
          ∧ (((split m).child s).topLeft, ((split m).child s).bottomRight)
            = quadrantCorners m.topLeft m.bottomRight m.center s := by
        intro s; rw [s6]; exact ⟨rfl, rfl⟩
      refine ⟨hrn, by simpa using s2, by simpa using s3, by simpa using s4, ?_, ?_, ?_⟩
      · rw [geometric_iff _ hrn]
        simp only [NodePtr.center_setChild, NodePtr.topLeft_setChild,
          NodePtr.bottomRight_setChild, NodePtr.points_setChild, s2, s3, s4, s5]
        refine ⟨g1, by simp, ?_⟩
        intro s
        rw [NodePtr.child_setChild _ s1]
        split
        · rename_i hs
          subst hs
          refine ⟨Or.inr ?_, i5⟩
          rw [i2, i3]
          exact (hcorn _).2
        · rw [s6]
          exact ⟨Or.inr rfl, geometric_quadLeaf _ _ _ _ _ (hleafpts _)⟩
      · rw [routed_iff _ hrn]
        simp only [NodePtr.center_setChild, NodePtr.points_setChild, s4, s5]
        refine ⟨by simp, ?_⟩
        intro s
        rw [NodePtr.child_setChild _ s1]
        split
        · rename_i hs
          subst hs
          refine ⟨?_, i6⟩
          intro p hp
          have hp' : p ∈ (⟨pos, data⟩ ::ₘ
              (((split m).child (Node.getChild m.center pos)).allPoints
                : Multiset (Point D))) := by
            rw [← i8]; exact hp
          rcases Multiset.mem_cons.1 hp' with hp' | hp'
          · rw [hp']
          · rw [s6, quadLeaf_allPoints] at hp'
            have := (List.mem_filter.1 (Multiset.mem_coe.1 hp')).2
            simpa using this
        · rw [s6]
          refine ⟨?_, routed_quadLeaf _ _ _ _ _⟩
          intro p hp
          rw [quadLeaf_allPoints] at hp
          have := (List.mem_filter.1 hp).2
          simpa using this
      · refine ⟨(m.points : Multiset (Point D)), ?_, ?_, ?_⟩
        · rw [NodePtr.allPoints_eq m hm, ← Multiset.coe_add]
          exact Multiset.le_add_right _ _
        · have e1 := NodePtr.allPoints_setChild (split m) s1 (Node.getChild m.center pos)
            (growLoop pos data fuel ((split m).child (Node.getChild m.center pos)) (depth + 1))
          rw [i8, split_allPoints m hm] at e1
          apply add_right_cancel (b := (((split m).child (Node.getChild m.center pos)).allPoints
            : Multiset (Point D)))
          rw [e1, Multiset.cons_add, Multiset.add_cons]
        · intro hall
          rw [NodePtr.allPoints_eq m hm]
          have : ∀ s, (m.child s).allPoints = [] := by
            intro s
            rw [(NodePtr.isNull_iff _).1 (hall s)]; rfl
          simp [this]
    · exact pushBack_spec pos data m hm hg hr hin hnull

/-! ## Invariants under a modification at the end of the descent -/

/-- Replacing the child in a slot by a subtree on the same quadrant keeps the
geometry. -/
theorem geometric_setChild (n : NodePtr D) (hn : n.isNull = false) (hg : Geometric n) (s : Slot)
    (c : NodePtr D) (hc : Geometric c)
    (hcg : ChildGeom n.topLeft n.bottomRight n.center s c) : Geometric (n.setChild s c) := by
  have hn' : (n.setChild s c).isNull = false := by simpa using hn
  rw [geometric_iff _ hn']
  obtain ⟨g1, g2, g3⟩ := (geometric_iff n hn).1 hg
  simp only [NodePtr.center_setChild, NodePtr.topLeft_setChild, NodePtr.bottomRight_setChild,
    NodePtr.points_setChild]
  refine ⟨g1, g2, ?_⟩
  intro s'
  rw [NodePtr.child_setChild n hn]
  split
  · rename_i hs; subst hs; exact ⟨hcg, hc⟩
  · exact g3 s'

/-- Invariants and stored points when the node at the end of the descent along
`pos` is modified by `f`.  `R` is a property of the nodes on the path that `f`
may rely on. -/
theorem modifyAt_descend_inv (pos : Vec2f) (f : NodePtr D → NodePtr D) (R : NodePtr D → Prop)
    (hR : ∀ n : NodePtr D, n.isNull = false → Geometric n → R n →
      (n.child (Node.getChild n.center pos)).isNull = false →
      R (n.child (Node.getChild n.center pos)))
    (hf : ∀ m : NodePtr D, m.isNull = false → Geometric m → Routed m → R m →
      (m.child (Node.getChild m.center pos)).isNull = true →
      (f m).isNull = false ∧ (f m).topLeft = m.topLeft ∧ (f m).bottomRight = m.bottomRight
        ∧ (f m).center = m.center ∧ Geometric (f m) ∧ Routed (f m)
        ∧ ∀ p ∈ (f m).allPoints, p ∈ m.allPoints ∨ p.position = pos)
    (n : NodePtr D) (hn : n.isNull = false) (hg : Geometric n) (hr : Routed n) (hRn : R n) :
    (n.modifyAt f (descend pos n)).isNull = false
      ∧ (n.modifyAt f (descend pos n)).topLeft = n.topLeft
      ∧ (n.modifyAt f (descend pos n)).bottomRight = n.bottomRight
      ∧ (n.modifyAt f (descend pos n)).center = n.center
      ∧ Geometric (n.modifyAt f (descend pos n))
      ∧ Routed (n.modifyAt f (descend pos n))
      ∧ ∀ p ∈ (n.modifyAt f (descend pos n)).allPoints, p ∈ n.allPoints ∨ p.position = pos := by
  induction n using NodePtr.induction_child with
  | hnull => simp [NodePtr.isNull] at hn
  | hnode n hn' ih =>
    rw [modifyAt_descend f pos n hn]
    cases hc : (n.child (Node.getChild n.center pos)).isNull with
    | true =>
      simp only [if_true]
      exact hf n hn hg hr hRn hc
    | false =>
      simp only [Bool.false_eq_true, if_false]
      obtain ⟨g1, g2, g3⟩ := (geometric_iff n hn).1 hg
      obtain ⟨r1, r2⟩ := (routed_iff n hn).1 hr
      obtain ⟨i1, i2, i3, i4, i5, i6, i7⟩ := ih (Node.getChild n.center pos) hc
        (g3 _).2 (r2 _).2 (hR n hn hg hRn hc)
      have hrn : (n.setChild (Node.getChild n.center pos)
          ((n.child (Node.getChild n.center pos)).modifyAt f
            (descend pos (n.child (Node.getChild n.center pos))))).isNull = false := by
        simpa using hn
      refine ⟨hrn, by simp, by simp, by simp, ?_, ?_, ?_⟩
      · apply geometric_setChild n hn hg _ _ i5
        rcases (g3 (Node.getChild n.center pos)).1 with h | h
        · rw [hc] at h; exact absurd h (by simp)
        · right; rw [i2, i3]; exact h
      · rw [routed_iff _ hrn]
        simp only [NodePtr.center_setChild, NodePtr.points_setChild]
        constructor
        · intro p hp
          rw [NodePtr.child_setChild n hn]
          split
          · rename_i hs
            have := r1 p hp
            rw [hs, hc] at this
            exact absurd this (by simp)
          · exact r1 p hp
        · intro s
          rw [NodePtr.child_setChild n hn]
          split
          · rename_i hs
            subst hs
            refine ⟨?_, i6⟩
            intro p hp
            rcases i7 p hp with h | h
            · exact (r2 _).1 p h
            · rw [h]
          · exact r2 s
      · intro p hp
        rcases (NodePtr.mem_allPoints _ hrn p).1 hp with h | ⟨s, h⟩
        · left
          rw [NodePtr.points_setChild] at h
          exact (NodePtr.mem_allPoints n hn p).2 (Or.inl h)
        · rw [NodePtr.child_setChild n hn] at h
          split at h
          · rcases i7 p h with h | h
            · exact Or.inl ((NodePtr.mem_allPoints n hn p).2 (Or.inr ⟨_, h⟩))
            · exact Or.inr h
          · exact Or.inl ((NodePtr.mem_allPoints n hn p).2 (Or.inr ⟨_, h⟩))

/-- The invariants descend to the node at the end of the descent. -/
theorem descend_node_inv (pos : Vec2f) (R : NodePtr D → Prop)
    (hR : ∀ n : NodePtr D, n.isNull = false → Geometric n → R n →
      (n.child (Node.getChild n.center pos)).isNull = false →
      R (n.child (Node.getChild n.center pos)))
    (n : NodePtr D) (hn : n.isNull = false) (hg : Geometric n) (hr : Routed n) (hRn : R n) :
    Geometric (n.nodeAt (descend pos n)) ∧ Routed (n.nodeAt (descend pos n))
      ∧ R (n.nodeAt (descend pos n)) := by
  induction n using NodePtr.induction_child with
  | hnull => simp [NodePtr.isNull] at hn
  | hnode n hn' ih =>
    rw [descend_eq pos n hn]
    cases hc : (n.child (Node.getChild n.center pos)).isNull with
    | true => simpa [NodePtr.nodeAt] using ⟨hg, hr, hRn⟩
    | false =>
      simp only [Bool.false_eq_true, if_false, NodePtr.nodeAt]
      obtain ⟨g1, g2, g3⟩ := (geometric_iff n hn).1 hg
      obtain ⟨r1, r2⟩ := (routed_iff n hn).1 hr
      exact ih _ hc (g3 _).2 (r2 _).2 (hR n hn hg hRn hc)

/-- Going down along `getChild(pos)` keeps `pos` inside the node's rectangle. -/
theorem inRect_child (pos : Vec2f) (n : NodePtr D) (hn : n.isNull = false) (hg : Geometric n)
    (hin : inRect n.topLeft n.bottomRight pos)
    (hc : (n.child (Node.getChild n.center pos)).isNull = false) :
    inRect (n.child (Node.getChild n.center pos)).topLeft
      (n.child (Node.getChild n.center pos)).bottomRight pos := by
  obtain ⟨g1, g2, g3⟩ := (geometric_iff n hn).1 hg
  rcases (g3 (Node.getChild n.center pos)).1 with h | h
  · rw [hc] at h; exact absurd h (by simp)
  · have := inRect_quadrant n.topLeft n.bottomRight n.center pos hin
    rw [← h] at this
    exact this

/-! ## `Tree::insert` -/

theorem outOfRange_iff (tl br pos : Vec2f) :
    (pos.x < tl.x ∨ pos.x > br.x ∨ pos.y < tl.y ∨ pos.y > br.y) ↔ ¬ inRect tl br pos := by
  unfold inRect
  constructor
  · rintro (h | h | h | h) ⟨h1, h2, h3, h4⟩ <;> linarith
  · intro h
    by_contra hc
    simp only [not_or, not_lt, gt_iff_lt] at hc
    exact h ⟨hc.1, hc.2.1, hc.2.2.1, hc.2.2.2⟩

/-- The call `insert` on a tree with a root, for a position inside the root
rectangle: it returns normally, and the tree is modified at the node where the
descent stops, by the growth loop run with the depth the descent has counted. -/
theorem Tree.insert_inside (t : Tree D) (pos : Vec2f) (data : D) (hn : t.root.isNull = false)
    (hin : inRect t.root.topLeft t.root.bottomRight pos) :
    t.insert pos data = (.ok (),
      ⟨t.root.modifyAt (fun node => grow pos data node (1 + (descend pos t.root).length + 1))
        (descend pos t.root)⟩) := by
  unfold Tree.insert
  rw [if_neg (by simp [hn]), if_neg ((outOfRange_iff _ _ _).not.2 (not_not.2 hin))]
  rw [insertDescent_eq pos t.root hn 1]

theorem Tree.insert_outside (t : Tree D) (pos : Vec2f) (data : D) (hn : t.root.isNull = false)
    (hout : ¬ inRect t.root.topLeft t.root.bottomRight pos) :
    t.insert pos data = (.error .outOfRange, t) := by
  unfold Tree.insert
  rw [if_neg (by simp [hn]), if_pos ((outOfRange_iff _ _ _).2 hout)]

/-- What a call of `insert` with a position inside the root rectangle does to a
tree that satisfies the invariants. -/
theorem Tree.insert_spec (t : Tree D) (pos : Vec2f) (data : D) (hn : t.root.isNull = false)
    (hg : Geometric t.root) (hr : Routed t.root)
    (hin : inRect t.root.topLeft t.root.bottomRight pos) :
    (t.insert pos data).1 = .ok ()
      ∧ (t.insert pos data).2.root.isNull = false
      ∧ (t.insert pos data).2.root.topLeft = t.root.topLeft
      ∧ (t.insert pos data).2.root.bottomRight = t.root.bottomRight
      ∧ Geometric (t.insert pos data).2.root
      ∧ Routed (t.insert pos data).2.root
      ∧ ∃ lost : Multiset (Point D),
          (t.insert pos data).2.entries + lost = ⟨pos, data⟩ ::ₘ t.entries
          ∧ ((∀ s, ((t.root.nodeAt (descend pos t.root)).child s).isNull = true) → lost = 0) := by
  rw [Tree.insert_inside t pos data hn hin]
  have hR : ∀ n : NodePtr D, n.isNull = false → Geometric n →
      inRect n.topLeft n.bottomRight pos →
      (n.child (Node.getChild n.center pos)).isNull = false →
      inRect (n.child (Node.getChild n.center pos)).topLeft
        (n.child (Node.getChild n.center pos)).bottomRight pos :=
    fun n h1 h2 h3 h4 => inRect_child pos n h1 h2 h3 h4
  have hf : ∀ m : NodePtr D, m.isNull = false → Geometric m → Routed m →
      inRect m.topLeft m.bottomRight pos →
      (m.child (Node.getChild m.center pos)).isNull = true →
      (grow pos data m (1 + (descend pos t.root).length + 1)).isNull = false
        ∧ (grow pos data m (1 + (descend pos t.root).length + 1)).topLeft = m.topLeft
        ∧ (grow pos data m (1 + (descend pos t.root).length + 1)).bottomRight = m.bottomRight
        ∧ (grow pos data m (1 + (descend pos t.root).length + 1)).center = m.center
        ∧ Geometric (grow pos data m (1 + (descend pos t.root).length + 1))
        ∧ Routed (grow pos data m (1 + (descend pos t.root).length + 1))
        ∧ ∀ p ∈ (grow pos data m (1 + (descend pos t.root).length + 1)).allPoints,
            p ∈ m.allPoints ∨ p.position = pos := by
    intro m h1 h2 h3 h4 h5
    obtain ⟨i1, i2, i3, i4, i5, i6, kept, i7, i8, -⟩ :=
      growLoop_spec pos data (maxDepth - (1 + (descend pos t.root).length + 1)) m
        (1 + (descend pos t.root).length + 1) h1 h2 h3 h4 h5
    refine ⟨i1, i2, i3, i4, i5, i6, ?_⟩
    intro p hp
    have hp' : p ∈ (⟨pos, data⟩ ::ₘ kept : Multiset (Point D)) := by
      rw [← i8]; exact hp
    rcases Multiset.mem_cons.1 hp' with h | h
    · right; rw [h]
    · left; exact Multiset.mem_coe.1 (Multiset.mem_of_le i7 h)
  obtain ⟨j1, j2, j3, -, j5, j6, -⟩ :=
    modifyAt_descend_inv pos _ (fun n => inRect n.topLeft n.bottomRight pos) hR hf t.root hn hg hr
      hin
  refine ⟨rfl, j1, j2, j3, j5, j6, ?_⟩
  obtain ⟨d1, d2⟩ := descend_end pos t.root hn
  obtain ⟨e1, e2, e3⟩ := descend_node_inv pos (fun n => inRect n.topLeft n.bottomRight pos) hR
    t.root hn hg hr hin
  obtain ⟨-, -, -, -, -, -, kept, i7, i8, i9⟩ :=
    growLoop_spec pos data (maxDepth - (1 + (descend pos t.root).length + 1))
      (t.root.nodeAt (descend pos t.root)) (1 + (descend pos t.root).length + 1) d1 e1 e2 e3 d2
  have hm := NodePtr.allPoints_modifyAt
    (fun node => grow pos data node (1 + (descend pos t.root).length + 1)) t.root
    (descend pos t.root) d1
  obtain ⟨lost, hlost⟩ := Multiset.le_iff_exists_add.1 i7
  refine ⟨lost, ?_, ?_⟩
  · simp only [Tree.entries]
    apply add_right_cancel (b := kept)
    rw [add_assoc, add_comm lost kept, ← hlost, hm]
    show _ + ((growLoop pos data _ _ _).allPoints : Multiset (Point D)) = _
    rw [i8, Multiset.add_cons, Multiset.cons_add]
  · intro hall
    have := i9 hall
    rw [this] at hlost
    have h0 : ((t.root.nodeAt (descend pos t.root)).allPoints : Multiset (Point D)) + 0
        = ((t.root.nodeAt (descend pos t.root)).allPoints : Multiset (Point D)) + lost := by
      rw [add_zero]; exact hlost
    exact (add_left_cancel h0).symm

/-! ## `find_if` and the swap-erase -/

theorem findIf_none [DecidableEq D] (data : D) (l : List (Point D)) :
    findIf data l = none ↔ ∀ p ∈ l, p.data ≠ data := by
  induction l with
  | nil => simp [findIf]
  | cons v vs ih =>
    simp only [findIf]
    by_cases h : v.data = data
    · simp [h]
    · simp [h, ih]

/-- The index `find_if` returns is that of the first point with the payload. -/
theorem findIf_some [DecidableEq D] (data : D) (l : List (Point D)) (i : Nat)
    (h : findIf data l = some i) :
    ∃ e, l[i]? = some e ∧ e.data = data ∧ ∀ j, j < i → ∀ e', l[j]? = some e' → e'.data ≠ data := by
  induction l generalizing i with
  | nil => simp [findIf] at h
  | cons v vs ih =>
    simp only [findIf] at h
    by_cases hv : v.data = data
    · simp only [hv, if_true, Option.some.injEq] at h
      subst h
      exact ⟨v, by simp, hv, by intro j hj; omega⟩
    · simp only [hv, if_false, Option.map_eq_some'] at h
      obtain ⟨k, hk, rfl⟩ := h
      obtain ⟨e, he1, he2, he3⟩ := ih k hk
      refine ⟨e, by simpa using he1, he2, ?_⟩
      intro j hj e' he'
      cases j with
      | zero =>
        simp only [List.getElem?_cons_zero, Option.some.injEq] at he'
        subst he'; exact hv
      | succ j =>
        simp only [List.getElem?_cons_succ] at he'
        exact he3 j (by omega) e' he'

theorem set_multiset (l : List (Point D)) (i : Nat) (a e : Point D) (h : l[i]? = some e) :
    ((l.set i a : List (Point D)) : Multiset (Point D)) + {e}
      = (l : Multiset (Point D)) + {a} := by
  induction l generalizing i with
  | nil => simp at h
  | cons v vs ih =>
    cases i with
    | zero =>
      simp only [List.getElem?_cons_zero, Option.some.injEq] at h
      subst h
      simp only [List.set_cons_zero, ← Multiset.cons_coe, ← Multiset.singleton_add]
      abel
    | succ i =>
      simp only [List.getElem?_cons_succ] at h
      simp only [List.set_cons_succ, ← Multiset.cons_coe, Multiset.cons_add]
      rw [ih i h]

/-- The swap-erase removes exactly the element at the index. -/
theorem swapErase_multiset (l : List (Point D)) (i : Nat) (e : Point D) (h : l[i]? = some e) :
    (l : Multiset (Point D)) = e ::ₘ ((swapErase l i : List (Point D)) : Multiset (Point D)) := by
  rcases List.eq_nil_or_concat l with hl | ⟨init, last, hl⟩
  · subst hl; simp at h
  · rw [List.concat_eq_append] at hl
    subst hl
    have hlast : (init ++ [last]).getLast? = some last := by simp
    simp only [swapErase, hlast]
    by_cases hi : i < init.length
    · rw [List.set_append_left _ _ hi, List.dropLast_concat]
      rw [List.getElem?_append_left hi] at h
      have := set_multiset init i last e h
      rw [← Multiset.singleton_add, add_comm, this, ← Multiset.coe_add]
      simp
    · have hi' : i = init.length := by
        have := (List.getElem?_eq_some.1 h).1
        simp at this
        omega
      subst hi'
      simp only [List.getElem?_concat_length, Option.some.injEq] at h
      subst h
      rw [List.set_append_right _ _ (le_refl _)]
      simp only [Nat.sub_self, List.set_cons_zero, List.dropLast_concat]
      rw [← Multiset.coe_add, ← Multiset.singleton_add, add_comm]
      simp

theorem swapErase_subset (l : List (Point D)) (i : Nat) (p : Point D)
    (hp : p ∈ swapErase l i) : p ∈ l := by
  rcases List.eq_nil_or_concat l with hl | ⟨init, last, hl⟩
  · subst hl; simp [swapErase] at hp
  · rw [List.concat_eq_append] at hl
    subst hl
    have hlast : (init ++ [last]).getLast? = some last := by simp
    simp only [swapErase, hlast] at hp
    have h1 := List.mem_of_mem_dropLast hp
    rcases List.mem_or_eq_of_mem_set h1 with h | h
    · exact h
    · subst h; simp

/-! ## `Tree::remove` -/

theorem afterRemove_null (pos : Vec2f) (f : NodePtr D → NodePtr D) (hf : f .null = .null) :
    afterRemove pos f (.null : NodePtr D) = .null := by
  simp [afterRemove, descend, NodePtr.modifyAt, pruneBelow, hf]

/-- The deletion and the cleanup below a node, one level at a time: the child
on the path is handled first; if that leaves it an empty leaf, it is detached,
otherwise it stays. -/
theorem afterRemove_eq (pos : Vec2f) (f : NodePtr D → NodePtr D) (n : NodePtr D)
    (hn : n.isNull = false) :
    afterRemove pos f n
      = if (n.child (Node.getChild n.center pos)).isNull then f n
        else if (afterRemove pos f (n.child (Node.getChild n.center pos))).isEmptyLeaf then
          n.setChild (Node.getChild n.center pos) .null
        else n.setChild (Node.getChild n.center pos)
          (afterRemove pos f (n.child (Node.getChild n.center pos))) := by
  unfold afterRemove
  rw [descend_eq pos n hn]
  cases hc : (n.child (Node.getChild n.center pos)).isNull with
  | true => simp [NodePtr.modifyAt, pruneBelow]
  | false =>
    simp only [Bool.false_eq_true, if_false, NodePtr.modifyAt, pruneBelow,
      NodePtr.child_setChild_same n hn, NodePtr.setChild_setChild, NodePtr.center_setChild]

/-- The call `remove` on a tree with a root: not found, or the cleanup reads
the top of the empty stack because the first node of the path has become an
empty leaf, or the call returns with the path pruned. -/
theorem Tree.remove_eq [DecidableEq D] (t : Tree D) (pos : Vec2f) (data : D)
    (hn : t.root.isNull = false) :
    t.remove pos data
      = match findIf data (t.root.nodeAt (descend pos t.root)).points with
        | none => (.error .notFound, t)
        | some i =>
          if (afterRemove pos (eraseAt i)
              (t.root.child (Node.getChild t.root.center pos))).isEmptyLeaf then
            (.error .undefinedBehaviour,
              ⟨t.root.setChild (Node.getChild t.root.center pos)
                (afterRemove pos (eraseAt i) (t.root.child (Node.getChild t.root.center pos)))⟩)
          else (.ok (), ⟨afterRemove pos (eraseAt i) t.root⟩) := by
  unfold Tree.remove
  rw [if_neg (by simp [hn]), removeDescent_eq]
  simp only [List.nil_append, List.append_nil]
  cases findIf data (t.root.nodeAt (descend pos t.root)).points with
  | none => rfl
  | some i =>
    simp only
    rw [afterRemove_eq pos (eraseAt i) t.root hn]
    have hnull : (eraseAt i) (.null : NodePtr D) = .null := rfl
    cases hc : (t.root.child (Node.getChild t.root.center pos)).isNull with
    | true =>
      rw [(NodePtr.isNull_iff _).1 hc, afterRemove_null pos _ hnull]
      rw [descend_eq pos t.root hn, hc]
      simp [stackOf, cleanup, NodePtr.modifyAt, NodePtr.isEmptyLeaf]
    | false =>
      rw [descend_eq pos t.root hn, hc]
      simp only [Bool.false_eq_true, if_false, stackOf, List.nil_append]
      rw [cleanup_stackOf]
      simp only [cleanup, NodePtr.modifyAt, NodePtr.nodeAt, NodePtr.child_setChild_same _ hn,
        NodePtr.setChild_setChild]
      have hN : pruneBelow pos
            (NodePtr.modifyAt (eraseAt i) (t.root.child (Node.getChild t.root.center pos))
              (descend pos (t.root.child (Node.getChild t.root.center pos))))
            (descend pos (t.root.child (Node.getChild t.root.center pos)))
          = afterRemove pos (eraseAt i) (t.root.child (Node.getChild t.root.center pos)) := rfl
      rw [hN]
      cases hleaf : (afterRemove pos (eraseAt i)
          (t.root.child (Node.getChild t.root.center pos))).isEmptyLeaf with
      | true => simp only [if_true]
      | false => simp only [Bool.false_eq_true, if_false]

theorem routed_setChild (n : NodePtr D) (hn : n.isNull = false) (hr : Routed n) (s : Slot)
    (c : NodePtr D) (hc : Routed c)
    (hsub : ∀ p ∈ c.allPoints, Node.getChild n.center p.position = s)
    (hnull : (n.child s).isNull = true → c.isNull = true) : Routed (n.setChild s c) := by
  have hn' : (n.setChild s c).isNull = false := by simpa using hn
  rw [routed_iff _ hn']
  obtain ⟨r1, r2⟩ := (routed_iff n hn).1 hr
  simp only [NodePtr.center_setChild, NodePtr.points_setChild]
  constructor
  · intro p hp
    rw [NodePtr.child_setChild n hn]
    split
    · rename_i hs
      apply hnull
      rw [← hs]
      exact r1 p hp
    · exact r1 p hp
  · intro s'
    rw [NodePtr.child_setChild n hn]
    split
    · rename_i hs; subst hs; exact ⟨hsub, hc⟩
    · exact r2 s'

theorem NodePtr.allPoints_of_isEmptyLeaf (n : NodePtr D) (h : n.isEmptyLeaf = true) :
    n.allPoints = [] := by
  cases n with
  | null => rfl
  | node tl br c c1 c2 c3 c4 pts =>
    simp only [NodePtr.isEmptyLeaf, Bool.and_eq_true, List.isEmpty_iff] at h
    obtain ⟨⟨⟨⟨h1, h2⟩, h3⟩, h4⟩, h5⟩ := h
    rw [(NodePtr.isNull_iff _).1 h1, (NodePtr.isNull_iff _).1 h2, (NodePtr.isNull_iff _).1 h3,
      (NodePtr.isNull_iff _).1 h4, h5]
    rfl

/-- The swap-erase at a node keeps the node in place and only drops points. -/
theorem eraseAt_spec (i : Nat) (m : NodePtr D) (hm : m.isNull = false) (hg : Geometric m)
    (hr : Routed m) :
    (eraseAt i m).isNull = false ∧ (eraseAt i m).topLeft = m.topLeft
      ∧ (eraseAt i m).bottomRight = m.bottomRight ∧ (eraseAt i m).center = m.center
      ∧ Geometric (eraseAt i m) ∧ Routed (eraseAt i m)
      ∧ ∀ p ∈ (eraseAt i m).allPoints, p ∈ m.allPoints := by
  have hn : (eraseAt i m).isNull = false := by simpa [eraseAt] using hm
  refine ⟨hn, by simp [eraseAt], by simp [eraseAt], by simp [eraseAt], ?_, ?_, ?_⟩
  · rw [geometric_iff _ hn]
    obtain ⟨g1, g2, g3⟩ := (geometric_iff m hm).1 hg
    simp only [eraseAt, NodePtr.center_setPoints, NodePtr.topLeft_setPoints,
      NodePtr.bottomRight_setPoints, NodePtr.child_setPoints, NodePtr.points_setPoints _ hm]
    exact ⟨g1, fun p hp => g2 p (swapErase_subset _ _ _ hp), g3⟩
  · rw [routed_iff _ hn]
    obtain ⟨r1, r2⟩ := (routed_iff m hm).1 hr
    simp only [eraseAt, NodePtr.center_setPoints, NodePtr.child_setPoints,
      NodePtr.points_setPoints _ hm]
    exact ⟨fun p hp => r1 p (swapErase_subset _ _ _ hp), r2⟩
  · intro p hp
    rw [NodePtr.mem_allPoints _ hn] at hp
    rw [NodePtr.mem_allPoints _ hm]
    simp only [eraseAt, NodePtr.child_setPoints, NodePtr.points_setPoints _ hm] at hp
    rcases hp with hp | hp
    · exact Or.inl (swapErase_subset _ _ _ hp)
    · exact Or.inr hp

/-- Invariants and stored points after the deletion and the cleanup below a
node. -/
theorem afterRemove_spec (pos : Vec2f) (i : Nat) (n : NodePtr D) (hn : n.isNull = false)
    (hg : Geometric n) (hr : Routed n) :
    (afterRemove pos (eraseAt i) n).isNull = false
      ∧ (afterRemove pos (eraseAt i) n).topLeft = n.topLeft
      ∧ (afterRemove pos (eraseAt i) n).bottomRight = n.bottomRight
      ∧ (afterRemove pos (eraseAt i) n).center = n.center
      ∧ Geometric (afterRemove pos (eraseAt i) n)
      ∧ Routed (afterRemove pos (eraseAt i) n)
      ∧ (∀ p ∈ (afterRemove pos (eraseAt i) n).allPoints, p ∈ n.allPoints)
      ∧ ((afterRemove pos (eraseAt i) n).allPoints : Multiset (Point D))
          + ((n.nodeAt (descend pos n)).allPoints : Multiset (Point D))
        = (n.allPoints : Multiset (Point D))
          + ((eraseAt i (n.nodeAt (descend pos n))).allPoints : Multiset (Point D)) := by
  induction n using NodePtr.induction_child with
  | hnull => simp [NodePtr.isNull] at hn
  | hnode n hn' ih =>
    rw [afterRemove_eq pos _ n hn, descend_eq pos n hn]
    cases hc : (n.child (Node.getChild n.center pos)).isNull with
    | true =>
      simp only [if_true, NodePtr.nodeAt]
      obtain ⟨e1, e2, e3, e4, e5, e6, e7⟩ := eraseAt_spec i n hn hg hr
      exact ⟨e1, e2, e3, e4, e5, e6, e7, add_comm _ _⟩
    | false =>
      simp only [Bool.false_eq_true, if_false, NodePtr.nodeAt]
      obtain ⟨g1, g2, g3⟩ := (geometric_iff n hn).1 hg
      obtain ⟨r1, r2⟩ := (routed_iff n hn).1 hr
      obtain ⟨i1, i2, i3, i4, i5, i6, i7, i8⟩ := ih (Node.getChild n.center pos) hc
        (g3 _).2 (r2 _).2
      cases hleaf : (afterRemove pos (eraseAt i)
          (n.child (Node.getChild n.center pos))).isEmptyLeaf with
      | true =>
        simp only [if_true]
        have hrn : (n.setChild (Node.getChild n.center pos) .null).isNull = false := by
          simpa using hn
        refine ⟨hrn, by simp, by simp, by simp, ?_, ?_, ?_, ?_⟩
        · exact geometric_setChild n hn hg _ _ trivial (Or.inl rfl)
        · exact routed_setChild n hn hr _ _ trivial (by simp) (fun _ => rfl)
        · intro p hp
          rw [NodePtr.mem_allPoints _ hrn] at hp
          rw [NodePtr.mem_allPoints _ hn]
          rcases hp with hp | ⟨s, hp⟩
          · left; simpa using hp
          · rw [NodePtr.child_setChild n hn] at hp
            split at hp
            · simp at hp
            · exact Or.inr ⟨s, hp⟩
        · have e1 := NodePtr.allPoints_setChild n hn (Node.getChild n.center pos) .null
          rw [NodePtr.allPoints_of_isEmptyLeaf _ hleaf] at i8
          simp only [Multiset.coe_nil, zero_add, NodePtr.allPoints_null, add_zero] at i8 e1
          rw [i8, ← add_assoc, e1]
      | false =>
        simp only [Bool.false_eq_true, if_false]
        have hrn : (n.setChild (Node.getChild n.center pos) (afterRemove pos (eraseAt i)
          (n.child (Node.getChild n.center pos)))).isNull = false := by
          simpa using hn
        refine ⟨hrn, by simp, by simp, by simp, ?_, ?_, ?_, ?_⟩
        · apply geometric_setChild n hn hg _ _ i5
          rcases (g3 (Node.getChild n.center pos)).1 with h | h
          · rw [hc] at h; exact absurd h (by simp)
          · right; rw [i2, i3]; exact h
        · apply routed_setChild n hn hr _ _ i6
          · intro p hp
            exact (r2 _).1 p (i7 p hp)
          · intro h; rw [hc] at h; exact absurd h (by simp)
        · intro p hp
          rw [NodePtr.mem_allPoints _ hrn] at hp
          rw [NodePtr.mem_allPoints _ hn]
          rcases hp with hp | ⟨s, hp⟩
          · left; simpa using hp
          · rw [NodePtr.child_setChild n hn] at hp
            split at hp
            · exact Or.inr ⟨_, i7 p hp⟩
            · exact Or.inr ⟨s, hp⟩
        · exact exchange_cancel (NodePtr.allPoints_setChild n hn _ _) i8

/-- The three ways a call of `remove` can end on a tree that satisfies the
invariants: not found (tree untouched); the first matching entry of the node at
the end of the descent is erased and the cleanup reads the top of the empty
stack; or that entry is erased and the call returns. -/
theorem Tree.remove_cases [DecidableEq D] (t : Tree D) (pos : Vec2f) (data : D)
    (hn : t.root.isNull = false) (hg : Geometric t.root) (hr : Routed t.root) :
    (t.remove pos data = (.error .notFound, t)
        ∧ ∀ p ∈ (t.root.nodeAt (descend pos t.root)).points, p.data ≠ data)
      ∨ ∃ i e, findIf data (t.root.nodeAt (descend pos t.root)).points = some i
          ∧ (t.root.nodeAt (descend pos t.root)).points[i]? = some e ∧ e.data = data
          ∧ ((t.remove pos data).1 = .error .undefinedBehaviour
            ∨ ((t.remove pos data).1 = .ok ()
              ∧ (t.remove pos data).2.root.isNull = false
              ∧ (t.remove pos data).2.root.topLeft = t.root.topLeft
              ∧ (t.remove pos data).2.root.bottomRight = t.root.bottomRight
              ∧ Geometric (t.remove pos data).2.root
              ∧ Routed (t.remove pos data).2.root
              ∧ t.entries = e ::ₘ (t.remove pos data).2.entries)) := by
  rw [Tree.remove_eq t pos data hn]
  cases hfind : findIf data (t.root.nodeAt (descend pos t.root)).points with
  | none => exact Or.inl ⟨rfl, (findIf_none data _).1 hfind⟩
  | some i =>
    right
    obtain ⟨e, he1, he2, -⟩ := findIf_some data _ i hfind
    refine ⟨i, e, rfl, he1, he2, ?_⟩
    simp only
    cases hleaf : (afterRemove pos (eraseAt i)
        (t.root.child (Node.getChild t.root.center pos))).isEmptyLeaf with
    | true => left; simp
    | false =>
      right
      simp only [Bool.false_eq_true, if_false]
      obtain ⟨i1, i2, i3, -, i5, i6, -, i8⟩ := afterRemove_spec pos i t.root hn hg hr
      refine ⟨trivial, i1, i2, i3, i5, i6, ?_⟩
      obtain ⟨d1, -⟩ := descend_end pos t.root hn
      have e1 := NodePtr.allPoints_setPoints (t.root.nodeAt (descend pos t.root)) d1
        (swapErase (t.root.nodeAt (descend pos t.root)).points i)
      have e2 := swapErase_multiset _ i e he1
      simp only [Tree.entries]
      simp only [eraseAt] at i8
      rw [e2] at e1
      apply add_right_cancel (b := (((t.root.nodeAt (descend pos t.root)).setPoints
        (swapErase (t.root.nodeAt (descend pos t.root)).points i)).allPoints
          : Multiset (Point D)))
      rw [← i8, Multiset.cons_add]
      have e3 : (((t.root.nodeAt (descend pos t.root)).setPoints
          (swapErase (t.root.nodeAt (descend pos t.root)).points i)).allPoints
            : Multiset (Point D)) + ({e} : Multiset (Point D))
          = ((t.root.nodeAt (descend pos t.root)).allPoints : Multiset (Point D)) := by
        apply add_right_cancel (b := ((swapErase (t.root.nodeAt (descend pos t.root)).points i
          : List (Point D)) : Multiset (Point D)))
        rw [add_assoc, Multiset.singleton_add, e1]
      rw [← e3, ← Multiset.singleton_add]
      abel

theorem geometric_new (x1 y1 x2 y2 : ℚ) : Geometric (Node.new x1 y1 x2 y2 : NodePtr D) := by
  simp [Node.new, Geometric, ChildGeom, NodePtr.isNull]

theorem routed_new (x1 y1 x2 y2 : ℚ) : Routed (Node.new x1 y1 x2 y2 : NodePtr D) := by
  simp [Node.new, Routed, NodePtr.allPoints]

/-- The invariants of every tree a program can hold: the root is present and
keeps the corners given to the constructor, the geometry and the routing
hold. -/
theorem Reachable.inv [DecidableEq D] {tl br : Vec2f} {t : Tree D} (h : Reachable tl br t) :
    t.root.isNull = false ∧ t.root.topLeft = tl ∧ t.root.bottomRight = br
      ∧ Geometric t.root ∧ Routed t.root := by
  induction h with
  | new => exact ⟨rfl, rfl, rfl, geometric_new _ _ _ _, routed_new _ _ _ _⟩
  | @insert t pos data _ ih =>
    obtain ⟨h1, h2, h3, h4, h5⟩ := ih
    by_cases hin : inRect t.root.topLeft t.root.bottomRight pos
    · obtain ⟨-, i2, i3, i4, i5, i6, -⟩ := Tree.insert_spec t pos data h1 h4 h5 hin
      exact ⟨i2, i3.trans h2, i4.trans h3, i5, i6⟩
    · rw [Tree.insert_outside t pos data h1 hin]
      exact ⟨h1, h2, h3, h4, h5⟩
  | @remove t pos data _ hne ih =>
    obtain ⟨h1, h2, h3, h4, h5⟩ := ih
    rcases Tree.remove_cases t pos data h1 h4 h5 with ⟨he, -⟩ | ⟨i, e, -, -, -, hub | hok⟩
    · rw [he]; exact ⟨h1, h2, h3, h4, h5⟩
    · exact absurd hub hne
    · obtain ⟨-, i2, i3, i4, i5, i6, -⟩ := hok
      exact ⟨i2, i3.trans h2, i4.trans h3, i5, i6⟩

/-! ## `Tree::query` -/

/-- Every entry stored below a node lies in the node's rectangle. -/
theorem contained (n : NodePtr D) (hn : n.isNull = false) (hg : Geometric n) :
    ∀ p ∈ n.allPoints, inRect n.topLeft n.bottomRight p.position := by
  induction n using NodePtr.induction_child with
  | hnull => simp [NodePtr.isNull] at hn
  | hnode n hn' ih =>
    obtain ⟨g1, g2, g3⟩ := (geometric_iff n hn).1 hg
    intro p hp
    rcases (NodePtr.mem_allPoints n hn p).1 hp with hp | ⟨s, hp⟩
    · exact g2 p hp
    · cases hc : (n.child s).isNull with
      | true =>
        rw [(NodePtr.isNull_iff _).1 hc] at hp
        simp at hp
      | false =>
        have h1 := ih s hc (g3 s).2 p hp
        rcases (g3 s).1 with h | h
        · rw [hc] at h; exact absurd h (by simp)
        · have h2 : (n.child s).topLeft = (quadrantCorners n.topLeft n.bottomRight n.center s).1 :=
            congrArg Prod.fst h
          have h3 : (n.child s).bottomRight
              = (quadrantCorners n.topLeft n.bottomRight n.center s).2 := congrArg Prod.snd h
          rw [h2, h3, g1] at h1
          exact inRect_of_quadrant _ _ _ s h1

/-- A node that `intersectsWith` rejects holds no point of the query
rectangle. -/
theorem not_inQuery_of_not_intersects (tl br a b : Vec2f) (p : Point D)
    (hp : inRect tl br p.position) (h : Node.intersectsWith tl br a b = false) :
    inQuery a b p = false := by
  obtain ⟨h1, h2, h3, h4⟩ := hp
  unfold Node.intersectsWith at h
  simp only [inQuery, decide_eq_false_iff_not, not_and, ge_iff_le, not_le]
  intro q1 q2 q3
  by_contra q4
  simp only [not_lt] at q4
  have c1 : ¬ b.y < tl.y := not_lt.2 (le_trans h3 q4)
  have c2 : ¬ b.x < tl.x := not_lt.2 (le_trans h1 q2)
  have c3 : ¬ a.y > br.y := not_lt.2 (le_trans q3 h4)
  have c4 : ¬ a.x > br.x := not_lt.2 (le_trans q1 h2)
  simp [c1, c2, c3, c4] at h

theorem pushChild_eq (a b : Vec2f) (c : NodePtr D) (stack : List (NodePtr D)) :
    pushChild a b c stack
      = (if !c.isNull && Node.intersectsWith c.topLeft c.bottomRight a b then [c] else [])
        ++ stack := by
  unfold pushChild
  split <;> rfl

theorem pushChild_nonnull (a b : Vec2f) (c : NodePtr D) (stack : List (NodePtr D))
    (h : ∀ n ∈ stack, n.isNull = false) : ∀ n ∈ pushChild a b c stack, n.isNull = false := by
  unfold pushChild
  split
  · rename_i hc
    intro n hn
    rcases List.mem_cons.1 hn with hn | hn
    · subst hn
      simp only [Bool.and_eq_true, Bool.not_eq_true'] at hc
      exact hc.1
    · exact h n hn
  · exact h

theorem pushChild_size (a b : Vec2f) (c : NodePtr D) (stack : List (NodePtr D)) :
    ((pushChild a b c stack).map NodePtr.size).sum ≤ c.size + (stack.map NodePtr.size).sum := by
  unfold pushChild
  split
  · simp
  · omega

theorem NodePtr.size_pos (n : NodePtr D) (h : n.isNull = false) : 0 < n.size := by
  cases n with
  | null => simp [NodePtr.isNull] at h
  | node tl br c c1 c2 c3 c4 pts => simp [NodePtr.size]

/-- The traversal loop, given at least as many iterations as there are nodes
below the stack, ends with the result of the recursive traversal of every
stack entry, top first. -/
theorem queryLoop_eq (a b : Vec2f) (fuel : Nat) (stack : List (NodePtr D))
    (result : List (Point D)) (hnn : ∀ n ∈ stack, n.isNull = false)
    (hfuel : (stack.map NodePtr.size).sum ≤ fuel) :
    queryLoop a b fuel stack result = some (result ++ (stack.map (queryRec a b)).flatten) := by
  induction fuel generalizing stack result with
  | zero =>
    cases stack with
    | nil => simp [queryLoop]
    | cons n stack =>
      have := NodePtr.size_pos n (hnn n (List.mem_cons_self _ _))
      simp only [List.map_cons, List.sum_cons] at hfuel
      omega
  | succ fuel ih =>
    cases stack with
    | nil => simp [queryLoop]
    | cons n stack =>
      cases n with
      | null =>
        have := hnn .null (List.mem_cons_self _ _)
        simp [NodePtr.isNull] at this
      | node tl br c c1 c2 c3 c4 pts =>
        simp only [queryLoop]
        have hst : ∀ n ∈ stack, n.isNull = false :=
          fun n hn => hnn n (List.mem_cons_of_mem _ hn)
        rw [ih]
        · simp only [pushChild_eq, queryRec, List.map_append, List.flatten_append, List.map_cons,
            List.flatten_cons, List.append_assoc]
          congr 2
          split <;> split <;> split <;> split <;> simp
        · exact pushChild_nonnull _ _ _ _ (pushChild_nonnull _ _ _ _
            (pushChild_nonnull _ _ _ _ (pushChild_nonnull _ _ _ _ hst)))
        · have s1 := pushChild_size a b c1 stack
          have s2 := pushChild_size a b c2 (pushChild a b c1 stack)
          have s3 := pushChild_size a b c3 (pushChild a b c2 (pushChild a b c1 stack))
          have s4 := pushChild_size a b c4
            (pushChild a b c3 (pushChild a b c2 (pushChild a b c1 stack)))
          simp only [List.map_cons, List.sum_cons, NodePtr.size] at hfuel
          omega

/-- The recursive traversal returns, up to order, the stored points of the
query rectangle: pruning by `intersectsWith` skips none of them. -/
theorem queryRec_multiset (a b : Vec2f) (n : NodePtr D) (hg : Geometric n) :
    ((queryRec a b n : List (Point D)) : Multiset (Point D))
      = ((n.allPoints.filter (inQuery a b) : List (Point D)) : Multiset (Point D)) := by
  induction n with
  | null => rfl
  | node tl br c c1 c2 c3 c4 pts h1 h2 h3 h4 =>
    obtain ⟨-, -, g3⟩ := (geometric_iff (.node tl br c c1 c2 c3 c4 pts) rfl).1 hg
    have key : ∀ ch : NodePtr D, Geometric ch →
        (((queryRec a b ch : List (Point D)) : Multiset (Point D))
          = ((ch.allPoints.filter (inQuery a b) : List (Point D)) : Multiset (Point D))) →
        (((if !ch.isNull && Node.intersectsWith ch.topLeft ch.bottomRight a b
            then queryRec a b ch else [] : List (Point D)) : Multiset (Point D))
          = ((ch.allPoints.filter (inQuery a b) : List (Point D)) : Multiset (Point D))) := by
      intro ch hch hih
      cases hnull : ch.isNull with
      | true =>
        rw [(NodePtr.isNull_iff _).1 hnull]
        simp [NodePtr.isNull]
      | false =>
        cases hint : Node.intersectsWith ch.topLeft ch.bottomRight a b with
        | true => simpa using hih
        | false =>
          simp only [Bool.not_false, Bool.and_false, Bool.false_eq_true, if_false]
          have : ch.allPoints.filter (inQuery a b) = [] := by
            rw [List.filter_eq_nil_iff]
            intro p hp
            rw [not_inQuery_of_not_intersects _ _ a b p (contained ch hnull hch p hp) hint]
            simp
          rw [this]
    have k1 := key c1 (g3 .childTopLeft).2 (h1 (g3 .childTopLeft).2)
    have k2 := key c2 (g3 .childTopRight).2 (h2 (g3 .childTopRight).2)
    have k3 := key c3 (g3 .childBottomLeft).2 (h3 (g3 .childBottomLeft).2)
    have k4 := key c4 (g3 .childBottomRight).2 (h4 (g3 .childBottomRight).2)
    simp only [queryRec, NodePtr.allPoints, List.filter_append, ← Multiset.coe_add]
    rw [k1, k2, k3, k4]
    abel

/-- The call `query` on a tree with a root returns, and what it returns is, up
to order, the stored entries that lie in the closed query rectangle. -/
theorem Tree.query_spec (t : Tree D) (a b : Vec2f) (hn : t.root.isNull = false)
    (hg : Geometric t.root) :
    ∃ result, t.query a b = some result
      ∧ (result : Multiset (Point D))
        = ((t.root.allPoints.filter (inQuery a b) : List (Point D)) : Multiset (Point D)) := by
  refine ⟨queryRec a b t.root, ?_, queryRec_multiset a b t.root hg⟩
  unfold Tree.query
  rw [queryLoop_eq a b _ _ _ (by simpa using hn) (by simp)]
  simp

theorem reachable_of_runCalls [DecidableEq D] (tl br : Vec2f) (calls : List (Call D))
    (t t' : Tree D) (ht : Reachable tl br t) (h : runCalls t calls = some t') :
    Reachable tl br t' := by
  induction calls generalizing t with
  | nil =>
    simp only [runCalls, Option.some.injEq] at h
    subst h; exact ht
  | cons c calls ih =>
    cases c with
    | insert pos data => exact ih _ (Reachable.insert pos data ht) h
    | remove pos data =>
      simp only [runCalls] at h
      split at h
      · exact absurd h (by simp)
      · rename_i hne
        exact ih _ (Reachable.remove pos data ht hne) h

theorem filter_inQuery (a b : Vec2f) (l : List (Point D)) :
    ((l.filter (inQuery a b) : List (Point D)) : Multiset (Point D))
      = Multiset.filter (fun p => inRect a b p.position) (l : Multiset (Point D)) := by
  rw [Multiset.filter_coe]
  congr 1

/-- On a reachable tree `query` returns the stored entries of the rectangle. -/
theorem query_of_reachable [DecidableEq D] (tl br : Vec2f) (t : Tree D) (h : Reachable tl br t)
    (a b : Vec2f) :
    ∃ result, t.query a b = some result
      ∧ (result : Multiset (Point D))
        = Multiset.filter (fun p => inRect a b p.position) t.entries := by
  obtain ⟨h1, -, -, h4, -⟩ := h.inv
  obtain ⟨result, r1, r2⟩ := Tree.query_spec t a b h1 h4
  exact ⟨result, r1, by rw [r2, filter_inQuery]; rfl⟩

/-- Claim C1.  For every tree reachable from `Tree(tl, br)` by calls of
`insert` and `remove`, and every pair of coordinates `a`, `b`, the call
`query(a, b)` returns, and what it returns is as a multiset exactly the stored
entries whose position lies in the closed rectangle from `a` to `b`: every
matching entry as often as it is stored, and no other. -/
theorem query_reachable [DecidableEq D] (tl br : Vec2f) (t : Tree D) (h : Reachable tl br t)
    (a b : Vec2f) :
    ∃ result, t.query a b = some result
      ∧ (result : Multiset (Point D))
        = Multiset.filter (fun p => a.x ≤ p.position.x ∧ p.position.x ≤ b.x
            ∧ a.y ≤ p.position.y ∧ p.position.y ≤ b.y) t.entries := by
  obtain ⟨hroot, -, -, hgeo, -⟩ := h.inv
  obtain ⟨result, hres, hmul⟩ := Tree.query_spec t a b hroot hgeo
  refine ⟨result, hres, ?_⟩
  rw [hmul, filter_inQuery]
  rfl

theorem query_reachable_witness :
    Reachable ⟨0, 0⟩ ⟨8, 8⟩ ((Tree.new ⟨0, 0⟩ ⟨8, 8⟩ : Tree Nat).insert ⟨1, 1⟩ 7).2
      ∧ ∃ result, ((Tree.new ⟨0, 0⟩ ⟨8, 8⟩ : Tree Nat).insert ⟨1, 1⟩ 7).2.query ⟨0, 0⟩ ⟨2, 2⟩
            = some result
          ∧ (result : Multiset (Point Nat))
            = Multiset.filter (fun p => inRect ⟨0, 0⟩ ⟨2, 2⟩ p.position)
                ((Tree.new ⟨0, 0⟩ ⟨8, 8⟩ : Tree Nat).insert ⟨1, 1⟩ 7).2.entries :=
  ⟨Reachable.insert _ _ Reachable.new,
    query_reachable ⟨0, 0⟩ ⟨8, 8⟩ _ (Reachable.insert _ _ Reachable.new) ⟨0, 0⟩ ⟨2, 2⟩⟩

theorem geometric_nodeAt (n : NodePtr D) (hg : Geometric n) (path : List Slot) :
    Geometric (n.nodeAt path) := by
  induction path generalizing n with
  | nil => exact hg
  | cons s path ih =>
    simp only [NodePtr.nodeAt]
    apply ih
    cases hn : n.isNull with
    | true => rw [(NodePtr.isNull_iff n).1 hn]; exact trivial
    | false => exact (((geometric_iff n hn).1 hg).2.2 s).2

theorem points_nodeAt_subset (n : NodePtr D) (path : List Slot) (p : Point D)
    (hp : p ∈ (n.nodeAt path).points) : p ∈ n.allPoints := by
  induction path generalizing n with
  | nil =>
    cases hn : n.isNull with
    | true => rw [(NodePtr.isNull_iff n).1 hn] at hp; simp [NodePtr.nodeAt, NodePtr.points] at hp
    | false => exact (NodePtr.mem_allPoints n hn p).2 (Or.inl hp)
  | cons s path ih =>
    cases hn : n.isNull with
    | true =>
      rw [(NodePtr.isNull_iff n).1 hn] at hp
      simp [NodePtr.points] at hp
    | false => exact (NodePtr.mem_allPoints n hn p).2 (Or.inr ⟨s, ih _ hp⟩)

/-- Claim C6.  Containment: in every reachable tree, an entry held in the point
list of the node at any path lies inside the root rectangle `[tl, br]`, inside
the rectangle of that node, and inside the rectangle of every node on the path
(`path.take k` runs through the root, the ancestors and the holder). -/
theorem containment_reachable [DecidableEq D] (tl br : Vec2f) (t : Tree D)
    (h : Reachable tl br t) (path : List Slot) (p : Point D)
    (hp : p ∈ (t.root.nodeAt path).points) :
    inRect tl br p.position
      ∧ inRect (t.root.nodeAt path).topLeft (t.root.nodeAt path).bottomRight p.position
      ∧ ∀ k, inRect (t.root.nodeAt (path.take k)).topLeft
          (t.root.nodeAt (path.take k)).bottomRight p.position := by
  obtain ⟨h1, h2, h3, h4, -⟩ := h.inv
  have key : ∀ k, inRect (t.root.nodeAt (path.take k)).topLeft
      (t.root.nodeAt (path.take k)).bottomRight p.position := by
    intro k
    have hsplit : t.root.nodeAt path = (t.root.nodeAt (path.take k)).nodeAt (path.drop k) := by
      rw [← NodePtr.nodeAt_append, List.take_append_drop]
    rw [hsplit] at hp
    have hmem := points_nodeAt_subset _ _ p hp
    have hnn : (t.root.nodeAt (path.take k)).isNull = false := by
      cases hn : (t.root.nodeAt (path.take k)).isNull with
      | false => rfl
      | true => rw [(NodePtr.isNull_iff _).1 hn] at hmem; simp at hmem
    exact contained _ hnn (geometric_nodeAt _ h4 _) p hmem
  refine ⟨?_, ?_, key⟩
  · have := key 0
    simpa [NodePtr.nodeAt, h2, h3] using this
  · have := key path.length
    simpa using this

theorem containment_reachable_witness :
    Reachable ⟨0, 0⟩ ⟨8, 8⟩ ((Tree.new ⟨0, 0⟩ ⟨8, 8⟩ : Tree Nat).insert ⟨1, 1⟩ 7).2
      ∧ (⟨⟨1, 1⟩, 7⟩ : Point Nat) ∈
          (((Tree.new ⟨0, 0⟩ ⟨8, 8⟩ : Tree Nat).insert ⟨1, 1⟩ 7).2.root.nodeAt
            [.childTopLeft, .childTopLeft, .childBottomRight]).points
      ∧ (inRect ⟨0, 0⟩ ⟨8, 8⟩ (⟨⟨1, 1⟩, 7⟩ : Point Nat).position
        ∧ inRect
            (((Tree.new ⟨0, 0⟩ ⟨8, 8⟩ : Tree Nat).insert ⟨1, 1⟩ 7).2.root.nodeAt
              [.childTopLeft, .childTopLeft, .childBottomRight]).topLeft
            (((Tree.new ⟨0, 0⟩ ⟨8, 8⟩ : Tree Nat).insert ⟨1, 1⟩ 7).2.root.nodeAt
              [.childTopLeft, .childTopLeft, .childBottomRight]).bottomRight
            (⟨⟨1, 1⟩, 7⟩ : Point Nat).position
        ∧ ∀ k, inRect
            (((Tree.new ⟨0, 0⟩ ⟨8, 8⟩ : Tree Nat).insert ⟨1, 1⟩ 7).2.root.nodeAt
              (List.take k [.childTopLeft, .childTopLeft, .childBottomRight])).topLeft
            (((Tree.new ⟨0, 0⟩ ⟨8, 8⟩ : Tree Nat).insert ⟨1, 1⟩ 7).2.root.nodeAt
              (List.take k [.childTopLeft, .childTopLeft, .childBottomRight])).bottomRight
            (⟨⟨1, 1⟩, 7⟩ : Point Nat).position) :=
  ⟨Reachable.insert _ _ Reachable.new, by decide!,
    containment_reachable ⟨0, 0⟩ ⟨8, 8⟩ _ (Reachable.insert _ _ Reachable.new) _ _ (by decide!)⟩

/-- Claim C7.  On a reachable tree, `insert(pos, data)` fails with the
out-of-range error exactly when `pos` is left of, right of, above or below the
root rectangle (whose corners are those given to the constructor); a position
in the closed root rectangle, and so one on its boundary such as the
`bottomRight` corner, is accepted; and a call that fails leaves the tree as it
was. -/
theorem insert_outOfRange_iff [DecidableEq D] (tl br : Vec2f) (t : Tree D)
    (h : Reachable tl br t) (pos : Vec2f) (data : D) :
    ((t.insert pos data).1 = .error .outOfRange
        ↔ pos.x < t.root.topLeft.x ∨ pos.x > t.root.bottomRight.x
          ∨ pos.y < t.root.topLeft.y ∨ pos.y > t.root.bottomRight.y)
      ∧ (t.root.topLeft = tl ∧ t.root.bottomRight = br)
      ∧ (inRect tl br pos → (t.insert pos data).1 = .ok ())
      ∧ (tl.x ≤ br.x → tl.y ≤ br.y → (t.insert br data).1 = .ok ())
      ∧ (∀ e, (t.insert pos data).1 = .error e → (t.insert pos data).2 = t) := by
  obtain ⟨h1, h2, h3, -, -⟩ := h.inv
  refine ⟨?_, ⟨h2, h3⟩, ?_, ?_, ?_⟩
  · rw [outOfRange_iff]
    by_cases hin : inRect t.root.topLeft t.root.bottomRight pos
    · rw [Tree.insert_inside t pos data h1 hin]
      simp [hin]
    · rw [Tree.insert_outside t pos data h1 hin]
      simp [hin]
  · intro hin
    rw [← h2, ← h3] at hin
    rw [Tree.insert_inside t pos data h1 hin]
  · intro hx hy
    have hin : inRect t.root.topLeft t.root.bottomRight br := by
      rw [h2, h3]; exact ⟨hx, le_refl _, hy, le_refl _⟩
    rw [Tree.insert_inside t br data h1 hin]
  · intro e he
    by_cases hin : inRect t.root.topLeft t.root.bottomRight pos
    · rw [Tree.insert_inside t pos data h1 hin] at he
      simp at he
    · rw [Tree.insert_outside t pos data h1 hin]

theorem insert_outOfRange_iff_witness :
    Reachable ⟨0, 0⟩ ⟨8, 8⟩ (Tree.new ⟨0, 0⟩ ⟨8, 8⟩ : Tree Nat)
      ∧ ((((Tree.new ⟨0, 0⟩ ⟨8, 8⟩ : Tree Nat).insert ⟨9, 8⟩ 7).1 = .error .outOfRange
          ↔ (9 : ℚ) < (Tree.new ⟨0, 0⟩ ⟨8, 8⟩ : Tree Nat).root.topLeft.x
            ∨ (9 : ℚ) > (Tree.new ⟨0, 0⟩ ⟨8, 8⟩ : Tree Nat).root.bottomRight.x
            ∨ (8 : ℚ) < (Tree.new ⟨0, 0⟩ ⟨8, 8⟩ : Tree Nat).root.topLeft.y
            ∨ (8 : ℚ) > (Tree.new ⟨0, 0⟩ ⟨8, 8⟩ : Tree Nat).root.bottomRight.y)
        ∧ ((Tree.new ⟨0, 0⟩ ⟨8, 8⟩ : Tree Nat).root.topLeft = ⟨0, 0⟩
          ∧ (Tree.new ⟨0, 0⟩ ⟨8, 8⟩ : Tree Nat).root.bottomRight = ⟨8, 8⟩)
        ∧ (inRect ⟨0, 0⟩ ⟨8, 8⟩ ⟨9, 8⟩
            → ((Tree.new ⟨0, 0⟩ ⟨8, 8⟩ : Tree Nat).insert ⟨9, 8⟩ 7).1 = .ok ())
        ∧ ((0 : ℚ) ≤ 8 → (0 : ℚ) ≤ 8
            → ((Tree.new ⟨0, 0⟩ ⟨8, 8⟩ : Tree Nat).insert ⟨8, 8⟩ 7).1 = .ok ())
        ∧ (∀ e, ((Tree.new ⟨0, 0⟩ ⟨8, 8⟩ : Tree Nat).insert ⟨9, 8⟩ 7).1 = .error e
            → ((Tree.new ⟨0, 0⟩ ⟨8, 8⟩ : Tree Nat).insert ⟨9, 8⟩ 7).2
              = Tree.new ⟨0, 0⟩ ⟨8, 8⟩)) :=
  ⟨Reachable.new, insert_outOfRange_iff ⟨0, 0⟩ ⟨8, 8⟩ _ Reachable.new ⟨9, 8⟩ 7⟩

/-- The entries of a freshly constructed tree after one `insert`. -/
theorem entries_new_insert (tl br pos : Vec2f) (data : D) (hin : inRect tl br pos) :
    ((Tree.new tl br : Tree D).insert pos data).1 = .ok ()
      ∧ ((Tree.new tl br : Tree D).insert pos data).2.entries = {⟨pos, data⟩} := by
  obtain ⟨i1, -, -, -, -, -, lost, i7, i8⟩ :=
    Tree.insert_spec (Tree.new tl br : Tree D) pos data rfl (geometric_new _ _ _ _)
      (routed_new _ _ _ _) hin
  refine ⟨i1, ?_⟩
  have hl : lost = 0 := by
    apply i8
    intro s
    simp only [Tree.new, Node.new, descend]
    cases Node.getChild _ pos <;> cases s <;> rfl
  rw [hl, add_zero] at i7
  rw [i7]
  rfl

/-- Claim C8.  On a reachable tree, `remove(pos, data)` fails with the
not-found error exactly when the node at which the descent along
`getChild(pos)` stops holds no entry with payload `data`, and a call that fails
so leaves the tree as it was.  In particular, after `insert(P, A)` into a
fresh tree, `remove(P, B)` with another payload fails, and a following query
of a rectangle around `P` returns the entry `(P, A)`. -/
theorem remove_notFound_iff [DecidableEq D] (tl br : Vec2f) (t : Tree D)
    (h : Reachable tl br t) (pos : Vec2f) (data : D) :
    ((t.remove pos data).1 = .error .notFound
        ↔ ∀ e ∈ (t.root.nodeAt (removeDescent pos t.root [] []).1).points, e.data ≠ data)
      ∧ ((t.remove pos data).1 = .error .notFound → (t.remove pos data).2 = t)
      ∧ (∀ (P : Vec2f) (A B : D), A ≠ B → inRect tl br P →
          ((((Tree.new tl br : Tree D).insert P A).2.remove P B).1 = .error .notFound
            ∧ ∀ a b, inRect a b P →
                ((((Tree.new tl br : Tree D).insert P A).2.remove P B).2.query a b
                  = some [⟨P, A⟩]))) := by
  obtain ⟨h1, -, -, h4, h5⟩ := h.inv
  have hdesc : (removeDescent pos t.root [] []).1 = descend pos t.root := by
    rw [removeDescent_eq]; rfl
  rw [hdesc]
  refine ⟨?_, ?_, ?_⟩
  · rcases Tree.remove_cases t pos data h1 h4 h5 with ⟨he, hall⟩ | ⟨i, e, hf, hi, hd, hub | hok⟩
    · rw [he]; simpa using hall
    · rw [hub]
      constructor
      · intro hc; simp at hc
      · intro hall
        exact absurd hd (hall e (List.mem_iff_getElem?.2 ⟨_, hi⟩))
    · rw [hok.1]
      constructor
      · intro hc; simp at hc
      · intro hall
        exact absurd hd (hall e (List.mem_iff_getElem?.2 ⟨_, hi⟩))
  · intro hnf
    rcases Tree.remove_cases t pos data h1 h4 h5 with ⟨he, -⟩ | ⟨i, e, -, -, -, hub | hok⟩
    · rw [he]
    · rw [hub] at hnf; simp at hnf
    · rw [hok.1] at hnf; simp at hnf
  · intro P A B hAB hin
    obtain ⟨n1, n2⟩ := entries_new_insert tl br P A hin
    have hreach : Reachable tl br ((Tree.new tl br : Tree D).insert P A).2 :=
      Reachable.insert P A Reachable.new
    obtain ⟨k1, -, -, k4, k5⟩ := hreach.inv
    have hnf : ((Tree.new tl br : Tree D).insert P A).2.remove P B
        = (.error .notFound, ((Tree.new tl br : Tree D).insert P A).2) := by
      rcases Tree.remove_cases _ P B k1 k4 k5 with ⟨he, -⟩ | ⟨i, e, -, hi, hd, -⟩
      · exact he
      · have hmem : e ∈ ((Tree.new tl br : Tree D).insert P A).2.entries :=
          Multiset.mem_coe.2 (points_nodeAt_subset _ _ e (List.mem_iff_getElem?.2 ⟨_, hi⟩))
        rw [n2, Multiset.mem_singleton] at hmem
        rw [hmem] at hd
        exact absurd hd hAB
    rw [hnf]
    refine ⟨rfl, ?_⟩
    intro a b hab
    obtain ⟨result, r1, r2⟩ := query_of_reachable tl br _ hreach a b
    rw [n2] at r2
    rw [r1]
    have : Multiset.filter (fun p : Point D => inRect a b p.position) {⟨P, A⟩}
        = {⟨P, A⟩} := by
      rw [Multiset.filter_eq_self]
      intro p hp
      rw [Multiset.mem_singleton.1 hp]
      exact hab
    rw [this] at r2
    rw [Multiset.coe_eq_singleton.1 r2]

theorem remove_notFound_iff_witness :
    Reachable ⟨0, 0⟩ ⟨8, 8⟩ ((Tree.new ⟨0, 0⟩ ⟨8, 8⟩ : Tree Nat).insert ⟨1, 1⟩ 7).2
      ∧ (((((Tree.new ⟨0, 0⟩ ⟨8, 8⟩ : Tree Nat).insert ⟨1, 1⟩ 7).2.remove ⟨1, 1⟩ 9).1
            = .error .notFound
          ↔ ∀ e ∈ (((Tree.new ⟨0, 0⟩ ⟨8, 8⟩ : Tree Nat).insert ⟨1, 1⟩ 7).2.root.nodeAt
              (removeDescent ⟨1, 1⟩
                ((Tree.new ⟨0, 0⟩ ⟨8, 8⟩ : Tree Nat).insert ⟨1, 1⟩ 7).2.root [] []).1).points,
              e.data ≠ 9)
        ∧ ((((Tree.new ⟨0, 0⟩ ⟨8, 8⟩ : Tree Nat).insert ⟨1, 1⟩ 7).2.remove ⟨1, 1⟩ 9).1
            = .error .notFound
          → (((Tree.new ⟨0, 0⟩ ⟨8, 8⟩ : Tree Nat).insert ⟨1, 1⟩ 7).2.remove ⟨1, 1⟩ 9).2
            = ((Tree.new ⟨0, 0⟩ ⟨8, 8⟩ : Tree Nat).insert ⟨1, 1⟩ 7).2)
        ∧ (∀ (P : Vec2f) (A B : Nat), A ≠ B → inRect ⟨0, 0⟩ ⟨8, 8⟩ P →
          ((((Tree.new ⟨0, 0⟩ ⟨8, 8⟩ : Tree Nat).insert P A).2.remove P B).1 = .error .notFound
            ∧ ∀ a b, inRect a b P →
                ((((Tree.new ⟨0, 0⟩ ⟨8, 8⟩ : Tree Nat).insert P A).2.remove P B).2.query a b
                  = some [⟨P, A⟩])))) :=
  ⟨Reachable.insert _ _ Reachable.new,
    remove_notFound_iff ⟨0, 0⟩ ⟨8, 8⟩ _ (Reachable.insert _ _ Reachable.new) ⟨1, 1⟩ 9⟩

theorem full_quadLeaf (tl br c : Vec2f) (s : Slot) (l : List (Point D)) :
    Full (quadLeaf tl br c s l) := by
  simp [quadLeaf, Node.new, NodePtr.setPoints, Full, NodePtr.isNull]

theorem full_setPoints (n : NodePtr D) (l : List (Point D)) (h : Full n) :
    Full (n.setPoints l) := by
  cases n with
  | null => exact trivial
  | node tl br c c1 c2 c3 c4 pts => exact h

theorem full_nodeAt (n : NodePtr D) (h : Full n) (path : List Slot) : Full (n.nodeAt path) := by
  induction path generalizing n with
  | nil => exact h
  | cons s path ih =>
    simp only [NodePtr.nodeAt]
    apply ih
    cases hn : n.isNull with
    | true => rw [(NodePtr.isNull_iff n).1 hn]; exact trivial
    | false => exact ((full_iff n hn).1 h).2 s

theorem growLoop_full (pos : Vec2f) (data : D) (fuel : Nat) (m : NodePtr D) (depth : Nat)
    (hm : m.isNull = false) (hf : Full m) :
    (growLoop pos data fuel m depth).isNull = false ∧ Full (growLoop pos data fuel m depth) := by
  induction fuel generalizing m depth with
  | zero =>
    simp only [growLoop, NodePtr.pushBack]
    exact ⟨by simpa using hm, full_setPoints _ _ hf⟩
  | succ fuel ih =>
    simp only [growLoop]
    split
    · obtain ⟨s1, -, -, s4, -, s6⟩ := split_spec m hm
      obtain ⟨i1, i2⟩ := ih ((split m).child (Node.getChild (split m).center pos)) (depth + 1)
        (by rw [s6]; rfl) (by rw [s6]; exact full_quadLeaf _ _ _ _ _)
      have hrn : ((split m).setChild (Node.getChild (split m).center pos)
          (growLoop pos data fuel ((split m).child (Node.getChild (split m).center pos))
            (depth + 1))).isNull = false := by simpa using s1
      refine ⟨hrn, ?_⟩
      rw [full_iff _ hrn]
      constructor
      · right
        intro s
        rw [NodePtr.child_setChild _ s1]
        split
        · exact i1
        · rw [s6]; rfl
      · intro s
        rw [NodePtr.child_setChild _ s1]
        split
        · exact i2
        · rw [s6]; exact full_quadLeaf _ _ _ _ _
    · simp only [NodePtr.pushBack]
      exact ⟨by simpa using hm, full_setPoints _ _ hf⟩

theorem full_modifyAt_descend (pos : Vec2f) (f : NodePtr D → NodePtr D)
    (hf : ∀ m : NodePtr D, m.isNull = false → Full m → (f m).isNull = false ∧ Full (f m))
    (n : NodePtr D) (hn : n.isNull = false) (hfull : Full n) :
    (n.modifyAt f (descend pos n)).isNull = false ∧ Full (n.modifyAt f (descend pos n)) := by
  induction n using NodePtr.induction_child with
  | hnull => simp [NodePtr.isNull] at hn
  | hnode n hn' ih =>
    rw [modifyAt_descend f pos n hn]
    cases hc : (n.child (Node.getChild n.center pos)).isNull with
    | true => simpa using hf n hn hfull
    | false =>
      simp only [Bool.false_eq_true, if_false]
      obtain ⟨f1, f2⟩ := (full_iff n hn).1 hfull
      obtain ⟨i1, i2⟩ := ih _ hc (f2 _)
      have hrn : (n.setChild (Node.getChild n.center pos)
          ((n.child (Node.getChild n.center pos)).modifyAt f
            (descend pos (n.child (Node.getChild n.center pos))))).isNull = false := by
        simpa using hn
      refine ⟨hrn, ?_⟩
      rw [full_iff _ hrn]
      constructor
      · right
        intro s
        rw [NodePtr.child_setChild n hn]
        split
        · exact i1
        · rcases f1 with f1 | f1
          · have := f1 (Node.getChild n.center pos)
            rw [hc] at this
            exact absurd this (by simp)
          · exact f1 s
      · intro s
        rw [NodePtr.child_setChild n hn]
        split
        · exact i2
        · exact f2 s

/-- On a tree in which every node has no child or four, `insert` with a
position inside the root rectangle adds the entry and keeps every other. -/
theorem Tree.insert_full (t : Tree D) (pos : Vec2f) (data : D) (hn : t.root.isNull = false)
    (hg : Geometric t.root) (hr : Routed t.root) (hfull : Full t.root)
    (hin : inRect t.root.topLeft t.root.bottomRight pos) :
    Full (t.insert pos data).2.root
      ∧ (t.insert pos data).2.entries = ⟨pos, data⟩ ::ₘ t.entries := by
  obtain ⟨-, -, -, -, -, -, lost, i7, i8⟩ := Tree.insert_spec t pos data hn hg hr hin
  constructor
  · rw [Tree.insert_inside t pos data hn hin]
    exact (full_modifyAt_descend pos _
      (fun m hm hf => growLoop_full pos data _ m _ hm hf) t.root hn hfull).2
  · have hl : lost = 0 := by
      apply i8
      obtain ⟨d1, d2⟩ := descend_end pos t.root hn
      rcases ((full_iff _ d1).1 (full_nodeAt t.root hfull _)).1 with h | h
      · exact h
      · have := h (Node.getChild (t.root.nodeAt (descend pos t.root)).center pos)
        rw [d2] at this
        exact absurd this (by simp)
    rw [hl, add_zero] at i7
    exact i7

theorem insertAll_spec (tl br : Vec2f) (es : List (Point D)) (t : Tree D)
    (hn : t.root.isNull = false) (htl : t.root.topLeft = tl) (hbr : t.root.bottomRight = br)
    (hg : Geometric t.root) (hr : Routed t.root) (hfull : Full t.root)
    (hin : ∀ e ∈ es, inRect tl br e.position) :
    ∃ t', insertAll t es = (.ok (), t') ∧ t'.root.isNull = false ∧ t'.root.topLeft = tl
      ∧ t'.root.bottomRight = br ∧ Geometric t'.root
      ∧ t'.entries = t.entries + (es : Multiset (Point D)) := by
  induction es generalizing t with
  | nil => exact ⟨t, rfl, hn, htl, hbr, hg, by simp⟩
  | cons e es ih =>
    have hine : inRect t.root.topLeft t.root.bottomRight e.position := by
      rw [htl, hbr]; exact hin e (List.mem_cons_self _ _)
    obtain ⟨i1, i2, i3, i4, i5, i6, -⟩ := Tree.insert_spec t e.position e.data hn hg hr hine
    obtain ⟨j1, j2⟩ := Tree.insert_full t e.position e.data hn hg hr hfull hine
    obtain ⟨t', k1, k2, k3, k4, k5, k6⟩ := ih (t.insert e.position e.data).2 i2
      (i3.trans htl) (i4.trans hbr) i5 i6 j1 (fun x hx => hin x (List.mem_cons_of_mem _ hx))
    refine ⟨t', ?_, k2, k3, k4, k5, ?_⟩
    · simp only [insertAll, i1]
      exact k1
    · rw [k6, j2, ← Multiset.cons_coe, Multiset.cons_add, Multiset.add_cons]

/-- Claim C3.  For every list of entries with positions inside the root
rectangle, inserting them one after another into a freshly constructed tree
succeeds, and a query of the whole root rectangle then returns, as a multiset,
exactly the inserted entries, however the positions cluster or coincide. -/
theorem insertAll_query (tl br : Vec2f) (es : List (Point D))
    (hin : ∀ e ∈ es, inRect tl br e.position) :
    ∃ t result, insertAll (Tree.new tl br) es = (.ok (), t)
      ∧ t.query tl br = some result
      ∧ (result : Multiset (Point D)) = (es : Multiset (Point D)) := by
  obtain ⟨t, k1, k2, k3, k4, k5, k6⟩ := insertAll_spec tl br es (Tree.new tl br) rfl rfl rfl
    (geometric_new _ _ _ _) (routed_new _ _ _ _)
    (by simp [Tree.new, Node.new, Full, NodePtr.isNull]) hin
  obtain ⟨result, r1, r2⟩ := Tree.query_spec t tl br k2 k5
  refine ⟨t, result, k1, r1, ?_⟩
  rw [r2]
  have hall : t.root.allPoints.filter (inQuery tl br) = t.root.allPoints := by
    rw [List.filter_eq_self]
    intro p hp
    have := contained t.root k2 k5 p hp
    rw [k3, k4] at this
    simpa [inQuery, inRect] using this
  rw [hall]
  have : (t.root.allPoints : Multiset (Point D)) = t.entries := rfl
  rw [this, k6]
  simp [Tree.entries, Tree.new, Node.new, NodePtr.allPoints]

theorem insertAll_query_witness :
    (∀ e ∈ ([⟨⟨1, 1⟩, 1⟩, ⟨⟨1, 1⟩, 1⟩, ⟨⟨1, 2⟩, 3⟩, ⟨⟨1, 1⟩, 4⟩, ⟨⟨2, 1⟩, 5⟩, ⟨⟨8, 8⟩, 6⟩]
        : List (Point Nat)), inRect ⟨0, 0⟩ ⟨8, 8⟩ e.position)
      ∧ ∃ t result,
          insertAll (Tree.new ⟨0, 0⟩ ⟨8, 8⟩)
              ([⟨⟨1, 1⟩, 1⟩, ⟨⟨1, 1⟩, 1⟩, ⟨⟨1, 2⟩, 3⟩, ⟨⟨1, 1⟩, 4⟩, ⟨⟨2, 1⟩, 5⟩, ⟨⟨8, 8⟩, 6⟩]
                : List (Point Nat)) = (.ok (), t)
            ∧ t.query ⟨0, 0⟩ ⟨8, 8⟩ = some result
            ∧ (result : Multiset (Point Nat))
              = (([⟨⟨1, 1⟩, 1⟩, ⟨⟨1, 1⟩, 1⟩, ⟨⟨1, 2⟩, 3⟩, ⟨⟨1, 1⟩, 4⟩, ⟨⟨2, 1⟩, 5⟩,
                  ⟨⟨8, 8⟩, 6⟩] : List (Point Nat)) : Multiset (Point Nat)) :=
  ⟨by decide!, insertAll_query ⟨0, 0⟩ ⟨8, 8⟩ _ (by decide!)⟩

/-- Claim C2 (the code loses entries).  In `Tree((0,0), (8,8))`, after
`insert((1/2,1/2), 1)`, `insert((3/2,1/2), 2)` and `remove((1/2,1/2), 1)` the
tree stores exactly the entry `((3/2,1/2), 2)`; the call
`insert((1/2,1/2), 1)` then returns normally and leaves a tree that stores
only `((1/2,1/2), 1)`: the growth loop has assigned four fresh children to the
node whose slot for the position was empty, destroying the sibling leaf and
the entry it held. -/
theorem insert_destroys_sibling :
    (runCalls (Tree.new ⟨0, 0⟩ ⟨8, 8⟩ : Tree Nat)
        [.insert ⟨1/2, 1/2⟩ 1, .insert ⟨3/2, 1/2⟩ 2, .remove ⟨1/2, 1/2⟩ 1]).map Tree.entries
        = some {⟨⟨3/2, 1/2⟩, 2⟩}
      ∧ inRect ⟨0, 0⟩ ⟨8, 8⟩ ⟨1/2, 1/2⟩
      ∧ (runCalls (Tree.new ⟨0, 0⟩ ⟨8, 8⟩ : Tree Nat)
          [.insert ⟨1/2, 1/2⟩ 1, .insert ⟨3/2, 1/2⟩ 2, .remove ⟨1/2, 1/2⟩ 1]).map
            (fun t => ((t.insert ⟨1/2, 1/2⟩ 1).1, (t.insert ⟨1/2, 1/2⟩ 1).2.entries))
        = some (.ok (), {⟨⟨1/2, 1/2⟩, 1⟩}) := by
  decide!

/-- Claim C9 (the code reads the top of the empty stack).  The calls
`underflowCalls` lead from `Tree((0,0), (8,8))` to a reachable tree on which
`remove((7/2,7/2), 0)` finds its entry, and whose cleanup then pops the
first-level node as an empty leaf when the stack has become empty: the call
ends in the undefined `stack.top()`, the node is not detached from the
root. -/
theorem cleanup_reads_empty_stack :
    ∃ t : Tree Nat, runCalls (Tree.new ⟨0, 0⟩ ⟨8, 8⟩) underflowCalls = some t
      ∧ Reachable ⟨0, 0⟩ ⟨8, 8⟩ t
      ∧ (⟨⟨7/2, 7/2⟩, 0⟩ : Point Nat) ∈ t.entries
      ∧ (t.remove ⟨7/2, 7/2⟩ 0).1 = .error .undefinedBehaviour := by
  have hsome : (runCalls (Tree.new ⟨0, 0⟩ ⟨8, 8⟩ : Tree Nat) underflowCalls).isSome = true := by
    decide!
  obtain ⟨t, ht⟩ := Option.isSome_iff_exists.1 hsome
  have hres : (runCalls (Tree.new ⟨0, 0⟩ ⟨8, 8⟩ : Tree Nat) underflowCalls).map
      (fun t => (decide ((⟨⟨7/2, 7/2⟩, 0⟩ : Point Nat) ∈ t.entries), (t.remove ⟨7/2, 7/2⟩ 0).1))
      = some (true, .error .undefinedBehaviour) := by
    decide!
  rw [ht] at hres
  simp only [Option.map_some', Option.some.injEq, Prod.mk.injEq, decide_eq_true_eq] at hres
  exact ⟨t, ht, reachable_of_runCalls _ _ _ _ _ Reachable.new ht, hres.1, hres.2⟩

theorem isEmptyLeaf_iff (m : NodePtr D) :
    m.isEmptyLeaf = true
      ↔ m.isNull = false ∧ m.points = [] ∧ ∀ s, (m.child s).isNull = true := by
  cases m with
  | null => simp [NodePtr.isEmptyLeaf, NodePtr.isNull]
  | node tl br c c1 c2 c3 c4 pts =>
    simp only [NodePtr.isEmptyLeaf, Bool.and_eq_true, List.isEmpty_iff, NodePtr.isNull,
      NodePtr.points, true_and]
    constructor
    · rintro ⟨⟨⟨⟨h1, h2⟩, h3⟩, h4⟩, h5⟩
      refine ⟨h5, ?_⟩
      intro s
      cases s <;> assumption
    · rintro ⟨h5, h⟩
      exact ⟨⟨⟨⟨h .childTopLeft, h .childTopRight⟩, h .childBottomLeft⟩, h .childBottomRight⟩, h5⟩

theorem isEmptyLeaf_false_of_child (n : NodePtr D) (s : Slot) (h : (n.child s).isNull = false) :
    n.isEmptyLeaf = false := by
  cases hl : n.isEmptyLeaf with
  | false => rfl
  | true =>
    have := ((isEmptyLeaf_iff n).1 hl).2.2 s
    rw [h] at this
    exact absurd this (by simp)

theorem NodePtr.setPoints_points (n : NodePtr D) : n.setPoints n.points = n := by
  cases n <;> rfl

theorem exists_other_slot (s : Slot) : ∃ s', s' ≠ s := by
  cases s
  · exact ⟨.childTopRight, by simp⟩
  · exact ⟨.childTopLeft, by simp⟩
  · exact ⟨.childTopLeft, by simp⟩
  · exact ⟨.childTopLeft, by simp⟩

/-- Growing below an empty leaf for one entry and then removing that entry:
the entry sits alone in the node at the end of its path; if no split took
place the node is an empty leaf again, otherwise the emptied leaf is detached
and no node left on the path is an empty leaf. -/
theorem grow_remove (pos : Vec2f) (data : D) (n : Nat) :
    ∀ (d : Nat) (m : NodePtr D), maxDepth - d = n → m.isEmptyLeaf = true →
      (grow pos data m d).isNull = false
        ∧ (grow pos data m d).center = m.center
        ∧ ((grow pos data m d).nodeAt (descend pos (grow pos data m d))).points = [⟨pos, data⟩]
        ∧ (maxDepth ≤ d →
            (afterRemove pos (eraseAt 0) (grow pos data m d)).isEmptyLeaf = true)
        ∧ (d < maxDepth →
            (afterRemove pos (eraseAt 0) (grow pos data m d)).isNull = false
              ∧ (afterRemove pos (eraseAt 0) (grow pos data m d)).nodeAt
                  (descend pos (grow pos data m d)) = .null
              ∧ ∀ k, ((afterRemove pos (eraseAt 0) (grow pos data m d)).nodeAt
                  ((descend pos (afterRemove pos (eraseAt 0) (grow pos data m d))).take k)
                  ).isEmptyLeaf = false) := by
  induction n with
  | zero =>
    intro d m hd hm
    obtain ⟨m1, m2, m3⟩ := (isEmptyLeaf_iff m).1 hm
    have hnd : ¬ d < maxDepth := by omega
    have hg : grow pos data m d = m.pushBack ⟨pos, data⟩ := by
      rw [grow_eq]; simp [hnd]
    have hpn : (m.pushBack ⟨pos, data⟩).isNull = false := by
      rw [NodePtr.isNull_pushBack]; exact m1
    have hdesc : descend pos (m.pushBack ⟨pos, data⟩) = [] := by
      rw [descend_eq _ _ hpn]
      simp [NodePtr.pushBack, m3]
    rw [hg]
    refine ⟨hpn, by simp [NodePtr.pushBack], ?_, ?_, fun h => absurd h hnd⟩
    · rw [hdesc]
      simp [NodePtr.nodeAt, NodePtr.pushBack, NodePtr.points_setPoints _ m1, m2]
    · intro _
      rw [afterRemove_eq _ _ _ hpn]
      have : ((m.pushBack ⟨pos, data⟩).child
          (Node.getChild (m.pushBack ⟨pos, data⟩).center pos)).isNull = true := by
        simp [NodePtr.pushBack, m3]
      rw [this]
      simp only [if_true, eraseAt, NodePtr.pushBack, NodePtr.points_setPoints _ m1, m2,
        List.nil_append, NodePtr.setPoints_setPoints]
      have hs : swapErase [(⟨pos, data⟩ : Point D)] 0 = [] := rfl
      rw [hs, ← m2, NodePtr.setPoints_points]
      exact hm
  | succ n ih =>
    intro d m hd hm
    obtain ⟨m1, m2, m3⟩ := (isEmptyLeaf_iff m).1 hm
    have hlt : d < maxDepth := by omega
    obtain ⟨s1, -, -, s4, -, s6⟩ := split_spec m m1
    have hchild : ∀ s, (split m).child s = quadLeaf m.topLeft m.bottomRight m.center s [] := by
      intro s; rw [s6, m2]; rfl
    have hg : grow pos data m d
        = (split m).setChild (Node.getChild m.center pos)
            (grow pos data (quadLeaf m.topLeft m.bottomRight m.center
              (Node.getChild m.center pos) []) (d + 1)) := by
      rw [grow_eq, if_pos ⟨by rw [m2]; simp [maxPointsPerNode], hlt⟩, s4, hchild]
    obtain ⟨i1, i2, i3, i4, i5⟩ := ih (d + 1)
      (quadLeaf m.topLeft m.bottomRight m.center (Node.getChild m.center pos) [])
      (by omega) rfl
    have hgn : (grow pos data m d).isNull = false := by rw [hg]; simpa using s1
    have hgc : (grow pos data m d).center = m.center := by rw [hg]; simpa using s4
    have hgchild : (grow pos data m d).child (Node.getChild m.center pos)
        = grow pos data (quadLeaf m.topLeft m.bottomRight m.center
            (Node.getChild m.center pos) []) (d + 1) := by
      rw [hg, NodePtr.child_setChild_same _ s1]
    have hgdesc : descend pos (grow pos data m d)
        = Node.getChild m.center pos
          :: descend pos (grow pos data (quadLeaf m.topLeft m.bottomRight m.center
              (Node.getChild m.center pos) []) (d + 1)) := by
      rw [descend_eq _ _ hgn, hgc, hgchild, i1]
      simp
    obtain ⟨s', hs'⟩ := exists_other_slot (Node.getChild m.center pos)
    have hother : ∀ X : NodePtr D,
        (((split m).setChild (Node.getChild m.center pos) X).child s').isNull = false := by
      intro X
      rw [NodePtr.child_setChild_other _ _ _ hs', hchild]
      rfl
    refine ⟨hgn, hgc, ?_, fun h => absurd h (by omega), fun _ => ?_⟩
    · rw [hgdesc]
      simp only [NodePtr.nodeAt]
      rw [hgchild]
      exact i3
    · rw [afterRemove_eq _ _ _ hgn, hgc, hgchild, i1]
      simp only [Bool.false_eq_true, if_false]
      by_cases hd1 : d + 1 < maxDepth
      · obtain ⟨j1, j2, j3⟩ := i5 hd1
        have hne : (afterRemove pos (eraseAt 0) (grow pos data
            (quadLeaf m.topLeft m.bottomRight m.center (Node.getChild m.center pos) [])
            (d + 1))).isEmptyLeaf = false := by
          simpa [NodePtr.nodeAt] using j3 0
        rw [hne]
        simp only [Bool.false_eq_true, if_false]
        have hAn : ((grow pos data m d).setChild (Node.getChild m.center pos)
            (afterRemove pos (eraseAt 0) (grow pos data
              (quadLeaf m.topLeft m.bottomRight m.center (Node.getChild m.center pos) [])
              (d + 1)))).isNull = false := by simpa using hgn
        refine ⟨hAn, ?_, ?_⟩
        · rw [hgdesc]
          simp only [NodePtr.nodeAt]
          rw [NodePtr.child_setChild_same _ hgn]
          exact j2
        · intro k
          rw [descend_eq _ _ hAn]
          simp only [NodePtr.center_setChild, hgc, NodePtr.child_setChild_same _ hgn, j1,
            Bool.false_eq_true, if_false]
          cases k with
          | zero =>
            simp only [List.take_zero, NodePtr.nodeAt]
            apply isEmptyLeaf_false_of_child _ (Node.getChild m.center pos)
            rw [NodePtr.child_setChild_same _ hgn]
            exact j1
          | succ k =>
            simp only [List.take_succ_cons, NodePtr.nodeAt]
            rw [NodePtr.child_setChild_same _ hgn]
            exact j3 k
      · have hleaf := i4 (by omega)
        rw [hleaf]
        simp only [if_true]
        have hAn : ((grow pos data m d).setChild (Node.getChild m.center pos)
            (.null : NodePtr D)).isNull = false := by simpa using hgn
        have hAleaf : ((grow pos data m d).setChild (Node.getChild m.center pos)
            (.null : NodePtr D)).isEmptyLeaf = false := by
          apply isEmptyLeaf_false_of_child _ s'
          rw [hg, NodePtr.setChild_setChild]
          exact hother _
        refine ⟨hAn, ?_, ?_⟩
        · rw [hgdesc]
          simp only [NodePtr.nodeAt]
          rw [NodePtr.child_setChild_same _ hgn]
          simp
        · intro k
          rw [descend_eq _ _ hAn]
          simp only [NodePtr.center_setChild, hgc, NodePtr.child_setChild_same _ hgn]
          simpa [NodePtr.nodeAt, NodePtr.isNull] using hAleaf

theorem intersectsWith_true_iff (tl br a b : Vec2f) :
    Node.intersectsWith tl br a b = true
      ↔ tl.y ≤ b.y ∧ tl.x ≤ b.x ∧ a.y ≤ br.y ∧ a.x ≤ br.x := by
  unfold Node.intersectsWith
  by_cases h1 : b.y < tl.y
  · simp only [h1, if_true, Bool.false_eq_true, false_iff, not_and]
    intro h; exact absurd h (not_le.2 h1)
  · by_cases h2 : b.x < tl.x
    · simp only [h1, h2, if_true, if_false, Bool.false_eq_true, false_iff, not_and]
      intro _ h; exact absurd h (not_le.2 h2)
    · by_cases h3 : a.y > br.y
      · simp only [h1, h2, h3, if_true, if_false, Bool.false_eq_true, false_iff, not_and]
        intro _ _ h; exact absurd h (not_le.2 h3)
      · by_cases h4 : a.x > br.x
        · simp only [h1, h2, h3, h4, if_true, if_false, Bool.false_eq_true, false_iff, not_and]
          intro _ _ _ h; exact absurd h (not_le.2 h4)
        · simp only [h1, h2, h3, h4, if_false, true_iff]
          exact ⟨not_lt.1 h1, not_lt.1 h2, not_lt.1 h3, not_lt.1 h4⟩

/-- Claim C13.  For a node whose corners satisfy `topLeft ≤ bottomRight` and a
query rectangle with `a ≤ b`, component-wise, `intersectsWith(a, b)` is true
exactly when some coordinate lies in both closed rectangles; and whatever the
corners are, a coordinate common to both closed rectangles makes
`intersectsWith(a, b)` true. -/
theorem intersectsWith_iff (tl br a b : Vec2f)
    (hnode : tl.x ≤ br.x ∧ tl.y ≤ br.y) (hquery : a.x ≤ b.x ∧ a.y ≤ b.y) :
    (Node.intersectsWith tl br a b = true ↔ ∃ p, inRect tl br p ∧ inRect a b p)
      ∧ ∀ (tl' br' a' b' p : Vec2f), inRect tl' br' p → inRect a' b' p →
          Node.intersectsWith tl' br' a' b' = true := by
  have hcons : ∀ (tl' br' a' b' p : Vec2f), inRect tl' br' p → inRect a' b' p →
      Node.intersectsWith tl' br' a' b' = true := by
    intro tl' br' a' b' p ⟨h1, h2, h3, h4⟩ ⟨q1, q2, q3, q4⟩
    rw [intersectsWith_true_iff]
    exact ⟨le_trans h3 q4, le_trans h1 q2, le_trans q3 h4, le_trans q1 h2⟩
  refine ⟨⟨?_, ?_⟩, hcons⟩
  · intro h
    obtain ⟨i1, i2, i3, i4⟩ := (intersectsWith_true_iff tl br a b).1 h
    refine ⟨⟨max tl.x a.x, max tl.y a.y⟩, ⟨?_, ?_, ?_, ?_⟩, ⟨?_, ?_, ?_, ?_⟩⟩
    · exact le_max_left _ _
    · exact max_le hnode.1 i4
    · exact le_max_left _ _
    · exact max_le hnode.2 i3
    · exact le_max_right _ _
    · exact max_le i2 hquery.1
    · exact le_max_right _ _
    · exact max_le i1 hquery.2
  · rintro ⟨p, hp, hq⟩
    exact hcons tl br a b p hp hq

theorem intersectsWith_iff_witness :
    ((0 : ℚ) ≤ 4 ∧ (0 : ℚ) ≤ 4) ∧ ((4 : ℚ) ≤ 6 ∧ (4 : ℚ) ≤ 6)
      ∧ ((Node.intersectsWith ⟨0, 0⟩ ⟨4, 4⟩ ⟨4, 4⟩ ⟨6, 6⟩ = true
            ↔ ∃ p, inRect ⟨0, 0⟩ ⟨4, 4⟩ p ∧ inRect ⟨4, 4⟩ ⟨6, 6⟩ p)
        ∧ ∀ (tl' br' a' b' p : Vec2f), inRect tl' br' p → inRect a' b' p →
            Node.intersectsWith tl' br' a' b' = true) :=
  ⟨by decide!, by decide!, intersectsWith_iff ⟨0, 0⟩ ⟨4, 4⟩ ⟨4, 4⟩ ⟨6, 6⟩ (by decide!) (by decide!)⟩

/-- Claim C14.  For a node whose center is the exact midpoint of its corners:
`getChild(pos)` selects its slot by the half-open rule; the four children a
split creates have the corners of the four quadrants of the node cut at the
center; a coordinate lies in the node's closed rectangle exactly when it lies
in the closed rectangle of one of these children; and a position inside the
node's closed rectangle lies inside the closed rectangle of the child created
in the slot `getChild(pos)` selects.  (The assumption `topLeft ≤ bottomRight`
of the claim is not needed.) -/
theorem quadrant_routing (m : NodePtr D) (hm : m.isNull = false)
    (hc : m.center
      = ⟨(m.topLeft.x + m.bottomRight.x) / 2, (m.topLeft.y + m.bottomRight.y) / 2⟩)
    (pos : Vec2f) :
    ((Node.getChild m.center pos = .childTopLeft ↔ pos.x < m.center.x ∧ pos.y < m.center.y)
        ∧ (Node.getChild m.center pos = .childBottomLeft
            ↔ pos.x < m.center.x ∧ pos.y ≥ m.center.y)
        ∧ (Node.getChild m.center pos = .childTopRight
            ↔ pos.x ≥ m.center.x ∧ pos.y < m.center.y)
        ∧ (Node.getChild m.center pos = .childBottomRight
            ↔ pos.x ≥ m.center.x ∧ pos.y ≥ m.center.y))
      ∧ (((split m).child .childTopLeft).topLeft = m.topLeft
        ∧ ((split m).child .childTopLeft).bottomRight = m.center
        ∧ ((split m).child .childTopRight).topLeft = ⟨m.center.x, m.topLeft.y⟩
        ∧ ((split m).child .childTopRight).bottomRight = ⟨m.bottomRight.x, m.center.y⟩
        ∧ ((split m).child .childBottomLeft).topLeft = ⟨m.topLeft.x, m.center.y⟩
        ∧ ((split m).child .childBottomLeft).bottomRight = ⟨m.center.x, m.bottomRight.y⟩
        ∧ ((split m).child .childBottomRight).topLeft = m.center
        ∧ ((split m).child .childBottomRight).bottomRight = m.bottomRight)
      ∧ (∀ p, inRect m.topLeft m.bottomRight p
          ↔ ∃ s, inRect ((split m).child s).topLeft ((split m).child s).bottomRight p)
      ∧ (inRect m.topLeft m.bottomRight pos →
          inRect ((split m).child (Node.getChild m.center pos)).topLeft
            ((split m).child (Node.getChild m.center pos)).bottomRight pos) := by
  obtain ⟨-, -, -, -, -, s6⟩ := split_spec m hm
  have hcorn : ∀ s, (((split m).child s).topLeft, ((split m).child s).bottomRight)
      = quadrantCorners m.topLeft m.bottomRight m.center s := by
    intro s; rw [s6]; rfl
  have htl : ∀ s, ((split m).child s).topLeft
      = (quadrantCorners m.topLeft m.bottomRight m.center s).1 :=
    fun s => congrArg Prod.fst (hcorn s)
  have hbr : ∀ s, ((split m).child s).bottomRight
      = (quadrantCorners m.topLeft m.bottomRight m.center s).2 :=
    fun s => congrArg Prod.snd (hcorn s)
  have hroute : ∀ p, inRect m.topLeft m.bottomRight p →
      inRect ((split m).child (Node.getChild m.center p)).topLeft
        ((split m).child (Node.getChild m.center p)).bottomRight p := by
    intro p hp
    rw [htl, hbr]
    exact inRect_quadrant _ _ _ _ hp
  refine ⟨?_, ?_, ?_, hroute pos⟩
  · rcases getChild_cases m.center pos with ⟨hx, hy, e⟩ | ⟨hx, hy, e⟩ | ⟨hx, hy, e⟩ | ⟨hx, hy, e⟩
    · rw [e]
      simp [hx, hy, not_le.2 hx, not_le.2 hy]
    · rw [e]
      simp [hx, hy, not_le.2 hx, not_lt.2 hy]
    · rw [e]
      simp [hx, hy, not_lt.2 hx, not_le.2 hy]
    · rw [e]
      simp [hx, hy, not_lt.2 hx, not_lt.2 hy]
  · simp [htl, hbr, quadrantCorners]
  · intro p
    constructor
    · intro hp
      exact ⟨_, hroute p hp⟩
    · rintro ⟨s, hs⟩
      rw [htl, hbr, hc] at hs
      exact inRect_of_quadrant _ _ _ s hs

theorem quadrant_routing_witness :
    exampleNode.isNull = false
      ∧ exampleNode.center
          = ⟨(exampleNode.topLeft.x + exampleNode.bottomRight.x) / 2,
             (exampleNode.topLeft.y + exampleNode.bottomRight.y) / 2⟩
      ∧ (((Node.getChild exampleNode.center ⟨4, 1⟩ = .childTopLeft
              ↔ (4 : ℚ) < exampleNode.center.x ∧ (1 : ℚ) < exampleNode.center.y)
          ∧ (Node.getChild exampleNode.center ⟨4, 1⟩ = .childBottomLeft
              ↔ (4 : ℚ) < exampleNode.center.x ∧ (1 : ℚ) ≥ exampleNode.center.y)
          ∧ (Node.getChild exampleNode.center ⟨4, 1⟩ = .childTopRight
              ↔ (4 : ℚ) ≥ exampleNode.center.x ∧ (1 : ℚ) < exampleNode.center.y)
          ∧ (Node.getChild exampleNode.center ⟨4, 1⟩ = .childBottomRight
              ↔ (4 : ℚ) ≥ exampleNode.center.x ∧ (1 : ℚ) ≥ exampleNode.center.y))
        ∧ (((split exampleNode).child .childTopLeft).topLeft = exampleNode.topLeft
          ∧ ((split exampleNode).child .childTopLeft).bottomRight = exampleNode.center
          ∧ ((split exampleNode).child .childTopRight).topLeft
              = ⟨exampleNode.center.x, exampleNode.topLeft.y⟩
          ∧ ((split exampleNode).child .childTopRight).bottomRight
              = ⟨exampleNode.bottomRight.x, exampleNode.center.y⟩
          ∧ ((split exampleNode).child .childBottomLeft).topLeft
              = ⟨exampleNode.topLeft.x, exampleNode.center.y⟩
          ∧ ((split exampleNode).child .childBottomLeft).bottomRight
              = ⟨exampleNode.center.x, exampleNode.bottomRight.y⟩
          ∧ ((split exampleNode).child .childBottomRight).topLeft = exampleNode.center
          ∧ ((split exampleNode).child .childBottomRight).bottomRight
              = exampleNode.bottomRight)
        ∧ (∀ p, inRect exampleNode.topLeft exampleNode.bottomRight p
            ↔ ∃ s, inRect ((split exampleNode).child s).topLeft
                ((split exampleNode).child s).bottomRight p)
        ∧ (inRect exampleNode.topLeft exampleNode.bottomRight ⟨4, 1⟩ →
            inRect
              ((split exampleNode).child (Node.getChild exampleNode.center ⟨4, 1⟩)).topLeft
              ((split exampleNode).child
                (Node.getChild exampleNode.center ⟨4, 1⟩)).bottomRight ⟨4, 1⟩)) :=
  ⟨by decide!, by decide!, quadrant_routing exampleNode (by decide!) (by decide!) ⟨4, 1⟩⟩

/-! ## The layered shape of reachable trees -/

theorem shaped_zero_iff (n : NodePtr D) (hn : n.isNull = false) :
    Shaped 0 n ↔ ∀ s, (n.child s).isNull = true := by
  cases n with
  | null => simp [NodePtr.isNull] at hn
  | node tl br c c1 c2 c3 c4 pts =>
    simp only [Shaped]
    constructor
    · rintro ⟨h1, h2, h3, h4⟩ s
      cases s <;> assumption
    · intro h
      exact ⟨h .childTopLeft, h .childTopRight, h .childBottomLeft, h .childBottomRight⟩

theorem shaped_succ_iff (k : Nat) (n : NodePtr D) (hn : n.isNull = false) :
    Shaped (k + 1) n ↔ n.points = [] ∧ ∀ s, Shaped k (n.child s) := by
  cases n with
  | null => simp [NodePtr.isNull] at hn
  | node tl br c c1 c2 c3 c4 pts =>
    simp only [Shaped, NodePtr.points]
    constructor
    · rintro ⟨h0, h1, h2, h3, h4⟩
      refine ⟨h0, ?_⟩
      intro s
      cases s <;> assumption
    · rintro ⟨h0, h⟩
      exact ⟨h0, h .childTopLeft, h .childTopRight, h .childBottomLeft, h .childBottomRight⟩

theorem shaped_null (k : Nat) : Shaped k (.null : NodePtr D) := by
  cases k <;> exact trivial

theorem shaped_emptyLeaf (k : Nat) (m : NodePtr D) (h : m.isEmptyLeaf = true) : Shaped k m := by
  obtain ⟨m1, m2, m3⟩ := (isEmptyLeaf_iff m).1 h
  cases k with
  | zero => exact (shaped_zero_iff m m1).2 m3
  | succ k =>
    rw [shaped_succ_iff k m m1]
    refine ⟨m2, ?_⟩
    intro s
    rw [(NodePtr.isNull_iff _).1 (m3 s)]
    exact shaped_null k

theorem shaped_setPoints_zero (n : NodePtr D) (l : List (Point D)) (h : Shaped 0 n) :
    Shaped 0 (n.setPoints l) := by
  cases n with
  | null => exact trivial
  | node tl br c c1 c2 c3 c4 pts => exact h

theorem shaped_setChild (k : Nat) (n : NodePtr D) (s : Slot) (c : NodePtr D)
    (h : Shaped (k + 1) n) (hc : Shaped k c) : Shaped (k + 1) (n.setChild s c) := by
  cases hn : n.isNull with
  | true => rw [(NodePtr.isNull_iff n).1 hn]; simp only [NodePtr.setChild_null]; exact trivial
  | false =>
    obtain ⟨h1, h2⟩ := (shaped_succ_iff k n hn).1 h
    rw [shaped_succ_iff k _ (by simpa using hn)]
    refine ⟨by simpa using h1, ?_⟩
    intro s'
    rw [NodePtr.child_setChild n hn]
    split
    · exact hc
    · exact h2 s'

/-- The growth loop started `k` levels above the depth bound, at a node of the
layered shape, leaves a subtree of the layered shape. -/
theorem grow_shaped (pos : Vec2f) (data : D) (k : Nat) :
    ∀ (m : NodePtr D) (d : Nat), d + k = maxDepth → m.isNull = false → Shaped k m →
      Shaped k (grow pos data m d) := by
  induction k with
  | zero =>
    intro m d hd hm hs
    have hnd : ¬ d < maxDepth := by omega
    rw [grow_eq]
    simp only [hnd, and_false, if_false, NodePtr.pushBack]
    exact shaped_setPoints_zero _ _ hs
  | succ k ih =>
    intro m d hd hm hs
    obtain ⟨h1, h2⟩ := (shaped_succ_iff k m hm).1 hs
    obtain ⟨s1, -, -, s4, s5, s6⟩ := split_spec m hm
    have hlt : d < maxDepth := by omega
    rw [grow_eq, if_pos ⟨by rw [h1]; simp [maxPointsPerNode], hlt⟩]
    have hleaf : ∀ s, ((split m).child s).isEmptyLeaf = true := by
      intro s; rw [s6, h1]; rfl
    have hsplit : Shaped (k + 1) (split m) := by
      rw [shaped_succ_iff k _ s1]
      exact ⟨s5, fun s => shaped_emptyLeaf k _ (hleaf s)⟩
    apply shaped_setChild k _ _ _ hsplit
    apply ih _ (d + 1) (by omega)
    · exact ((isEmptyLeaf_iff _).1 (hleaf _)).1
    · exact shaped_emptyLeaf k _ (hleaf _)

/-- The layered shape is kept when the node at the end of the descent is
replaced by what the growth loop makes of it, provided the depth passed to the
loop counts the levels as `insert` does. -/
theorem shaped_insert (pos : Vec2f) (data : D) (n : NodePtr D) :
    ∀ (k c : Nat), c + k = maxDepth → n.isNull = false → Shaped k n →
      Shaped k (n.modifyAt (fun m => grow pos data m (c + (descend pos n).length))
        (descend pos n)) := by
  induction n using NodePtr.induction_child with
  | hnull => intro k c _ hn; simp [NodePtr.isNull] at hn
  | hnode n hn ih =>
    intro k c hck _ hs
    rw [descend_eq pos n hn]
    cases hc : (n.child (Node.getChild n.center pos)).isNull with
    | true =>
      simp only [if_true, List.length_nil, Nat.add_zero, NodePtr.modifyAt]
      exact grow_shaped pos data k n c hck hn hs
    | false =>
      simp only [Bool.false_eq_true, if_false, List.length_cons, NodePtr.modifyAt]
      cases k with
      | zero =>
        have := (shaped_zero_iff n hn).1 hs (Node.getChild n.center pos)
        rw [hc] at this
        exact absurd this (by simp)
      | succ k =>
        obtain ⟨h1, h2⟩ := (shaped_succ_iff k n hn).1 hs
        apply shaped_setChild k n _ _ hs
        have := ih (Node.getChild n.center pos) k (c + 1) (by omega) hc (h2 _)
        have harith : c + ((descend pos (n.child (Node.getChild n.center pos))).length + 1)
            = c + 1 + (descend pos (n.child (Node.getChild n.center pos))).length := by omega
        rw [harith]
        exact this

theorem shaped_eraseAt (k i : Nat) (n : NodePtr D) (h : Shaped k n) :
    Shaped k (eraseAt i n) := by
  cases n with
  | null => exact shaped_null k
  | node tl br c c1 c2 c3 c4 pts =>
    cases k with
    | zero => exact h
    | succ k =>
      simp only [Shaped] at h
      simp only [eraseAt, NodePtr.setPoints, NodePtr.points, Shaped]
      refine ⟨?_, h.2⟩
      rw [h.1]
      rfl

theorem shaped_afterRemove (pos : Vec2f) (i : Nat) (n : NodePtr D) :
    ∀ k, n.isNull = false → Shaped k n → Shaped k (afterRemove pos (eraseAt i) n) := by
  induction n using NodePtr.induction_child with
  | hnull => intro k hn; simp [NodePtr.isNull] at hn
  | hnode n hn ih =>
    intro k _ hs
    rw [afterRemove_eq pos _ n hn]
    cases hc : (n.child (Node.getChild n.center pos)).isNull with
    | true => simpa using shaped_eraseAt k i n hs
    | false =>
      simp only [Bool.false_eq_true, if_false]
      cases k with
      | zero =>
        have := (shaped_zero_iff n hn).1 hs (Node.getChild n.center pos)
        rw [hc] at this
        exact absurd this (by simp)
      | succ k =>
        obtain ⟨h1, h2⟩ := (shaped_succ_iff k n hn).1 hs
        split
        · exact shaped_setChild k n _ _ hs (shaped_null k)
        · exact shaped_setChild k n _ _ hs (ih _ k hc (h2 _))

/-- Every reachable tree has the layered shape with `maxDepth - 2` levels
below the root. -/
theorem Reachable.shaped [DecidableEq D] {tl br : Vec2f} {t : Tree D} (h : Reachable tl br t) :
    Shaped (maxDepth - 2) t.root := by
  induction h with
  | new => exact shaped_emptyLeaf _ _ rfl
  | @insert t pos data ht ih =>
    obtain ⟨h1, -, -, -, -⟩ := ht.inv
    by_cases hin : inRect t.root.topLeft t.root.bottomRight pos
    · rw [Tree.insert_inside t pos data h1 hin]
      have := shaped_insert pos data t.root (maxDepth - 2) 2 (by decide) h1 ih
      have harith : 1 + (descend pos t.root).length + 1 = 2 + (descend pos t.root).length := by
        omega
      rw [harith]
      exact this
    · rw [Tree.insert_outside t pos data h1 hin]
      exact ih
  | @remove t pos data ht hne ih =>
    obtain ⟨h1, -, -, -, -⟩ := ht.inv
    have hrem := Tree.remove_eq t pos data h1
    cases hf : findIf data (t.root.nodeAt (descend pos t.root)).points with
    | none =>
      rw [hf] at hrem
      rw [hrem]
      exact ih
    | some i =>
      rw [hf] at hrem
      simp only at hrem
      cases hleaf : (afterRemove pos (eraseAt i)
          (t.root.child (Node.getChild t.root.center pos))).isEmptyLeaf with
      | true =>
        rw [hleaf] at hrem
        simp only [if_true] at hrem
        rw [hrem] at hne
        exact absurd rfl hne
      | false =>
        rw [hleaf] at hrem
        simp only [Bool.false_eq_true, if_false] at hrem
        rw [hrem]
        exact shaped_afterRemove pos i t.root _ h1 ih

theorem shaped_nodeAt (path : List Slot) :
    ∀ (n : NodePtr D) (k : Nat), Shaped k n →
      (path.length ≤ k → Shaped (k - path.length) (n.nodeAt path))
        ∧ (k < path.length → n.nodeAt path = .null) := by
  induction path with
  | nil =>
    intro n k hs
    exact ⟨fun _ => by simpa [NodePtr.nodeAt] using hs, fun h => absurd h (by simp)⟩
  | cons s path ih =>
    intro n k hs
    cases hn : n.isNull with
    | true =>
      rw [(NodePtr.isNull_iff n).1 hn]
      exact ⟨fun _ => by simpa using shaped_null _, fun _ => by simp⟩
    | false =>
      simp only [NodePtr.nodeAt, List.length_cons]
      cases k with
      | zero =>
        have := (shaped_zero_iff n hn).1 hs s
        rw [(NodePtr.isNull_iff _).1 this]
        exact ⟨fun h => absurd h (by omega), fun _ => by simp⟩
      | succ k =>
        obtain ⟨-, h2⟩ := (shaped_succ_iff k n hn).1 hs
        obtain ⟨i1, i2⟩ := ih (n.child s) k (h2 s)
        constructor
        · intro hle
          have := i1 (by omega)
          have harith : k + 1 - (path.length + 1) = k - path.length := by omega
          rw [harith]
          exact this
        · intro hlt
          exact i2 (by omega)

/-- In a reachable tree a node is at most `maxDepth - 2` descents below the
root, and the subtree at it has the layered shape with the remaining levels. -/
theorem Reachable.shaped_at [DecidableEq D] {tl br : Vec2f} {t : Tree D}
    (h : Reachable tl br t) (path : List Slot) (hn : (t.root.nodeAt path).isNull = false) :
    path.length ≤ maxDepth - 2 ∧ Shaped (maxDepth - 2 - path.length) (t.root.nodeAt path) := by
  obtain ⟨i1, i2⟩ := shaped_nodeAt path t.root (maxDepth - 2) h.shaped
  have hlen : path.length ≤ maxDepth - 2 := by
    by_contra hc
    rw [i2 (by omega)] at hn
    simp [NodePtr.isNull] at hn
  exact ⟨hlen, i1 hlen⟩

/-- Claim C16.  In every reachable tree, a node that has at least one child
holds no point. -/
theorem points_only_in_leaves [DecidableEq D] (tl br : Vec2f) (t : Tree D)
    (h : Reachable tl br t) (path : List Slot) (s : Slot)
    (hchild : ((t.root.nodeAt path).child s).isNull = false) :
    (t.root.nodeAt path).points = [] := by
  have hn : (t.root.nodeAt path).isNull = false := by
    cases hn : (t.root.nodeAt path).isNull with
    | false => rfl
    | true =>
      rw [(NodePtr.isNull_iff _).1 hn] at hchild
      simp [NodePtr.isNull] at hchild
  obtain ⟨-, hs⟩ := h.shaped_at path hn
  cases hj : maxDepth - 2 - path.length with
  | zero =>
    rw [hj] at hs
    have := (shaped_zero_iff _ hn).1 hs s
    rw [hchild] at this
    exact absurd this (by simp)
  | succ j =>
    rw [hj] at hs
    exact ((shaped_succ_iff j _ hn).1 hs).1

theorem points_only_in_leaves_witness :
    Reachable ⟨0, 0⟩ ⟨8, 8⟩ (exampleTree.insert ⟨1, 1⟩ 7).2
      ∧ (((exampleTree.insert ⟨1, 1⟩ 7).2.root.nodeAt [.childTopLeft, .childTopLeft]).child
          .childBottomRight).isNull = false
      ∧ ((exampleTree.insert ⟨1, 1⟩ 7).2.root.nodeAt [.childTopLeft, .childTopLeft]).points = [] :=
  ⟨Reachable.insert _ _ Reachable.new, by decide!,
    points_only_in_leaves ⟨0, 0⟩ ⟨8, 8⟩ _ (Reachable.insert _ _ Reachable.new)
      [.childTopLeft, .childTopLeft] .childBottomRight (by decide!)⟩

/-- After the growth loop, the node at the end of the descent along `pos`
holds the points of the node the loop started at, followed by the new entry. -/
theorem grow_end_points (pos : Vec2f) (data : D) (k : Nat) (m : NodePtr D) (d : Nat)
    (hd : d + k = maxDepth) (hm : m.isNull = false) (hs : Shaped k m)
    (hnull : (m.child (Node.getChild m.center pos)).isNull = true) :
    (grow pos data m d).isNull = false
      ∧ (grow pos data m d).center = m.center
      ∧ ((grow pos data m d).nodeAt (descend pos (grow pos data m d))).points
        = m.points ++ [⟨pos, data⟩] := by
  cases k with
  | zero =>
    have hnd : ¬ d < maxDepth := by omega
    have hg : grow pos data m d = m.pushBack ⟨pos, data⟩ := by
      rw [grow_eq]; simp [hnd]
    have hpn : (m.pushBack ⟨pos, data⟩).isNull = false := by
      rw [NodePtr.isNull_pushBack]; exact hm
    have hdesc : descend pos (m.pushBack ⟨pos, data⟩) = [] := by
      rw [descend_eq _ _ hpn]
      simp [NodePtr.pushBack, hnull]
    rw [hg]
    refine ⟨hpn, by simp [NodePtr.pushBack], ?_⟩
    rw [hdesc]
    simp [NodePtr.nodeAt, NodePtr.pushBack, NodePtr.points_setPoints _ hm]
  | succ k =>
    obtain ⟨h1, -⟩ := (shaped_succ_iff k m hm).1 hs
    obtain ⟨s1, -, -, s4, -, s6⟩ := split_spec m hm
    have hlt : d < maxDepth := by omega
    have hchild : ∀ s, (split m).child s = quadLeaf m.topLeft m.bottomRight m.center s [] := by
      intro s; rw [s6, h1]; rfl
    have hg : grow pos data m d
        = (split m).setChild (Node.getChild m.center pos)
            (grow pos data (quadLeaf m.topLeft m.bottomRight m.center
              (Node.getChild m.center pos) []) (d + 1)) := by
      rw [grow_eq, if_pos ⟨by rw [h1]; simp [maxPointsPerNode], hlt⟩, s4, hchild]
    obtain ⟨i1, -, i3, -, -⟩ := grow_remove pos data (maxDepth - (d + 1)) (d + 1)
      (quadLeaf m.topLeft m.bottomRight m.center (Node.getChild m.center pos) []) rfl rfl
    have hgn : (grow pos data m d).isNull = false := by rw [hg]; simpa using s1
    have hgc : (grow pos data m d).center = m.center := by rw [hg]; simpa using s4
    have hgchild : (grow pos data m d).child (Node.getChild m.center pos)
        = grow pos data (quadLeaf m.topLeft m.bottomRight m.center
            (Node.getChild m.center pos) []) (d + 1) := by
      rw [hg, NodePtr.child_setChild_same _ s1]
    refine ⟨hgn, hgc, ?_⟩
    rw [descend_eq _ _ hgn, hgc, hgchild, i1]
    simp only [Bool.false_eq_true, if_false, NodePtr.nodeAt]
    rw [hgchild, i3, h1]
    rfl

/-- The descent along `pos` in a tree modified at the end of that descent goes
on into the modified node. -/
theorem nodeAt_descend_modifyAt (pos : Vec2f) (f : NodePtr D → NodePtr D)
    (hf : ∀ m : NodePtr D, m.isNull = false → (f m).isNull = false ∧ (f m).center = m.center)
    (n : NodePtr D) (hn : n.isNull = false) :
    (n.modifyAt f (descend pos n)).isNull = false
      ∧ (n.modifyAt f (descend pos n)).center = n.center
      ∧ (n.modifyAt f (descend pos n)).nodeAt (descend pos (n.modifyAt f (descend pos n)))
        = (f (n.nodeAt (descend pos n))).nodeAt (descend pos (f (n.nodeAt (descend pos n)))) := by
  induction n using NodePtr.induction_child with
  | hnull => simp [NodePtr.isNull] at hn
  | hnode n hn' ih =>
    rw [modifyAt_descend f pos n hn, descend_eq pos n hn]
    cases hc : (n.child (Node.getChild n.center pos)).isNull with
    | true =>
      simp only [if_true, NodePtr.nodeAt]
      exact ⟨(hf n hn).1, (hf n hn).2, trivial⟩
    | false =>
      simp only [Bool.false_eq_true, if_false, NodePtr.nodeAt]
      obtain ⟨i1, i2, i3⟩ := ih (Node.getChild n.center pos) hc
      have hrn : (n.setChild (Node.getChild n.center pos)
          ((n.child (Node.getChild n.center pos)).modifyAt f
            (descend pos (n.child (Node.getChild n.center pos))))).isNull = false := by
        simpa using hn
      refine ⟨hrn, by simp, ?_⟩
      rw [descend_eq _ _ hrn]
      simp only [NodePtr.center_setChild, NodePtr.child_setChild_same n hn, i1,
        Bool.false_eq_true, if_false, NodePtr.nodeAt]
      exact i3

/-- On a reachable tree, `insert(pos, data)` with `pos` inside the root
rectangle appends the entry to the points of the node at which the descent
along `pos` ended before the call; that list is where the descent ends after
the call. -/
theorem Tree.insert_end_points [DecidableEq D] (tl br : Vec2f) (t : Tree D)
    (h : Reachable tl br t) (pos : Vec2f) (data : D) (hin : inRect tl br pos) :
    ((t.insert pos data).2.root.nodeAt (descend pos (t.insert pos data).2.root)).points
      = (t.root.nodeAt (descend pos t.root)).points ++ [⟨pos, data⟩] := by
  obtain ⟨h1, h2, h3, -, -⟩ := h.inv
  have hin' : inRect t.root.topLeft t.root.bottomRight pos := by rw [h2, h3]; exact hin
  obtain ⟨d1, d2⟩ := descend_end pos t.root h1
  obtain ⟨hlen, hs⟩ := h.shaped_at (descend pos t.root) d1
  rw [Tree.insert_inside t pos data h1 hin']
  have hdk : 1 + (descend pos t.root).length + 1 + (maxDepth - 2 - (descend pos t.root).length)
      = maxDepth := by
    have : 2 ≤ maxDepth := by decide
    omega
  have hf : ∀ m : NodePtr D, m.isNull = false →
      (grow pos data m (1 + (descend pos t.root).length + 1)).isNull = false
        ∧ (grow pos data m (1 + (descend pos t.root).length + 1)).center = m.center := by
    intro m hm
    have hgen : ∀ (fuel : Nat) (m : NodePtr D) (d : Nat), m.isNull = false →
        (growLoop pos data fuel m d).isNull = false
          ∧ (growLoop pos data fuel m d).center = m.center := by
      intro fuel
      induction fuel with
      | zero =>
        intro m d hm
        simp only [growLoop, NodePtr.pushBack]
        exact ⟨by simpa using hm, by simp⟩
      | succ fuel ih =>
        intro m d hm
        simp only [growLoop]
        obtain ⟨s1, -, -, s4, -, -⟩ := split_spec m hm
        split
        · exact ⟨by simpa using s1, by simpa using s4⟩
        · simp only [NodePtr.pushBack]
          exact ⟨by simpa using hm, by simp⟩
    exact hgen _ m _ hm
  obtain ⟨-, -, e3⟩ := nodeAt_descend_modifyAt pos _ hf t.root h1
  rw [e3]
  exact (grow_end_points pos data _ _ _ hdk d1 hs d2).2.2

theorem insertAll_same_position [DecidableEq D] (tl br pos : Vec2f) (hin : inRect tl br pos)
    (es : List (Point D)) :
    ∀ t : Tree D, Reachable tl br t → (∀ e ∈ es, e.position = pos) →
      ∃ t', insertAll t es = (.ok (), t') ∧ Reachable tl br t'
        ∧ (t'.root.nodeAt (descend pos t'.root)).points
          = (t.root.nodeAt (descend pos t.root)).points ++ es := by
  induction es with
  | nil =>
    intro t ht _
    exact ⟨t, rfl, ht, by simp⟩
  | cons e es ih =>
    intro t ht hpos
    have he : e.position = pos := hpos e (List.mem_cons_self _ _)
    obtain ⟨p, dat⟩ := e
    simp only at he
    subst he
    obtain ⟨h1, h2, h3, h4, h5⟩ := ht.inv
    have hin' : inRect t.root.topLeft t.root.bottomRight p := by
      rw [h2, h3]; exact hin
    obtain ⟨i1, -⟩ := Tree.insert_spec t p dat h1 h4 h5 hin'
    obtain ⟨t', k1, k2, k3⟩ := ih (t.insert p dat).2
      (Reachable.insert p dat ht) (fun x hx => hpos x (List.mem_cons_of_mem _ hx))
    refine ⟨t', ?_, k2, ?_⟩
    · simp only [insertAll, i1]
      exact k1
    · rw [k3, Tree.insert_end_points tl br t ht p dat hin, List.append_assoc]
      rfl

/-- Claim C18.  With the built-in constants (`maxPointsPerNode = 5`,
`maxDepth = 5`), in every reachable tree a node that holds a point is exactly
`maxDepth - 2 = 3` descents below the root and no node is deeper; and the
number of points in a node is not limited: inserting any list of entries with
one position (inside the root rectangle) appends all of them, in order, to the
point list of the single node at which the descent along that position
ends. -/
theorem points_at_fixed_depth [DecidableEq D] (tl br : Vec2f) (t : Tree D)
    (h : Reachable tl br t) :
    (maxPointsPerNode = 5 ∧ maxDepth = 5 ∧ maxDepth - 2 = 3)
      ∧ (∀ path, (t.root.nodeAt path).points ≠ [] → path.length = maxDepth - 2)
      ∧ (∀ path, (t.root.nodeAt path).isNull = false → path.length ≤ maxDepth - 2)
      ∧ (∀ (pos : Vec2f) (es : List (Point D)), inRect tl br pos →
          (∀ e ∈ es, e.position = pos) →
          ∃ t', insertAll t es = (.ok (), t')
            ∧ (t'.root.nodeAt (insertDescent pos t'.root 1).1).points
              = (t.root.nodeAt (insertDescent pos t.root 1).1).points ++ es) := by
  refine ⟨⟨rfl, rfl, rfl⟩, ?_, fun path hn => (h.shaped_at path hn).1, ?_⟩
  · intro path hp
    have hn : (t.root.nodeAt path).isNull = false := by
      cases hn : (t.root.nodeAt path).isNull with
      | false => rfl
      | true =>
        rw [(NodePtr.isNull_iff _).1 hn] at hp
        exact absurd rfl hp
    obtain ⟨hle, hs⟩ := h.shaped_at path hn
    by_contra hne
    obtain ⟨j, hj⟩ : ∃ j, maxDepth - 2 - path.length = j + 1 :=
      ⟨maxDepth - 2 - path.length - 1, by omega⟩
    rw [hj] at hs
    exact hp ((shaped_succ_iff j _ hn).1 hs).1
  · intro pos es hin hpos
    obtain ⟨t', k1, k2, k3⟩ := insertAll_same_position tl br pos hin es t h hpos
    obtain ⟨r1, -⟩ := h.inv
    obtain ⟨r2, -⟩ := k2.inv
    refine ⟨t', k1, ?_⟩
    rw [insertDescent_eq pos _ r1, insertDescent_eq pos _ r2]
    exact k3

theorem points_at_fixed_depth_witness :
    Reachable ⟨0, 0⟩ ⟨8, 8⟩ (exampleTree.insert ⟨1, 1⟩ 7).2
      ∧ ((maxPointsPerNode = 5 ∧ maxDepth = 5 ∧ maxDepth - 2 = 3)
        ∧ (∀ path, ((exampleTree.insert ⟨1, 1⟩ 7).2.root.nodeAt path).points ≠ [] →
            path.length = maxDepth - 2)
        ∧ (∀ path, ((exampleTree.insert ⟨1, 1⟩ 7).2.root.nodeAt path).isNull = false →
            path.length ≤ maxDepth - 2)
        ∧ (∀ (pos : Vec2f) (es : List (Point Nat)), inRect ⟨0, 0⟩ ⟨8, 8⟩ pos →
            (∀ e ∈ es, e.position = pos) →
            ∃ t', insertAll (exampleTree.insert ⟨1, 1⟩ 7).2 es = (.ok (), t')
              ∧ (t'.root.nodeAt (insertDescent pos t'.root 1).1).points
                = ((exampleTree.insert ⟨1, 1⟩ 7).2.root.nodeAt
                    (insertDescent pos (exampleTree.insert ⟨1, 1⟩ 7).2.root 1).1).points
                  ++ es)) :=
  ⟨Reachable.insert _ _ Reachable.new,
    points_at_fixed_depth ⟨0, 0⟩ ⟨8, 8⟩ _ (Reachable.insert _ _ Reachable.new)⟩

/-! ## Termination and depth of the growth loop -/

theorem growIterations_le (pos : Vec2f) (fuel : Nat) :
    ∀ (node : NodePtr D) (depth : Nat), growIterations pos fuel node depth ≤ maxDepth - depth := by
  induction fuel with
  | zero => intro node depth; simp [growIterations]
  | succ fuel ih =>
    intro node depth
    simp only [growIterations]
    split
    · rename_i hc
      have := ih ((split node).child (Node.getChild (split node).center pos)) (depth + 1)
      have := hc.2
      omega
    · omega

/-- The growth loop has ended after `maxDepth - depth` iterations: a larger
bound gives the same tree and the same number of splits. -/
theorem growLoop_fuel (pos : Vec2f) (data : D) (fuel : Nat) :
    ∀ (node : NodePtr D) (depth : Nat), maxDepth - depth ≤ fuel →
      growLoop pos data fuel node depth = grow pos data node depth
        ∧ growIterations pos fuel node depth
          = growIterations pos (maxDepth - depth) node depth := by
  induction fuel with
  | zero =>
    intro node depth hle
    have : maxDepth - depth = 0 := by omega
    simp only [grow, this]
    exact ⟨trivial, trivial⟩
  | succ fuel ih =>
    intro node depth hle
    rw [grow_eq]
    simp only [growLoop, growIterations]
    by_cases hc : node.points.length < maxPointsPerNode ∧ depth < maxDepth
    · obtain ⟨i1, i2⟩ := ih ((split node).child (Node.getChild (split node).center pos))
        (depth + 1) (by omega)
      obtain ⟨j, hj⟩ : ∃ j, maxDepth - depth = j + 1 := ⟨maxDepth - depth - 1, by omega⟩
      have hj' : maxDepth - (depth + 1) = j := by omega
      rw [if_pos hc, if_pos hc, i1, i2, hj]
      simp only [growIterations, if_pos hc, hj']
      exact ⟨trivial, trivial⟩
    · rw [if_neg hc, if_neg hc]
      refine ⟨rfl, ?_⟩
      rw [if_neg hc]
      cases maxDepth - depth with
      | zero => rfl
      | succ j => simp only [growIterations, if_neg hc]

/-- Claim C11.  In every reachable tree no node lies deeper than `maxDepth`,
the root counted as depth 1 and one added per descent; and on any call of
`insert` the growth loop makes at most `maxDepth - 1` splits and has ended
within `maxDepth - depth` iterations, whatever points the tree holds. -/
theorem depth_bound [DecidableEq D] (tl br : Vec2f) (t : Tree D) (h : Reachable tl br t) :
    (∀ path, (t.root.nodeAt path).isNull = false → path.length + 1 ≤ maxDepth)
      ∧ (∀ pos, t.insertSplits pos ≤ maxDepth - 1)
      ∧ (∀ (pos : Vec2f) (data : D) (fuel : Nat),
          maxDepth - (insertDescent pos t.root 1).2 ≤ fuel →
          growLoop pos data fuel (t.root.nodeAt (insertDescent pos t.root 1).1)
              (insertDescent pos t.root 1).2
            = grow pos data (t.root.nodeAt (insertDescent pos t.root 1).1)
              (insertDescent pos t.root 1).2
          ∧ growIterations pos fuel (t.root.nodeAt (insertDescent pos t.root 1).1)
              (insertDescent pos t.root 1).2 = t.insertSplits pos) := by
  obtain ⟨h1, -⟩ := h.inv
  refine ⟨?_, ?_, ?_⟩
  · intro path hn
    have hle := (h.shaped_at path hn).1
    have : 2 ≤ maxDepth := by decide
    omega
  · intro pos
    unfold Tree.insertSplits
    have hle := growIterations_le pos (maxDepth - (insertDescent pos t.root 1).2)
      (t.root.nodeAt (insertDescent pos t.root 1).1) (insertDescent pos t.root 1).2
    have hd : (insertDescent pos t.root 1).2 = 1 + (descend pos t.root).length + 1 := by
      rw [insertDescent_eq pos t.root h1]
    omega
  · intro pos data fuel hfuel
    exact growLoop_fuel pos data fuel _ _ hfuel

theorem depth_bound_witness :
    Reachable ⟨0, 0⟩ ⟨8, 8⟩ (exampleTree.insert ⟨1, 1⟩ 7).2
      ∧ ((∀ path, ((exampleTree.insert ⟨1, 1⟩ 7).2.root.nodeAt path).isNull = false →
            path.length + 1 ≤ maxDepth)
        ∧ (∀ pos, (exampleTree.insert ⟨1, 1⟩ 7).2.insertSplits pos ≤ maxDepth - 1)
        ∧ (∀ (pos : Vec2f) (data : Nat) (fuel : Nat),
            maxDepth - (insertDescent pos (exampleTree.insert ⟨1, 1⟩ 7).2.root 1).2 ≤ fuel →
            growLoop pos data fuel
                ((exampleTree.insert ⟨1, 1⟩ 7).2.root.nodeAt
                  (insertDescent pos (exampleTree.insert ⟨1, 1⟩ 7).2.root 1).1)
                (insertDescent pos (exampleTree.insert ⟨1, 1⟩ 7).2.root 1).2
              = grow pos data
                ((exampleTree.insert ⟨1, 1⟩ 7).2.root.nodeAt
                  (insertDescent pos (exampleTree.insert ⟨1, 1⟩ 7).2.root 1).1)
                (insertDescent pos (exampleTree.insert ⟨1, 1⟩ 7).2.root 1).2
            ∧ growIterations pos fuel
                ((exampleTree.insert ⟨1, 1⟩ 7).2.root.nodeAt
                  (insertDescent pos (exampleTree.insert ⟨1, 1⟩ 7).2.root 1).1)
                (insertDescent pos (exampleTree.insert ⟨1, 1⟩ 7).2.root 1).2
              = (exampleTree.insert ⟨1, 1⟩ 7).2.insertSplits pos)) :=
  ⟨Reachable.insert _ _ Reachable.new,
    depth_bound ⟨0, 0⟩ ⟨8, 8⟩ _ (Reachable.insert _ _ Reachable.new)⟩

/-- Claim C12 (the code stops one level early).  For `insert((1,1), 7)` into
the fresh `Tree((0,0), (8,8))`: the descent loop leaves the pointer at the root
with the counter `depth` at 2, the growth loop then makes three splits, and the
call returns with the entry in the node three descents below the root (depth 4
with the root as depth 1), which has no children: no node exists four descents
below the root. -/
theorem insert_stops_one_level_early :
    inRect ⟨0, 0⟩ ⟨8, 8⟩ ⟨1, 1⟩
      ∧ insertDescent ⟨1, 1⟩ exampleTree.root 1 = ([], 2)
      ∧ exampleTree.insertSplits ⟨1, 1⟩ = 3
      ∧ (exampleTree.insert ⟨1, 1⟩ 7).1 = .ok ()
      ∧ ((exampleTree.insert ⟨1, 1⟩ 7).2.root.nodeAt
          [.childTopLeft, .childTopLeft, .childBottomRight]).points = [⟨⟨1, 1⟩, 7⟩]
      ∧ (exampleTree.insert ⟨1, 1⟩ 7).2.entries = {⟨⟨1, 1⟩, 7⟩}
      ∧ ((exampleTree.insert ⟨1, 1⟩ 7).2.root.nodeAt
          [.childTopLeft, .childTopLeft, .childBottomRight]).isEmptyLeaf = false
      ∧ ∀ s, (exampleTree.insert ⟨1, 1⟩ 7).2.root.nodeAt
          [.childTopLeft, .childTopLeft, .childBottomRight, s] = .null := by
  refine ⟨by decide!, by decide!, by decide!, by decide!, by decide!, by decide!, by decide!, ?_⟩
  intro s
  cases s <;> decide!

/-- Claim C15 as stated fails.  After `insert((1,1), 7)` and `remove((1,1), 7)`
on the fresh `Tree((0,0), (8,8))`, both of which return normally, the node two
descents below the root on the path of `(1,1)` has a top-left child but no
bottom-right child. -/
theorem partial_children_counterexample :
    Reachable ⟨0, 0⟩ ⟨8, 8⟩ ((exampleTree.insert ⟨1, 1⟩ 7).2.remove ⟨1, 1⟩ 7).2
      ∧ ((((exampleTree.insert ⟨1, 1⟩ 7).2.remove ⟨1, 1⟩ 7).2.root.nodeAt
          [.childTopLeft, .childTopLeft]).child .childTopLeft).isNull = false
      ∧ ((((exampleTree.insert ⟨1, 1⟩ 7).2.remove ⟨1, 1⟩ 7).2.root.nodeAt
          [.childTopLeft, .childTopLeft]).child .childBottomRight).isNull = true :=
  ⟨Reachable.remove _ _ (Reachable.insert _ _ Reachable.new) (by decide!), by decide!,
    by decide!⟩

theorem InsertReachable.full_inv {tl br : Vec2f} {t : Tree D} (h : InsertReachable tl br t) :
    t.root.isNull = false ∧ t.root.topLeft = tl ∧ t.root.bottomRight = br
      ∧ Geometric t.root ∧ Routed t.root ∧ Full t.root := by
  induction h with
  | new =>
    exact ⟨rfl, rfl, rfl, geometric_new _ _ _ _, routed_new _ _ _ _,
      by simp [Tree.new, Node.new, Full, NodePtr.isNull]⟩
  | @insert t pos data _ ih =>
    obtain ⟨h1, h2, h3, h4, h5, h6⟩ := ih
    by_cases hin : inRect t.root.topLeft t.root.bottomRight pos
    · obtain ⟨-, i2, i3, i4, i5, i6, -⟩ := Tree.insert_spec t pos data h1 h4 h5 hin
      exact ⟨i2, i3.trans h2, i4.trans h3, i5, i6,
        (Tree.insert_full t pos data h1 h4 h5 h6 hin).1⟩
    · rw [Tree.insert_outside t pos data h1 hin]
      exact ⟨h1, h2, h3, h4, h5, h6⟩

/-- Claim C15, amended.  In every tree reachable by calls of `insert` alone,
every node has either no children or all four. -/
theorem children_none_or_four (tl br : Vec2f) (t : Tree D) (h : InsertReachable tl br t)
    (path : List Slot) :
    (∀ s, ((t.root.nodeAt path).child s).isNull = true)
      ∨ (∀ s, ((t.root.nodeAt path).child s).isNull = false) := by
  obtain ⟨-, -, -, -, -, hfull⟩ := h.full_inv
  have hf := full_nodeAt t.root hfull path
  cases hn : (t.root.nodeAt path).isNull with
  | true =>
    left
    intro s
    rw [(NodePtr.isNull_iff _).1 hn]
    rfl
  | false => exact ((full_iff _ hn).1 hf).1

theorem children_none_or_four_witness :
    InsertReachable ⟨0, 0⟩ ⟨8, 8⟩ (exampleTree.insert ⟨1, 1⟩ 7).2
      ∧ ((∀ s, (((exampleTree.insert ⟨1, 1⟩ 7).2.root.nodeAt
            [.childTopLeft, .childTopLeft]).child s).isNull = true)
        ∨ (∀ s, (((exampleTree.insert ⟨1, 1⟩ 7).2.root.nodeAt
            [.childTopLeft, .childTopLeft]).child s).isNull = false)) :=
  ⟨InsertReachable.insert _ _ InsertReachable.new,
    children_none_or_four ⟨0, 0⟩ ⟨8, 8⟩ _ (InsertReachable.insert _ _ InsertReachable.new)
      [.childTopLeft, .childTopLeft]⟩

/-! ## The implemented cleanup against the specified one -/

theorem chain_stackOf (p : List Slot) :
    ∀ (pre : List Slot) (rest : List (List Slot)), ChainStack (pre :: rest) →
      ChainStack (stackOf pre p ++ pre :: rest) := by
  induction p with
  | nil => intro pre rest h; simpa [stackOf] using h
  | cons s p ih =>
    intro pre rest h
    simp only [stackOf, List.append_assoc, List.singleton_append]
    apply ih
    exact ⟨⟨s, rfl⟩, h⟩

theorem stackOf_head (p : List Slot) :
    ∀ (pre : List Slot) (rest : List (List Slot)), p ≠ [] →
      ∃ tail, stackOf pre p ++ rest = (pre ++ p) :: tail := by
  induction p with
  | nil => intro pre rest h; exact absurd rfl h
  | cons s p ih =>
    intro pre rest _
    simp only [stackOf, List.append_assoc, List.singleton_append]
    cases p with
    | nil => exact ⟨rest, by simp [stackOf]⟩
    | cons s' p' =>
      obtain ⟨tail, ht⟩ := ih (pre ++ [s]) ((pre ++ [s]) :: rest) (by simp)
      exact ⟨tail, by rw [ht]; simp⟩

theorem nodeAt_isNull_append (n : NodePtr D) (p q : List Slot)
    (h : (n.nodeAt (p ++ q)).isNull = false) : (n.nodeAt p).isNull = false := by
  cases hn : (n.nodeAt p).isNull with
  | false => rfl
  | true =>
    rw [NodePtr.nodeAt_append, (NodePtr.isNull_iff _).1 hn] at h
    simp [NodePtr.isNull] at h

/-- Once a popped node is kept, the implemented cleanup detaches none of the
nodes it pops afterwards: each of them has the node popped before it as a
child. -/
theorem cleanup_kept (pos : Vec2f) (stack : List (List Slot)) :
    ∀ (root : NodePtr D) (c : List Slot), ChainStack (c :: stack) →
      (root.nodeAt c).isNull = false → (root.nodeAt c).isEmptyLeaf = false →
      cleanup pos root (c :: stack) = (.ok (), root) := by
  induction stack with
  | nil =>
    intro root c _ _ hleaf
    simp [cleanup, hleaf]
  | cons d rest ih =>
    intro root c hchain hn hleaf
    obtain ⟨⟨s, hs⟩, hrest⟩ := hchain
    rw [cleanup]
    simp only [hleaf, Bool.false_eq_true, if_false]
    subst hs
    apply ih root d hrest (nodeAt_isNull_append root d [s] hn)
    apply isEmptyLeaf_false_of_child _ s
    rw [NodePtr.nodeAt_append] at hn
    exact hn

/-- On a stack built by the descent, an implemented cleanup that does not read
the top of the empty stack returns normally and leaves the tree the specified
cleanup leaves. -/
theorem cleanup_eq_cleanupSpec (pos : Vec2f) (stack : List (List Slot)) :
    ∀ (root : NodePtr D), ChainStack stack →
      (∀ c tail, stack = c :: tail → (root.nodeAt c).isNull = false) →
      (cleanup pos root stack).1 ≠ .error .undefinedBehaviour →
      cleanup pos root stack = (.ok (), cleanupSpec pos root stack) := by
  induction stack with
  | nil => intro root _ _ _; rfl
  | cons c rest ih =>
    intro root hchain htop hne
    have hcn := htop c rest rfl
    cases hleaf : (root.nodeAt c).isEmptyLeaf with
    | true =>
      cases rest with
      | nil =>
        simp [cleanup, hleaf] at hne
      | cons d rest' =>
        obtain ⟨⟨s, hs⟩, hrest⟩ := hchain
        rw [cleanup] at hne ⊢
        rw [cleanupSpec]
        simp only [hleaf, if_true] at hne ⊢
        apply ih _ hrest _ hne
        intro c' tail hc'
        simp only [List.cons.injEq] at hc'
        rw [← hc'.1]
        rw [NodePtr.nodeAt_modifyAt _ (by simp)]
        subst hs
        simpa using nodeAt_isNull_append root d [s] hcn
    | false =>
      rw [cleanup_kept pos rest root c hchain hcn hleaf]
      simp [cleanupSpec, hleaf]

/-- Claim C17.  For a reachable tree and a call of `remove` that does not end
in the read of the empty stack, the implemented cleanup, which pops every
recorded node, gives the result and the tree of the specified cleanup, which
stops at the first popped node that is kept; the stack is a chain of parents,
and on such a stack nothing is detached after a node has been kept. -/
theorem cleanup_refines [DecidableEq D] (tl br : Vec2f) (t : Tree D) (h : Reachable tl br t)
    (pos : Vec2f) (data : D)
    (hcomplete : (t.remove pos data).1 ≠ .error .undefinedBehaviour) :
    t.remove pos data = t.removeSpec pos data
      ∧ ChainStack (removeDescent pos t.root [] []).2
      ∧ ∀ (root : NodePtr D) (c : List Slot) (stack : List (List Slot)),
          ChainStack (c :: stack) → (root.nodeAt c).isNull = false →
          (root.nodeAt c).isEmptyLeaf = false → cleanup pos root (c :: stack) = (.ok (), root) := by
  obtain ⟨h1, -⟩ := h.inv
  have hdesc : removeDescent pos t.root [] []
      = (descend pos t.root, stackOf [] (descend pos t.root)) := by
    rw [removeDescent_eq]; simp
  have hchain : ChainStack (stackOf [] (descend pos t.root)) := by
    cases hp : descend pos t.root with
    | nil => exact trivial
    | cons s p =>
      simp only [stackOf, List.nil_append]
      exact chain_stackOf p [s] [] trivial
  refine ⟨?_, by rw [hdesc]; exact hchain,
    fun root c stack hc hn hl => cleanup_kept pos stack root c hc hn hl⟩
  unfold Tree.remove Tree.removeSpec at *
  rw [if_neg (by simp [h1])] at hcomplete ⊢
  rw [if_neg (by simp [h1])]
  rw [hdesc] at hcomplete ⊢
  simp only at hcomplete ⊢
  cases hf : findIf data (t.root.nodeAt (descend pos t.root)).points with
  | none => rfl
  | some i =>
    rw [hf] at hcomplete
    simp only at hcomplete ⊢
    have hnn : ((t.root.modifyAt (eraseAt i) (descend pos t.root)).nodeAt
        (descend pos t.root)).isNull = false := by
      rw [NodePtr.nodeAt_modifyAt _ (by rfl)]
      simpa [eraseAt] using (descend_end pos t.root h1).1
    have htop : ∀ c tail, stackOf [] (descend pos t.root) = c :: tail →
        ((t.root.modifyAt (eraseAt i) (descend pos t.root)).nodeAt c).isNull = false := by
      intro c tail hc
      cases hp : descend pos t.root with
      | nil => rw [hp] at hc; simp [stackOf] at hc
      | cons s p =>
        obtain ⟨tail', ht'⟩ := stackOf_head (s :: p) [] [] (by simp)
        rw [hp] at hc
        simp only [List.append_nil, List.nil_append] at ht'
        rw [ht'] at hc
        simp only [List.cons.injEq] at hc
        rw [← hc.1, ← hp]
        exact hnn
    rw [cleanup_eq_cleanupSpec pos _ _ hchain htop hcomplete]

theorem cleanup_refines_witness :
    Reachable ⟨0, 0⟩ ⟨8, 8⟩ (exampleTree.insert ⟨1, 1⟩ 7).2
      ∧ ((exampleTree.insert ⟨1, 1⟩ 7).2.remove ⟨1, 1⟩ 7).1 ≠ .error .undefinedBehaviour
      ∧ ((exampleTree.insert ⟨1, 1⟩ 7).2.remove ⟨1, 1⟩ 7
            = (exampleTree.insert ⟨1, 1⟩ 7).2.removeSpec ⟨1, 1⟩ 7
        ∧ ChainStack (removeDescent ⟨1, 1⟩ (exampleTree.insert ⟨1, 1⟩ 7).2.root [] []).2
        ∧ ∀ (root : NodePtr Nat) (c : List Slot) (stack : List (List Slot)),
            ChainStack (c :: stack) → (root.nodeAt c).isNull = false →
            (root.nodeAt c).isEmptyLeaf = false →
            cleanup ⟨1, 1⟩ root (c :: stack) = (.ok (), root)) :=
  ⟨Reachable.insert _ _ Reachable.new, by decide!,
    cleanup_refines ⟨0, 0⟩ ⟨8, 8⟩ _ (Reachable.insert _ _ Reachable.new) ⟨1, 1⟩ 7 (by decide!)⟩

end quadtree
